import Mathlib

/-!
Shallow embedding of the logkv-store core storage engine (Go sources under
store/: entry.go, segment.go, segment_manager.go, and the keydir hash table),
together with proofs about the claims of the specification.

Modelling conventions:
* byte buffers are lists of natural numbers (every real byte is < 256);
* Go uint32 arithmetic is Nat arithmetic with explicit truncation mod 2^32;
* fallible operations return Except; disk writes never fail in the model;
* Go pointer identity of boxed keydir entries is modelled by an ident stamp
  drawn from a single allocation counter threaded through the store: two
  entries are the same pointer exactly when their stamps are equal.
-/

namespace LogKV

/-- binary.LittleEndian.PutUint32: the four little-endian bytes of n mod 2^32. -/
def le32 (n : Nat) : List Nat :=
  [n % 256, n / 256 % 256, n / 256 / 256 % 256, n / 256 / 256 / 256 % 256]

/-- binary.LittleEndian.Uint32: reads the first four bytes of a buffer. -/
def read32 (b : List Nat) : Nat :=
  b.getD 0 0 + 256 * (b.getD 1 0 + 256 * (b.getD 2 0 + 256 * b.getD 3 0))

theorem le32_length (n : Nat) : (le32 n).length = 4 := rfl

theorem read32_le32_append (n : Nat) (t : List Nat) :
    read32 (le32 n ++ t) = n % 2 ^ 32 := by
  simp [le32, read32, List.getD]
  omega

theorem read32_le32 (n : Nat) : read32 (le32 n) = n % 2 ^ 32 := by
  have h := read32_le32_append n []
  simpa using h

/-- Go copy(buf[off:], src): overwrites buf starting at off with src, truncated
at the end of buf; the result has the same length as buf. -/
def goCopy (buf : List Nat) (off : Nat) (src : List Nat) : List Nat :=
  buf.take off ++ src.take (buf.length - off) ++ buf.drop (off + src.length)

theorem goCopy_length (buf : List Nat) (off : Nat) (src : List Nat) :
    (goCopy buf off src).length = buf.length := by
  simp [goCopy]
  omega

theorem goCopy_zero (b src : List Nat) (h : src.length ≤ b.length) :
    goCopy b 0 src = src ++ b.drop src.length := by
  simp [goCopy, List.take_of_length_le h]

theorem goCopy_append_left (a b src : List Nat) :
    goCopy (a ++ b) a.length src = a ++ goCopy b 0 src := by
  unfold goCopy
  rw [List.take_left, List.length_append, List.drop_append_eq_append_drop]
  simp [List.append_assoc]

theorem goCopy_append (a b src : List Nat) (off : Nat) (h : off = a.length) :
    goCopy (a ++ b) off src = a ++ goCopy b 0 src := by
  subst h; exact goCopy_append_left a b src

/-- Writing src into the zero-padded region after the prefix X: a single
serialization step of the record codec. -/
theorem fill_step (X src : List Nat) (r off : Nat) (hoff : off = X.length)
    (hsrc : src.length ≤ r) :
    goCopy (X ++ List.replicate r 0) off src
      = (X ++ src) ++ List.replicate (r - src.length) 0 := by
  rw [goCopy_append _ _ _ _ hoff, goCopy_zero _ _ (by simpa using hsrc),
    List.drop_replicate, List.append_assoc]

/-- Entry represents a single record in the append-only log (entry.go). -/
structure Entry where
  timestamp : Nat
  keySize : Nat
  valueSize : Nat
  key : List Nat
  value : Option (List Nat)
deriving DecidableEq, Repr

/-- IsTombstone: zero value size indicates a tombstone. -/
def Entry.isTombstone (e : Entry) : Bool := e.valueSize == 0

/-- Size: 12 header bytes plus key and value payloads. -/
def Entry.size (e : Entry) : Nat := 12 + e.keySize + e.valueSize

theorem Entry.size_pos (e : Entry) : 12 ≤ e.size := by
  unfold Entry.size
  omega

/-- Serialize (entry.go): allocate Size bytes, write the three little-endian
u32 header fields at offsets 0, 4, 8, copy the key at offset 12, and copy the
value bytes after the key when the value size is nonzero. -/
def Entry.serialize (e : Entry) : List Nat :=
  let b0 := List.replicate e.size 0
  let b1 := goCopy b0 0 (le32 e.timestamp)
  let b2 := goCopy b1 4 (le32 e.keySize)
  let b3 := goCopy b2 8 (le32 e.valueSize)
  let b4 := goCopy b3 12 e.key
  if 0 < e.valueSize then goCopy b4 (12 + e.keySize) (e.value.getD []) else b4

theorem serialize_length (e : Entry) : e.serialize.length = e.size := by
  unfold Entry.serialize
  by_cases h : 0 < e.valueSize <;> simp [h, goCopy_length]

/-- DeserializeEntry (entry.go): fails on a buffer shorter than 12 bytes or
when the header sizes disagree with the trailing byte count; the value field
is absent when the value size is zero. -/
def deserializeEntry (data : List Nat) : Option Entry :=
  if data.length < 12 then none
  else
    let ts := read32 data
    let ks := read32 (data.drop 4)
    let vs := read32 (data.drop 8)
    if ks + vs ≠ data.length - 12 then none
    else some { timestamp := ts, keySize := ks, valueSize := vs,
                key := (data.drop 12).take ks,
                value := if 0 < vs then some ((data.drop (12 + ks)).take vs) else none }

/-- A record is well formed when its header sizes agree with its payloads,
its numeric fields fit in 32 bits, its payload bytes are bytes, and a missing
value is exactly a zero value size. -/
def Entry.WellFormed (e : Entry) : Prop :=
  e.timestamp < 2 ^ 32 ∧ e.keySize = e.key.length ∧ e.key.length < 2 ^ 32 ∧
  (∀ b ∈ e.key, b < 256) ∧ (e.value = none ↔ e.valueSize = 0) ∧
  e.valueSize = (e.value.getD []).length ∧ e.valueSize < 2 ^ 32 ∧
  (∀ b ∈ e.value.getD [], b < 256)

instance (e : Entry) : Decidable e.WellFormed :=
  inferInstanceAs (Decidable (_ ∧ _ ∧ _ ∧ _ ∧ _ ∧ _ ∧ _ ∧ _))

theorem Entry.WellFormed.hk {e : Entry} (h : e.WellFormed) :
    e.keySize = e.key.length :=
  h.2.1

theorem Entry.WellFormed.hv {e : Entry} (h : e.WellFormed) :
    e.valueSize = (e.value.getD []).length :=
  h.2.2.2.2.2.1

/-- Closed form of the serializer: header, key and value bytes in order. -/
theorem serialize_eq (e : Entry) (hk : e.keySize = e.key.length)
    (hv : e.valueSize = (e.value.getD []).length) :
    e.serialize
      = le32 e.timestamp ++ le32 e.keySize ++ le32 e.valueSize
          ++ e.key ++ e.value.getD [] := by
  obtain ⟨ts, ks, vs, k, v⟩ := e
  simp only at hk hv
  unfold Entry.serialize
  simp only [Entry.size]
  have h1 : goCopy (List.replicate (12 + ks + vs) 0) 0 (le32 ts)
      = le32 ts ++ List.replicate (8 + ks + vs) 0 := by
    have h := fill_step ([] : List Nat) (le32 ts) (12 + ks + vs) 0 rfl
      (by rw [le32_length]; omega)
    simp only [List.nil_append] at h
    rw [h, le32_length, show 12 + ks + vs - 4 = 8 + ks + vs from by omega]
  have h2 : goCopy (le32 ts ++ List.replicate (8 + ks + vs) 0) 4 (le32 ks)
      = (le32 ts ++ le32 ks) ++ List.replicate (4 + ks + vs) 0 := by
    have h := fill_step (le32 ts) (le32 ks) (8 + ks + vs) 4 (le32_length ts).symm
      (by rw [le32_length]; omega)
    rw [h, le32_length, show 8 + ks + vs - 4 = 4 + ks + vs from by omega]
  have h3 : goCopy ((le32 ts ++ le32 ks) ++ List.replicate (4 + ks + vs) 0) 8 (le32 vs)
      = ((le32 ts ++ le32 ks) ++ le32 vs) ++ List.replicate (ks + vs) 0 := by
    have h := fill_step (le32 ts ++ le32 ks) (le32 vs) (4 + ks + vs) 8
      (by rw [List.length_append, le32_length, le32_length])
      (by rw [le32_length]; omega)
    rw [h, le32_length, show 4 + ks + vs - 4 = ks + vs from by omega]
  have h4 : goCopy (((le32 ts ++ le32 ks) ++ le32 vs) ++ List.replicate (ks + vs) 0) 12 k
      = (((le32 ts ++ le32 ks) ++ le32 vs) ++ k) ++ List.replicate vs 0 := by
    have h := fill_step ((le32 ts ++ le32 ks) ++ le32 vs) k (ks + vs) 12
      (by simp only [List.length_append, le32_length])
      (by omega)
    rw [h, show ks + vs - k.length = vs from by omega]
  rw [h1, h2, h3, h4]
  by_cases hvs : 0 < vs
  · rw [if_pos hvs]
    have h5 := fill_step ((((le32 ts ++ le32 ks) ++ le32 vs) ++ k)) (Option.getD v [])
      vs (12 + ks)
      (by simp only [List.length_append, le32_length]; omega)
      (by omega)
    rw [h5, show vs - (Option.getD v []).length = 0 from by omega]
    simp [List.append_assoc]
  · rw [if_neg hvs]
    have hvz : vs = 0 := by omega
    have hnil : Option.getD v [] = [] := List.length_eq_zero.mp (by omega)
    rw [hnil, hvz]
    simp [List.append_assoc]

/-- Round trip of the record codec on well-formed records. -/
theorem deserializeEntry_serialize (e : Entry) (h : e.WellFormed) :
    deserializeEntry e.serialize = some e := by
  obtain ⟨h1, h2, h3, h4, hiff, hv, hvs32, hb⟩ := h
  have hk : e.keySize = e.key.length := h2
  have hser := serialize_eq e hk hv
  unfold deserializeEntry
  rw [hser]
  have hL4 : (le32 e.timestamp ++ (le32 e.keySize ++ (le32 e.valueSize
      ++ (e.key ++ e.value.getD [])))).length = 12 + e.keySize + e.valueSize := by
    simp [le32_length, ← hk, ← hv]
    omega
  rw [List.append_assoc, List.append_assoc, List.append_assoc]
  have hnot : ¬ (le32 e.timestamp ++ (le32 e.keySize ++ (le32 e.valueSize
      ++ (e.key ++ e.value.getD [])))).length < 12 := by
    rw [hL4]; omega
  rw [if_neg hnot]
  have hdrop4 : (le32 e.timestamp ++ (le32 e.keySize ++ (le32 e.valueSize
      ++ (e.key ++ e.value.getD [])))).drop 4
      = le32 e.keySize ++ (le32 e.valueSize ++ (e.key ++ e.value.getD [])) := by
    rw [show (4 : Nat) = (le32 e.timestamp).length from (le32_length _).symm,
      List.drop_left]
  have hdrop8 : (le32 e.timestamp ++ (le32 e.keySize ++ (le32 e.valueSize
      ++ (e.key ++ e.value.getD [])))).drop 8
      = le32 e.valueSize ++ (e.key ++ e.value.getD []) := by
    rw [show (8 : Nat) = ((le32 e.timestamp ++ le32 e.keySize).length) from
      (by simp [le32_length]), ← List.append_assoc, List.drop_left]
  have hdrop12 : (le32 e.timestamp ++ (le32 e.keySize ++ (le32 e.valueSize
      ++ (e.key ++ e.value.getD [])))).drop 12
      = e.key ++ e.value.getD [] := by
    rw [show (12 : Nat) = ((le32 e.timestamp ++ le32 e.keySize ++ le32 e.valueSize).length)
      from (by simp [le32_length]), ← List.append_assoc, ← List.append_assoc,
      List.drop_left]
  have hts : read32 (le32 e.timestamp ++ (le32 e.keySize ++ (le32 e.valueSize
      ++ (e.key ++ e.value.getD [])))) = e.timestamp := by
    rw [read32_le32_append, Nat.mod_eq_of_lt h1]
  have hks : read32 ((le32 e.timestamp ++ (le32 e.keySize ++ (le32 e.valueSize
      ++ (e.key ++ e.value.getD [])))).drop 4) = e.keySize := by
    rw [hdrop4, read32_le32_append, Nat.mod_eq_of_lt (by omega)]
  have hvsr : read32 ((le32 e.timestamp ++ (le32 e.keySize ++ (le32 e.valueSize
      ++ (e.key ++ e.value.getD [])))).drop 8) = e.valueSize := by
    rw [hdrop8, read32_le32_append, Nat.mod_eq_of_lt hvs32]
  rw [hts, hks, hvsr]
  have hsz : ¬ (e.keySize + e.valueSize
      ≠ (le32 e.timestamp ++ (le32 e.keySize ++ (le32 e.valueSize
        ++ (e.key ++ e.value.getD [])))).length - 12) := by
    rw [hL4]; omega
  rw [if_neg hsz]
  congr 1
  have hkey : ((le32 e.timestamp ++ (le32 e.keySize ++ (le32 e.valueSize
      ++ (e.key ++ e.value.getD [])))).drop 12).take e.keySize = e.key := by
    rw [hdrop12, hk, List.take_left]
  have hval : (if 0 < e.valueSize then
      some (((le32 e.timestamp ++ (le32 e.keySize ++ (le32 e.valueSize
        ++ (e.key ++ e.value.getD [])))).drop (12 + e.keySize)).take e.valueSize)
      else none) = e.value := by
    have hdropk : (le32 e.timestamp ++ (le32 e.keySize ++ (le32 e.valueSize
        ++ (e.key ++ e.value.getD [])))).drop (12 + e.keySize)
        = e.value.getD [] := by
      rw [show 12 + e.keySize = ((le32 e.timestamp ++ le32 e.keySize ++ le32 e.valueSize
        ++ e.key).length) from (by simp [le32_length, hk]; omega)]
      rw [show le32 e.timestamp ++ (le32 e.keySize ++ (le32 e.valueSize
        ++ (e.key ++ e.value.getD [])))
        = (le32 e.timestamp ++ le32 e.keySize ++ le32 e.valueSize ++ e.key)
          ++ e.value.getD [] from (by simp [List.append_assoc])]
      rw [List.drop_left]
    by_cases hvs : 0 < e.valueSize
    · rw [if_pos hvs, hdropk]
      cases hvcase : e.value with
      | none =>
        rw [hvcase] at hiff
        simp only [true_iff] at hiff
        omega
      | some v =>
        rw [hvcase] at hv
        simp only [hvcase, Option.getD_some] at hv ⊢
        rw [List.take_of_length_le (by omega)]
    · rw [if_neg hvs]
      have : e.value = none := hiff.mpr (by omega)
      rw [this]
  rw [hkey, hval]

section AList

variable {κ : Type} [DecidableEq κ] {α : Type}

/-- Lookup in a Go map modelled as an association list (first binding wins). -/
def alGet : List (κ × α) → κ → Option α
  | [], _ => none
  | p :: t, k => if p.1 = k then some p.2 else alGet t k

/-- Go map assignment m[k] = v: replace the binding in place, or add it. -/
def alPut : List (κ × α) → κ → α → List (κ × α)
  | [], k, v => [(k, v)]
  | p :: t, k, v => if p.1 = k then (k, v) :: t else p :: alPut t k v

/-- Go map deletion delete(m, k). -/
def alErase (l : List (κ × α)) (k : κ) : List (κ × α) :=
  l.filter (fun p => p.1 ≠ k)

/-- The keys of the map, in binding order. -/
def alKeys (l : List (κ × α)) : List κ := l.map Prod.fst

theorem alGet_cons (p : κ × α) (t : List (κ × α)) (k : κ) :
    alGet (p :: t) k = if p.1 = k then some p.2 else alGet t k := rfl

theorem alPut_cons (p : κ × α) (t : List (κ × α)) (k : κ) (v : α) :
    alPut (p :: t) k v = if p.1 = k then (k, v) :: t else p :: alPut t k v := rfl

theorem alErase_cons (p : κ × α) (t : List (κ × α)) (k : κ) :
    alErase (p :: t) k = if p.1 = k then alErase t k else p :: alErase t k := by
  by_cases h : p.1 = k <;> simp [alErase, List.filter_cons, h]

omit [DecidableEq κ] in
theorem alKeys_cons (p : κ × α) (t : List (κ × α)) :
    alKeys (p :: t) = p.1 :: alKeys t := rfl

theorem alGet_put_self (l : List (κ × α)) (k : κ) (v : α) :
    alGet (alPut l k v) k = some v := by
  induction l with
  | nil => simp [alGet, alPut]
  | cons p t ih =>
    by_cases h : p.1 = k
    · rw [alPut_cons, if_pos h, alGet_cons]
      simp
    · rw [alPut_cons, if_neg h, alGet_cons, if_neg h, ih]

theorem alGet_put_ne (l : List (κ × α)) (k k' : κ) (v : α) (h : k' ≠ k) :
    alGet (alPut l k v) k' = alGet l k' := by
  have h' : ¬ k = k' := Ne.symm h
  induction l with
  | nil =>
    show alGet [(k, v)] k' = none
    rw [alGet_cons, if_neg h']
    rfl
  | cons p t ih =>
    by_cases hp : p.1 = k
    · rw [alPut_cons, if_pos hp, alGet_cons, if_neg h', alGet_cons,
        if_neg (show ¬ p.1 = k' from hp ▸ h')]
    · rw [alPut_cons, if_neg hp, alGet_cons, alGet_cons, ih]

theorem alGet_erase_self (l : List (κ × α)) (k : κ) :
    alGet (alErase l k) k = none := by
  induction l with
  | nil => rfl
  | cons p t ih =>
    by_cases h : p.1 = k
    · rw [alErase_cons, if_pos h]
      exact ih
    · rw [alErase_cons, if_neg h, alGet_cons, if_neg h]
      exact ih

theorem alGet_erase_ne (l : List (κ × α)) (k k' : κ) (h : k' ≠ k) :
    alGet (alErase l k) k' = alGet l k' := by
  induction l with
  | nil => rfl
  | cons p t ih =>
    by_cases hp : p.1 = k
    · rw [alErase_cons, if_pos hp, alGet_cons,
        if_neg (show ¬ p.1 = k' from hp ▸ Ne.symm h), ih]
    · rw [alErase_cons, if_neg hp, alGet_cons, alGet_cons, ih]

theorem alPut_get_eq (l : List (κ × α)) (k : κ) (v : α) (h : alGet l k = some v) :
    alPut l k v = l := by
  induction l with
  | nil => simp [alGet] at h
  | cons p t ih =>
    by_cases hp : p.1 = k
    · rw [alGet_cons, if_pos hp] at h
      rw [alPut_cons, if_pos hp]
      obtain ⟨p1, p2⟩ := p
      simp only at hp
      simp only [Option.some.injEq] at h
      rw [hp, h]
    · rw [alGet_cons, if_neg hp] at h
      rw [alPut_cons, if_neg hp, ih h]

theorem alKeys_put_present (l : List (κ × α)) (k : κ) (v : α)
    (h : (alGet l k).isSome) : alKeys (alPut l k v) = alKeys l := by
  induction l with
  | nil => simp [alGet] at h
  | cons p t ih =>
    by_cases hp : p.1 = k
    · rw [alPut_cons, if_pos hp, alKeys_cons, alKeys_cons, hp]
    · rw [alGet_cons, if_neg hp] at h
      rw [alPut_cons, if_neg hp, alKeys_cons, alKeys_cons, ih h]

theorem alKeys_put_absent (l : List (κ × α)) (k : κ) (v : α)
    (h : alGet l k = none) : alKeys (alPut l k v) = alKeys l ++ [k] := by
  induction l with
  | nil => rfl
  | cons p t ih =>
    by_cases hp : p.1 = k
    · rw [alGet_cons, if_pos hp] at h
      cases h
    · rw [alGet_cons, if_neg hp] at h
      rw [alPut_cons, if_neg hp, alKeys_cons, alKeys_cons, ih h]
      rfl

theorem alGet_none_iff_not_mem (l : List (κ × α)) (k : κ) :
    alGet l k = none ↔ k ∉ alKeys l := by
  induction l with
  | nil => simp [alGet, alKeys]
  | cons p t ih =>
    rw [alGet_cons, alKeys_cons]
    by_cases hp : p.1 = k
    · simp [hp]
    · simp only [if_neg hp, List.mem_cons, not_or, ih]
      have : ¬ k = p.1 := fun hh => hp hh.symm
      tauto

theorem alGet_isSome_iff_mem (l : List (κ × α)) (k : κ) :
    (alGet l k).isSome ↔ k ∈ alKeys l := by
  cases hg : alGet l k with
  | none => simpa using (alGet_none_iff_not_mem l k).mp hg
  | some v =>
    simp only [Option.isSome_some, true_iff]
    by_contra hmem
    rw [← alGet_none_iff_not_mem] at hmem
    rw [hg] at hmem
    cases hmem

theorem alPut_length_present (l : List (κ × α)) (k : κ) (v : α)
    (h : (alGet l k).isSome) : (alPut l k v).length = l.length := by
  induction l with
  | nil => simp [alGet] at h
  | cons p t ih =>
    by_cases hp : p.1 = k
    · rw [alPut_cons, if_pos hp]
      rfl
    · rw [alGet_cons, if_neg hp] at h
      rw [alPut_cons, if_neg hp, List.length_cons, List.length_cons, ih h]

theorem alPut_length_absent (l : List (κ × α)) (k : κ) (v : α)
    (h : alGet l k = none) : (alPut l k v).length = l.length + 1 := by
  induction l with
  | nil => rfl
  | cons p t ih =>
    by_cases hp : p.1 = k
    · rw [alGet_cons, if_pos hp] at h
      cases h
    · rw [alGet_cons, if_neg hp] at h
      rw [alPut_cons, if_neg hp, List.length_cons, List.length_cons, ih h]

end AList

/-- HashTableEntry (keydir entry). The ident field models the Go pointer
identity of the boxed entry: Put allocates a fresh object, so every insertion
carries a fresh ident drawn from a store-wide counter; Clone and Merge copy
the pointer, hence the ident. Two entries are the same pointer exactly when
all fields including ident coincide. -/
structure HashTableEntry where
  fileID : Nat
  valueSize : Nat
  valuePos : Nat
  timestamp : Nat
  ident : Nat
deriving DecidableEq, Repr

/-- Keys are Go strings, i.e. byte sequences. -/
abbrev Key := List Nat

/-- HashTable is the in-memory keydir: a map from key to entry. -/
abbrev HashTable := List (Key × HashTableEntry)

/-- Put adds or overwrites a key; it installs a freshly allocated entry whose
identity is the given ident stamp. -/
def htPut (h : HashTable) (k : Key) (fileID valuePos valueSize timestamp ident : Nat) :
    HashTable :=
  alPut h k ⟨fileID, valueSize, valuePos, timestamp, ident⟩

/-- Stats: number of live keys and the sum of ValueSize over all entries. -/
def htStats (h : HashTable) : Nat × Nat :=
  (h.length, (h.map (fun p => p.2.valueSize)).sum)

/-- One iteration of HashTable.Merge: the update for key k is applied only if
k is in the snapshot, k is in the receiver, and the receiver entry is
identically the snapshot entry. -/
def htMergeStep (snap : HashTable) (acc : HashTable) (p : Key × HashTableEntry) :
    HashTable :=
  match alGet acc p.1, alGet snap p.1 with
  | some cur, some sv => if cur = sv then alPut acc p.1 p.2 else acc
  | _, _ => acc

/-- HashTable.Merge(src, snap): apply every binding of src through the
conditional step. -/
def htMerge (h src snap : HashTable) : HashTable :=
  src.foldl (htMergeStep snap) h

/-- Clone returns a shallow snapshot: the same bindings, sharing entries. -/
def htClone (h : HashTable) : HashTable := h

theorem htMergeStep_get_ne (snap acc : HashTable) (p : Key × HashTableEntry)
    (k : Key) (h : k ≠ p.1) : alGet (htMergeStep snap acc p) k = alGet acc k := by
  unfold htMergeStep
  cases alGet acc p.1 with
  | none => rfl
  | some cur =>
    cases alGet snap p.1 with
    | none => rfl
    | some sv =>
      by_cases hc : cur = sv
      · simp [hc, alGet_put_ne _ _ _ _ h]
      · simp [hc]

theorem htMergeStep_keys (snap acc : HashTable) (p : Key × HashTableEntry) :
    alKeys (htMergeStep snap acc p) = alKeys acc := by
  unfold htMergeStep
  cases hacc : alGet acc p.1 with
  | none => rfl
  | some cur =>
    cases alGet snap p.1 with
    | none => rfl
    | some sv =>
      by_cases hc : cur = sv
      · show alKeys (if cur = sv then alPut acc p.1 p.2 else acc) = alKeys acc
        rw [if_pos hc]
        exact alKeys_put_present _ _ _ (by simp [hacc])
      · show alKeys (if cur = sv then alPut acc p.1 p.2 else acc) = alKeys acc
        rw [if_neg hc]

theorem htMerge_keys (h src snap : HashTable) :
    alKeys (htMerge h src snap) = alKeys h := by
  unfold htMerge
  induction src generalizing h with
  | nil => rfl
  | cons p rest ih => rw [List.foldl_cons, ih, htMergeStep_keys]

theorem htMerge_get_not_mem (h src snap : HashTable) (k : Key)
    (hk : k ∉ alKeys src) : alGet (htMerge h src snap) k = alGet h k := by
  unfold htMerge
  induction src generalizing h with
  | nil => rfl
  | cons p rest ih =>
    simp only [alKeys, List.map_cons, List.mem_cons, not_or] at hk
    rw [List.foldl_cons, ih _ (by simpa [alKeys] using hk.2),
      htMergeStep_get_ne _ _ _ _ hk.1]

/-- Pointwise description of HashTable.Merge: for a key bound in src, the
entry is replaced exactly when the key is in the receiver and in the snapshot
and the receiver entry is identical to the snapshot entry. -/
theorem htMerge_get (h src snap : HashTable) (k : Key)
    (hnd : (alKeys src).Nodup) :
    alGet (htMerge h src snap) k =
      match alGet src k, alGet h k, alGet snap k with
      | some v, some cur, some sv => if cur = sv then some v else alGet h k
      | _, _, _ => alGet h k := by
  induction src generalizing h with
  | nil =>
    cases hg : alGet h k <;> simp [htMerge, alGet, hg]
  | cons p rest ih =>
    simp only [alKeys, List.map_cons, List.nodup_cons] at hnd
    obtain ⟨hp, hnd'⟩ := hnd
    unfold htMerge
    rw [List.foldl_cons]
    by_cases hk : k = p.1
    · subst hk
      have hrest : alGet (htMerge (htMergeStep snap h p) rest snap) p.1
          = alGet (htMergeStep snap h p) p.1 :=
        htMerge_get_not_mem _ _ _ _ (by simpa [alKeys] using hp)
      rw [show List.foldl (htMergeStep snap) (htMergeStep snap h p) rest
        = htMerge (htMergeStep snap h p) rest snap from rfl, hrest]
      unfold htMergeStep
      rw [alGet_cons, if_pos rfl]
      cases hh : alGet h p.1 with
      | none => simp [hh]
      | some cur =>
        cases hs : alGet snap p.1 with
        | none => simp [hh]
        | some sv =>
          by_cases hc : cur = sv
          · simp [hc, alGet_put_self]
          · simp [hc, hh]
    · have hsrc : alGet (p :: rest) k = alGet rest k := by
        rw [alGet_cons, if_neg (show ¬ p.1 = k from fun hh => hk hh.symm)]
      rw [show List.foldl (htMergeStep snap) (htMergeStep snap h p) rest
        = htMerge (htMergeStep snap h p) rest snap from rfl,
        ih _ hnd', hsrc, htMergeStep_get_ne _ _ _ _ hk]

/-- Error taxonomy of the store (errors.go plus the read failure modes that
segment.go produces as wrapped errors). -/
inductive Err
  | keyNotFound
  | invalidEntry
  | segmentClosed
  | segmentFull
  | mergeInProgress
  | noActiveSegment
  | segmentNotFound
  | readOutOfBounds
  | shortRead
deriving DecidableEq, Repr

/-- DefaultMaxSegmentSize: 10 MiB. -/
def defaultMaxSegmentSize : Nat := 10 * 1024 * 1024

/-- DefaultMaxEntriesPerSegment. -/
def defaultMaxEntriesPerSegment : Nat := 10000

/-- Segment (segment.go): one append-only file with its counters and flags;
data holds the file bytes and size mirrors the tracked size field. -/
structure Segment where
  id : Nat
  data : List Nat
  size : Nat
  entryCount : Nat
  maxSize : Nat
  maxEntries : Nat
  isActive : Bool
  isClosed : Bool
deriving DecidableEq, Repr

/-- NewSegment: creates the segment file and starts active; for a fresh id
the file is empty so the recorded size is zero. -/
def newSegment (id : Nat) : Segment :=
  ⟨id, [], 0, 0, defaultMaxSegmentSize, defaultMaxEntriesPerSegment, true, false⟩

/-- OpenSegment: opens an existing file read-only; the segment starts
inactive, its size is the file size, and its entry count is not recovered. -/
def openSegment (id : Nat) (data : List Nat) : Segment :=
  ⟨id, data, data.length, 0, defaultMaxSegmentSize, defaultMaxEntriesPerSegment,
    false, false⟩

/-- Segment.Append: reject when closed or inactive; seal and report full when
already at capacity; otherwise write the serialized record at the end of the
file and return the offset at which the write started. -/
def Segment.append (s : Segment) (e : Entry) : Segment × Except Err Nat :=
  if s.isClosed then (s, .error .segmentClosed)
  else if !s.isActive then (s, .error .segmentClosed)
  else if s.maxSize ≤ s.size ∨ s.maxEntries ≤ s.entryCount then
    ({ s with isActive := false }, .error .segmentFull)
  else
    let bytes := e.serialize
    let offset := s.size
    ({ s with
        data := s.data ++ bytes
        size := s.size + bytes.length
        entryCount := s.entryCount + 1 }, .ok offset)

/-- Segment.Read: reject positions at or beyond size; read the 12 header
bytes, then the key and value payload, and decode; short reads fail. -/
def Segment.read (s : Segment) (pos : Nat) : Except Err Entry :=
  if s.size ≤ pos then .error .readOutOfBounds
  else
    let header := (s.data.drop pos).take 12
    if header.length < 12 then .error .shortRead
    else
      let keySize := read32 (header.drop 4)
      let valueSize := read32 (header.drop 8)
      let body := (s.data.drop (pos + 12)).take (keySize + valueSize)
      if body.length < keySize + valueSize then .error .shortRead
      else
        match deserializeEntry (header ++ body) with
        | some e => .ok e
        | none => .error .invalidEntry

/-- Insertion step of the ascending integer sort used for segment id lists. -/
def insertNat (n : Nat) : List Nat → List Nat
  | [] => [n]
  | m :: t => if n ≤ m then n :: m :: t else m :: insertNat n t

/-- sort.Ints: ascending order. -/
def sortNat : List Nat → List Nat
  | [] => []
  | n :: t => insertNat n (sortNat t)

theorem insertNat_of_le (n : Nat) (t : List Nat)
    (h : ∀ m ∈ t, n ≤ m) : insertNat n t = n :: t := by
  cases t with
  | nil => rfl
  | cons m t' =>
    unfold insertNat
    rw [if_pos (h m (List.mem_cons_self _ _))]

theorem sortNat_eq_self (l : List Nat) (h : l.Sorted (· ≤ ·)) :
    sortNat l = l := by
  induction l with
  | nil => rfl
  | cons n t ih =>
    rw [List.sorted_cons] at h
    unfold sortNat
    rw [ih h.2, insertNat_of_le _ _ h.1]

/-- SegmentManager (segment_manager.go). -/
structure SegmentManager where
  segments : List (Nat × Segment)
  activeID : Nat
  nextID : Nat
deriving DecidableEq, Repr

/-- createActiveSegment: install a fresh active segment under nextID, point
activeID at it and advance nextID. -/
def smCreateActive (sm : SegmentManager) : SegmentManager :=
  { sm with
      segments := alPut sm.segments sm.nextID (newSegment sm.nextID)
      activeID := sm.nextID
      nextID := sm.nextID + 1 }

/-- NewSegmentManager over an empty directory: no segments are found, so a
fresh active segment is created at id 1. -/
def newSegmentManager : SegmentManager := smCreateActive ⟨[], 0, 1⟩

/-- NewSegmentManager over an existing directory (restart): open every
segment file read-only, advance nextID past the highest id, scan the sorted
ids highest-first for a segment still reporting active (none does, because
OpenSegment marks segments inactive), and finally create a fresh active
segment when the scan found none. -/
def segActivePred (segs : List (Nat × Segment)) (i : Nat) : Bool :=
  match alGet segs i with
  | some seg => seg.isActive && !seg.isClosed
  | none => false

/-- The segment map a restart builds: every file opened read-only. -/
def openSegs (files : List (Nat × List Nat)) : List (Nat × Segment) :=
  files.map (fun f => (f.1, openSegment f.1 f.2))

/-- nextID after a restart: one past the highest id found. -/
def nextIDFrom (files : List (Nat × List Nat)) : Nat :=
  files.foldl (fun acc f => if acc ≤ f.1 then f.1 + 1 else acc) 1

/-- The active id a restart detects: highest id still reporting active. -/
def activeFrom (files : List (Nat × List Nat)) : Nat :=
  ((sortNat (files.map Prod.fst)).reverse.find?
    (segActivePred (openSegs files))).getD 0

def smOpenFrom (files : List (Nat × List Nat)) : SegmentManager :=
  let sm : SegmentManager := ⟨openSegs files, activeFrom files, nextIDFrom files⟩
  if sm.activeID = 0 then smCreateActive sm else sm

/-- SegmentManager.Append: resolve the active segment directly, append, and
on SegmentFull create a new active segment and retry exactly once; an error
from the retry is surfaced. -/
def smAppend (sm : SegmentManager) (e : Entry) :
    SegmentManager × Except Err (Nat × Nat) :=
  if sm.activeID = 0 then (sm, .error .noActiveSegment)
  else
    match alGet sm.segments sm.activeID with
    | none => (sm, .error .segmentNotFound)
    | some seg =>
      match seg.append e with
      | (seg', .ok off) =>
        ({ sm with segments := alPut sm.segments sm.activeID seg' },
          .ok (seg'.id, off))
      | (seg', .error .segmentFull) =>
        let sm1 := { sm with segments := alPut sm.segments sm.activeID seg' }
        let sm2 := smCreateActive sm1
        match alGet sm2.segments sm2.activeID with
        | none => (sm2, .error .segmentNotFound)
        | some seg2 =>
          match seg2.append e with
          | (seg2', .ok off) =>
            ({ sm2 with segments := alPut sm2.segments sm2.activeID seg2' },
              .ok (seg2'.id, off))
          | (seg2', .error err) =>
            ({ sm2 with segments := alPut sm2.segments sm2.activeID seg2' },
              .error err)
      | (seg', .error err) =>
        ({ sm with segments := alPut sm.segments sm.activeID seg' }, .error err)

/-- SegmentManager.Read. -/
def smRead (sm : SegmentManager) (segmentID : Nat) (pos : Nat) : Except Err Entry :=
  match alGet sm.segments segmentID with
  | none => .error .segmentNotFound
  | some seg => seg.read pos

/-- GetSegmentIDs: all ids, ascending. -/
def smGetSegmentIDs (sm : SegmentManager) : List Nat :=
  sortNat (alKeys sm.segments)

/-- GetInactiveSegmentIDs: ids of the segments whose active flag is false,
ascending. -/
def smGetInactiveSegmentIDs (sm : SegmentManager) : List Nat :=
  sortNat (alKeys (sm.segments.filter (fun p => !p.2.isActive)))

/-- DeleteSegment: drop the mapping; a missing id is a no-op. Modelled from
the spec: the Segment.Delete helper (close plus unlink of the file, absent
from the sources) has no in-memory effect beyond removing the mapping and
cannot fail in this model. -/
def smDeleteSegment (sm : SegmentManager) (id : Nat) : SegmentManager :=
  { sm with segments := alErase sm.segments id }

/-- SegmentManager.Merge: union of the segment maps, source bindings win. -/
def smMerge (sm src : SegmentManager) : SegmentManager :=
  { sm with segments := src.segments.foldl (fun acc p => alPut acc p.1 p.2) sm.segments }

/-- The on-disk directory contents of a manager: one file per segment, named
by the segment id, holding the segment bytes. -/
def filesOnDisk (sm : SegmentManager) : List (Nat × List Nat) :=
  sm.segments.map (fun p => (p.2.id, p.2.data))

/-- Concatenated serializations of a record list: the bytes of a segment file
holding exactly those records. -/
def serializeAll (es : List Entry) : List Nat :=
  (es.map Entry.serialize).flatten

/-- Total serialized size of a record list. -/
def sizeSum (es : List Entry) : Nat := (es.map Entry.size).sum

theorem serializeAll_nil : serializeAll [] = [] := rfl

theorem serializeAll_cons (e : Entry) (es : List Entry) :
    serializeAll (e :: es) = e.serialize ++ serializeAll es := by
  simp [serializeAll]

theorem serializeAll_append (a b : List Entry) :
    serializeAll (a ++ b) = serializeAll a ++ serializeAll b := by
  simp [serializeAll]

theorem serializeAll_length (es : List Entry) :
    (serializeAll es).length = sizeSum es := by
  induction es with
  | nil => rfl
  | cons e t ih =>
    rw [serializeAll_cons, List.length_append, serialize_length, ih]
    simp [sizeSum]

/-- Offsets of consecutive records laid out from a starting offset. -/
def withOffsets (start : Nat) : List Entry → List (Nat × Entry)
  | [] => []
  | e :: es => (start, e) :: withOffsets (start + e.size) es

/-- Sequential scan of a segment from a byte position: read a record, advance
by its size, repeat until the end of the segment; the loop body shared by
startup replay (loadSegmentIntoKeyDir) and the compaction copy phase. -/
def segEntriesFrom (s : Segment) (pos : Nat) : Except Err (List (Nat × Entry)) :=
  if _h : pos < s.size then
    match s.read pos with
    | .error err => .error err
    | .ok e =>
      match segEntriesFrom s (pos + e.size) with
      | .error err => .error err
      | .ok rest => .ok ((pos, e) :: rest)
  else .ok []
termination_by s.size - pos
decreasing_by
  have h12 := Entry.size_pos e
  omega

/-- The segment file is exactly the concatenation of well-formed records. -/
def SegHasEntries (s : Segment) (es : List Entry) : Prop :=
  s.data = serializeAll es ∧ s.size = s.data.length ∧ ∀ e ∈ es, e.WellFormed

/-- Reading at a position where a well-formed serialized record starts
returns that record. -/
theorem Segment.read_at (s : Segment) (pos : Nat) (e : Entry) (rest : List Nat)
    (hdrop : s.data.drop pos = e.serialize ++ rest)
    (hsz : s.size = s.data.length)
    (hpos : pos ≤ s.data.length)
    (hwf : e.WellFormed) :
    s.read pos = .ok e := by
  have hserlen : e.serialize.length = e.size := serialize_length e
  have h12 : 12 ≤ e.size := Entry.size_pos e
  have hdroplen : (s.data.drop pos).length = s.data.length - pos := by
    simp
  have hlb : e.size + rest.length = s.data.length - pos := by
    have := congrArg List.length hdrop
    simp [hserlen] at this
    omega
  have hposlt : pos < s.size := by omega
  have hser := serialize_eq e hwf.hk hwf.hv
  have hk32 : e.keySize < 2 ^ 32 := by
    have := hwf.hk
    have := hwf.2.2.1
    omega
  have hv32 : e.valueSize < 2 ^ 32 := hwf.2.2.2.2.2.2.1
  have hkey_len : e.key.length = e.keySize := hwf.hk.symm
  have hval_len : (e.value.getD []).length = e.valueSize := hwf.hv.symm
  have hhead12 : 12 ≤ e.serialize.length := by omega
  have hheader : (s.data.drop pos).take 12
      = le32 e.timestamp ++ le32 e.keySize ++ le32 e.valueSize := by
    rw [hdrop, List.take_append_of_le_length hhead12, hser]
    rw [show le32 e.timestamp ++ le32 e.keySize ++ le32 e.valueSize
        ++ e.key ++ e.value.getD []
      = (le32 e.timestamp ++ le32 e.keySize ++ le32 e.valueSize)
        ++ (e.key ++ e.value.getD []) from by simp [List.append_assoc]]
    rw [show (12 : Nat)
      = (le32 e.timestamp ++ le32 e.keySize ++ le32 e.valueSize).length from by
        simp [le32_length]]
    rw [List.take_left]
  have hheaderlen : (le32 e.timestamp ++ le32 e.keySize ++ le32 e.valueSize).length
      = 12 := by simp [le32_length]
  have hdrop4 : (le32 e.timestamp ++ le32 e.keySize ++ le32 e.valueSize).drop 4
      = le32 e.keySize ++ le32 e.valueSize := by
    rw [List.append_assoc, show (4 : Nat) = (le32 e.timestamp).length from
      (le32_length _).symm, List.drop_left]
  have hdrop8 : (le32 e.timestamp ++ le32 e.keySize ++ le32 e.valueSize).drop 8
      = le32 e.valueSize := by
    rw [show (8 : Nat) = (le32 e.timestamp ++ le32 e.keySize).length from by
      simp [le32_length], List.drop_left]
  have hbody : (s.data.drop (pos + 12)).take (e.keySize + e.valueSize)
      = e.key ++ e.value.getD [] := by
    have hdd : s.data.drop (pos + 12) = (s.data.drop pos).drop 12 := by
      rw [List.drop_drop]
      try congr 1
      try omega
    rw [hdd, hdrop, List.drop_append_of_le_length hhead12, hser]
    rw [show le32 e.timestamp ++ le32 e.keySize ++ le32 e.valueSize
        ++ e.key ++ e.value.getD []
      = (le32 e.timestamp ++ le32 e.keySize ++ le32 e.valueSize)
        ++ (e.key ++ e.value.getD []) from by simp [List.append_assoc]]
    rw [show (12 : Nat)
      = (le32 e.timestamp ++ le32 e.keySize ++ le32 e.valueSize).length from by
        simp [le32_length]]
    rw [List.drop_left]
    rw [show e.keySize + e.valueSize = (e.key ++ e.value.getD []).length from by
      simp [hkey_len, hval_len]]
    rw [List.take_left]
  have hbodylen : (e.key ++ e.value.getD []).length = e.keySize + e.valueSize := by
    simp [hkey_len, hval_len]
  have hjoin : le32 e.timestamp ++ le32 e.keySize ++ le32 e.valueSize
      ++ (e.key ++ e.value.getD []) = e.serialize := by
    rw [hser]
    simp [List.append_assoc]
  unfold Segment.read
  rw [if_neg (by omega)]
  simp only [hheader, hheaderlen, hdrop4, hdrop8, read32_le32_append, read32_le32,
    Nat.mod_eq_of_lt hk32, Nat.mod_eq_of_lt hv32, hbody, hbodylen,
    lt_self_iff_false, if_false, hjoin, deserializeEntry_serialize e hwf]

/-- The sequential scan of a segment holding a record list returns exactly
those records with their starting offsets. -/
theorem segEntriesFrom_spec (s : Segment) (pre post : List Entry)
    (hdata : s.data = serializeAll (pre ++ post))
    (hsz : s.size = s.data.length)
    (hwf : ∀ e ∈ post, e.WellFormed) :
    segEntriesFrom s (serializeAll pre).length
      = .ok (withOffsets (serializeAll pre).length post) := by
  induction post generalizing pre with
  | nil =>
    unfold segEntriesFrom
    rw [dif_neg (by rw [hsz, hdata]; simp)]
    rfl
  | cons e post' ih =>
    have hwfe : e.WellFormed := hwf e (List.mem_cons_self _ _)
    have hdrop : s.data.drop (serializeAll pre).length
        = e.serialize ++ serializeAll post' := by
      rw [hdata, serializeAll_append, List.drop_left, serializeAll_cons]
    have hlenle : (serializeAll pre).length ≤ s.data.length := by
      rw [hdata, serializeAll_append]
      simp
    have hread := Segment.read_at s (serializeAll pre).length e
      (serializeAll post') hdrop hsz hlenle hwfe
    have hposlt : (serializeAll pre).length < s.size := by
      have h12 := Entry.size_pos e
      have hserlen : e.serialize.length = e.size := serialize_length e
      have := congrArg List.length hdrop
      simp at this
      omega
    have hnext : (serializeAll pre).length + e.size
        = (serializeAll (pre ++ [e])).length := by
      rw [serializeAll_append, List.length_append, serializeAll_cons,
        serializeAll_nil, List.append_nil, serialize_length]
    have hih := ih (pre ++ [e])
      (by rw [hdata]; congr 1; simp)
      (fun e' he' => hwf e' (List.mem_cons_of_mem _ he'))
    have hstep : segEntriesFrom s (serializeAll pre).length
        = match segEntriesFrom s ((serializeAll pre).length + e.size) with
          | .error err => .error err
          | .ok rest => .ok (((serializeAll pre).length, e) :: rest) := by
      conv_lhs => rw [segEntriesFrom]
      rw [dif_pos hposlt, hread]
    rw [hstep, hnext, hih]
    rw [show withOffsets (serializeAll pre).length (e :: post')
      = ((serializeAll pre).length, e)
          :: withOffsets ((serializeAll pre).length + e.size) post' from rfl, hnext]

/-- The scanned items of a segment (empty on scan failure). -/
def segItems (s : Segment) : List (Nat × Entry) :=
  match segEntriesFrom s 0 with
  | .ok items => items
  | .error _ => []

/-- Store (entry.go): the public facade. nextIdent models the heap allocator
for keydir entries (Go pointer identity) and isMerging the atomic compaction
guard. -/
structure Store where
  sm : SegmentManager
  hashTable : HashTable
  nextIdent : Nat
  isMerging : Bool
deriving DecidableEq, Repr

/-- New over an empty data directory: a fresh segment manager holding one
empty active segment, and an empty keydir; replay over the single empty
segment is a no-op. -/
def storeNew : Store := ⟨newSegmentManager, [], 0, false⟩

/-- Get: keydir lookup, then a read at the recorded location; the record
value bytes are returned (a nil value reads back as the empty string). -/
def storeGet (st : Store) (key : Key) : Except Err (List Nat) :=
  match alGet st.hashTable key with
  | none => .error .keyNotFound
  | some entry =>
    match smRead st.sm entry.fileID entry.valuePos with
    | .error err => .error err
    | .ok logEntry => .ok (logEntry.value.getD [])

/-- Set: build the record with the current timestamp (u32 truncation as in
Go), append it through the segment manager, then point the keydir at the new
location; an append failure returns before the keydir update. -/
def storeSet (st : Store) (key value : List Nat) (ts : Nat) :
    Store × Except Err Unit :=
  let entry : Entry :=
    { timestamp := ts % 2 ^ 32, keySize := key.length % 2 ^ 32,
      valueSize := value.length % 2 ^ 32, key := key, value := some value }
  match smAppend st.sm entry with
  | (sm', .error err) => ({ st with sm := sm' }, .error err)
  | (sm', .ok (segmentID, offset)) =>
    ({ st with
        sm := sm'
        hashTable := htPut st.hashTable key segmentID offset entry.valueSize
          entry.timestamp st.nextIdent
        nextIdent := st.nextIdent + 1 }, .ok ())

/-- Delete: KeyNotFound when the key is absent; otherwise append a tombstone
and remove the key; an append failure returns before the keydir removal. -/
def storeDelete (st : Store) (key : Key) (ts : Nat) : Store × Except Err Unit :=
  match alGet st.hashTable key with
  | none => (st, .error .keyNotFound)
  | some _ =>
    let tombstone : Entry :=
      { timestamp := ts % 2 ^ 32, keySize := key.length % 2 ^ 32,
        valueSize := 0, key := key, value := none }
    match smAppend st.sm tombstone with
    | (sm', .error err) => ({ st with sm := sm' }, .error err)
    | (sm', .ok _) =>
      ({ st with
          sm := sm'
          hashTable := alErase st.hashTable key }, .ok ())

/-- List: all keydir keys. -/
def storeList (st : Store) : List Key := alKeys st.hashTable

/-- The Stats record returned by Store.Stats. -/
structure StatsResult where
  totalKeys : Nat
  totalSize : Nat
  segments : Nat
deriving DecidableEq, Repr

/-- Stats: keydir statistics plus the number of segments. -/
def storeStats (st : Store) : StatsResult :=
  ⟨(htStats st.hashTable).1, (htStats st.hashTable).2,
    (smGetSegmentIDs st.sm).length⟩

/-- loadSegmentIntoKeyDir: scan the segment from offset zero; Put each
non-tombstone record at its record offset, Delete each tombstone; the keydir
and the entry allocator are threaded through. -/
def kdStep (fid : Nat) (acc : HashTable × Nat) (item : Nat × Entry) :
    HashTable × Nat :=
  if item.2.isTombstone then (alErase acc.1 item.2.key, acc.2)
  else (htPut acc.1 item.2.key fid item.1 item.2.valueSize
    item.2.timestamp acc.2, acc.2 + 1)

def loadSegmentIntoKeyDir (seg : Segment) (kd : HashTable) (ident : Nat) :
    Except Err (HashTable × Nat) :=
  match segEntriesFrom seg 0 with
  | .error err => .error err
  | .ok items => .ok (items.foldl (kdStep seg.id) (kd, ident))

/-- One segment of the startup replay: a missing id is skipped. -/
def loadStep (sm : SegmentManager) (acc : HashTable × Nat) (i : Nat) :
    Except Err (HashTable × Nat) :=
  match alGet sm.segments i with
  | none => .ok acc
  | some seg => loadSegmentIntoKeyDir seg acc.1 acc.2

/-- loadFromSegments: replay every segment in ascending id order; a missing
id is skipped, a scan error aborts startup. -/
def loadFromSegments (sm : SegmentManager) : Except Err (HashTable × Nat) :=
  (smGetSegmentIDs sm).foldlM (loadStep sm) ([], 0)

/-- New over an existing directory: construct the segment manager from the
files on disk and replay all segments into a fresh keydir. Close only closes
file handles and leaves the directory contents in place, so the files seen
here are exactly the segment bytes at shutdown. -/
def storeOpen (files : List (Nat × List Nat)) : Except Err Store :=
  let sm := smOpenFrom files
  match loadFromSegments sm with
  | .error err => .error err
  | .ok (kd, ident) => .ok ⟨sm, kd, ident, false⟩

/-- Copy decision for one scanned record during compaction: advance past
tombstones, and copy a record only when the snapshot still maps its key to
exactly this segment and offset; the copied record is appended to the merge
segment manager and recorded in the merge keydir with the full record size
stored in the ValueSize field, as the source does. -/
def mergeCopyEntry (snap : HashTable) (id : Nat)
    (acc : SegmentManager × HashTable × Nat) (item : Nat × Entry) :
    Except Err (SegmentManager × HashTable × Nat) :=
  let oldOff := item.1
  let se := item.2
  if se.isTombstone then .ok acc
  else
    match alGet snap se.key with
    | none => .ok acc
    | some he =>
      if he.fileID ≠ id ∨ he.valuePos ≠ oldOff then .ok acc
      else
        match smAppend acc.1 se with
        | (_, .error err) => .error err
        | (mergeSM, .ok (newId, newOff)) =>
          .ok (mergeSM,
            htPut acc.2.1 se.key newId newOff (se.size % 2 ^ 32) se.timestamp
              acc.2.2,
            acc.2.2 + 1)

/-- Copy phase over one source segment: scan it sequentially and apply the
copy decision to each record. -/
def mergeCopySegment (snap : HashTable) (sm : SegmentManager) (id : Nat)
    (acc : SegmentManager × HashTable × Nat) :
    Except Err (SegmentManager × HashTable × Nat) :=
  match alGet sm.segments id with
  | none => .ok acc
  | some seg =>
    match segEntriesFrom seg 0 with
    | .error err => .error err
    | .ok items => items.foldlM (mergeCopyEntry snap id) acc

/-- Store.Merge (entry.go): guard on isMerging, pick the inactive targets,
copy live records into a fresh segment manager rooted in the merge_tmp
workspace, then commit: delete the old segments, move the files into the
base directory, union the segment maps, and conditionally merge the merge
keydir into the live one with the snapshot as witness. A copy error aborts
with no change committed; the file renames move bytes already represented in
the merge segments, so they have no separate in-memory effect. -/
def storeMerge (st : Store) : Store × Except Err Unit :=
  if st.isMerging then (st, .error .mergeInProgress)
  else
    let ids := smGetInactiveSegmentIDs st.sm
    if ids = [] then (st, .ok ())
    else
      let snap := htClone st.hashTable
      match ids.foldlM (fun acc i => mergeCopySegment snap st.sm i acc)
          (newSegmentManager, ([] : HashTable), st.nextIdent) with
      | .error err => (st, .error err)
      | .ok (mergeSM, mergeHT, ident') =>
        let sm1 := ids.foldl smDeleteSegment st.sm
        let sm2 := smMerge sm1 mergeSM
        ({ st with
            sm := sm2
            hashTable := htMerge st.hashTable mergeHT snap
            nextIdent := ident' }, .ok ())

/-- One foreground operation together with the timestamp its call of now()
observes. -/
inductive Act
  | set (key value : List Nat) (ts : Nat)
  | del (key : List Nat) (ts : Nat)
deriving DecidableEq, Repr

/-- A byte string: a real Go string has byte values below 256 and a length
that fits in a u32. -/
def ByteStr (l : List Nat) : Prop := (∀ b ∈ l, b < 256) ∧ l.length < 2 ^ 32

instance (l : List Nat) : Decidable (ByteStr l) :=
  inferInstanceAs (Decidable (_ ∧ _))

/-- Validity of an action: key and value are byte strings. -/
def ActValid : Act → Prop
  | .set k v _ => ByteStr k ∧ ByteStr v
  | .del k _ => ByteStr k

instance (a : Act) : Decidable (ActValid a) := by
  cases a with
  | set k v ts => exact inferInstanceAs (Decidable (_ ∧ _))
  | del k ts => exact inferInstanceAs (Decidable (ByteStr k))

/-- Run one action, keeping the post state whether or not the call failed. -/
def runAct (st : Store) : Act → Store
  | .set k v ts => (storeSet st k v ts).1
  | .del k ts => (storeDelete st k ts).1

/-- Run a history of foreground operations against a fresh store. -/
def runActs (acts : List Act) : Store := acts.foldl runAct storeNew

/-- Store states reachable by Set and Delete operations from a fresh store
on an empty directory. -/
inductive Reach : Store → Prop
  | init : Reach storeNew
  | set {st : Store} {k v : List Nat} {ts : Nat} :
      Reach st → ByteStr k → ByteStr v → Reach (storeSet st k v ts).1
  | del {st : Store} {k : List Nat} {ts : Nat} :
      Reach st → ByteStr k → Reach (storeDelete st k ts).1

/-- Store states reachable when successful Merge runs are also allowed. -/
inductive ReachM : Store → Prop
  | init : ReachM storeNew
  | set {st : Store} {k v : List Nat} {ts : Nat} :
      ReachM st → ByteStr k → ByteStr v → ReachM (storeSet st k v ts).1
  | del {st : Store} {k : List Nat} {ts : Nat} :
      ReachM st → ByteStr k → ReachM (storeDelete st k ts).1
  | merge {st : Store} :
      ReachM st → (storeMerge st).2 = .ok () → ReachM (storeMerge st).1

theorem sizeSum_nil : sizeSum [] = 0 := rfl

theorem sizeSum_cons (e : Entry) (es : List Entry) :
    sizeSum (e :: es) = e.size + sizeSum es := by
  simp [sizeSum]

theorem sizeSum_append (a b : List Entry) :
    sizeSum (a ++ b) = sizeSum a + sizeSum b := by
  simp [sizeSum]

theorem withOffsets_append (start : Nat) (a b : List Entry) :
    withOffsets start (a ++ b)
      = withOffsets start a ++ withOffsets (start + sizeSum a) b := by
  induction a generalizing start with
  | nil => simp [withOffsets, sizeSum_nil]
  | cons e t ih =>
    rw [List.cons_append,
      show withOffsets start (e :: (t ++ b))
        = (start, e) :: withOffsets (start + e.size) (t ++ b) from rfl,
      ih,
      show withOffsets start (e :: t)
        = (start, e) :: withOffsets (start + e.size) t from rfl,
      sizeSum_cons, List.cons_append,
      show start + (e.size + sizeSum t) = start + e.size + sizeSum t from by omega]

theorem withOffsets_lb (start : Nat) (es : List Entry) :
    ∀ p ∈ withOffsets start es, start ≤ p.1 := by
  induction es generalizing start with
  | nil => intro p hp; cases hp
  | cons e t ih =>
    intro p hp
    simp only [withOffsets] at hp
    rcases List.mem_cons.mp hp with hp | hp
    · subst hp; exact le_refl _
    · have := ih (start + e.size) p hp
      have h12 := Entry.size_pos e
      omega

theorem withOffsets_unique (start : Nat) (es : List Entry) (off : Nat)
    (e1 e2 : Entry) (h1 : (off, e1) ∈ withOffsets start es)
    (h2 : (off, e2) ∈ withOffsets start es) : e1 = e2 := by
  induction es generalizing start with
  | nil => cases h1
  | cons e t ih =>
    have h12 := Entry.size_pos e
    simp only [withOffsets] at h1 h2
    rcases List.mem_cons.mp h1 with h1 | h1 <;> rcases List.mem_cons.mp h2 with h2 | h2
    · injection h1 with ha hb
      injection h2 with hc hd
      rw [hb, hd]
    · injection h1 with ha hb
      have hlb : start + e.size ≤ off := by
        simpa using withOffsets_lb (start + e.size) t _ h2
      omega
    · injection h2 with ha hb
      have hlb : start + e.size ≤ off := by
        simpa using withOffsets_lb (start + e.size) t _ h1
      omega
    · exact ih (start + e.size) h1 h2

/-- A record list respects the capacity checks while being appended to a
segment whose fill state starts at the given size and count: every append
found the segment below both thresholds. -/
def fillsFrom (sz cnt : Nat) : List Entry → Prop
  | [] => True
  | e :: es => (sz < defaultMaxSegmentSize ∧ cnt < defaultMaxEntriesPerSegment)
      ∧ fillsFrom (sz + e.size) (cnt + 1) es

/-- A sealed record list is at or over one of the capacity thresholds. -/
def segSealed (es : List Entry) : Prop :=
  defaultMaxSegmentSize ≤ sizeSum es ∨ defaultMaxEntriesPerSegment ≤ es.length

/-- Shape of a live segment holding the record list es. -/
def SegInv (i : Nat) (s : Segment) (es : List Entry) : Prop :=
  s.id = i ∧ s.data = serializeAll es ∧ s.size = s.data.length ∧
  s.entryCount = es.length ∧ s.maxSize = defaultMaxSegmentSize ∧
  s.maxEntries = defaultMaxEntriesPerSegment ∧ s.isClosed = false ∧
  (∀ e ∈ es, e.WellFormed) ∧ fillsFrom 0 0 es

/-- View of the segment manager of a foreground-reachable store: the ids are
1..n in ascending order, segment n is the single active one with records es,
and every earlier segment is sealed. -/
def SMView (sm : SegmentManager) (n : Nat) (seg : Segment) (es : List Entry) :
    Prop :=
  1 ≤ n ∧ alKeys sm.segments = List.range' 1 n ∧
  sm.activeID = n ∧ sm.nextID = n + 1 ∧
  alGet sm.segments n = some seg ∧ SegInv n seg es ∧ seg.isActive = true ∧
  (∀ i, 1 ≤ i → i < n →
    ∃ seg' es', alGet sm.segments i = some seg' ∧ SegInv i seg' es' ∧
      seg'.isActive = false ∧ segSealed es')

/-- Shape of the segment manager of a foreground-reachable store. -/
def SMInv (sm : SegmentManager) : Prop :=
  ∃ n seg es, SMView sm n seg es

/-- Every keydir entry resolves inside the segment manager to a record of
its own key at a record boundary, with matching value size and timestamp,
and its ident stamp is below the allocation counter. -/
def KDInv (st : Store) : Prop :=
  ∀ k he, alGet st.hashTable k = some he →
    ∃ seg e, alGet st.sm.segments he.fileID = some seg ∧
      (he.valuePos, e) ∈ segItems seg ∧ e.key = k ∧ e.WellFormed ∧
      e.valueSize = he.valueSize ∧ e.timestamp = he.timestamp ∧
      he.ident < st.nextIdent

/-- Keydir location data without the identity stamp. -/
structure Loc where
  fileID : Nat
  valueSize : Nat
  valuePos : Nat
  timestamp : Nat
deriving DecidableEq, Repr

/-- All records of the store in replay order: ascending segment id, then
ascending offset, tagged with segment id and record offset. -/
def allItems (sm : SegmentManager) : List (Nat × Nat × Entry) :=
  (smGetSegmentIDs sm).flatMap (fun i =>
    match alGet sm.segments i with
    | some seg => (segItems seg).map (fun it => (i, it.1, it.2))
    | none => [])

/-- One replay step: Put the location for a non-tombstone record, Delete the
key for a tombstone. -/
def rebuildStep (kd : List (Key × Loc)) (it : Nat × Nat × Entry) :
    List (Key × Loc) :=
  if it.2.2.isTombstone then alErase kd it.2.2.key
  else alPut kd it.2.2.key ⟨it.1, it.2.2.valueSize, it.2.1, it.2.2.timestamp⟩

/-- Replay of a record sequence into a location map. -/
def rebuild (items : List (Nat × Nat × Entry)) : List (Key × Loc) :=
  items.foldl rebuildStep []

/-- The location replay would reconstruct from a live keydir entry: an entry
recorded with value size zero replays as a deletion. -/
def liveLoc : Option HashTableEntry → Option Loc
  | some he => if he.valueSize = 0 then none
      else some ⟨he.fileID, he.valueSize, he.valuePos, he.timestamp⟩
  | none => none

/-- Replay correspondence: replaying the current segments reconstructs
exactly the live keydir minus its value-size-zero entries. -/
def RInv (st : Store) : Prop :=
  ∀ k, alGet (rebuild (allItems st.sm)) k = liveLoc (alGet st.hashTable k)

/-- The master invariant of foreground-reachable store states. -/
def Inv (st : Store) : Prop :=
  SMInv st.sm ∧ KDInv st ∧ RInv st ∧ st.isMerging = false

theorem segItems_eq {i : Nat} {s : Segment} {es : List Entry}
    (h : SegInv i s es) : segItems s = withOffsets 0 es := by
  obtain ⟨-, hdata, hsz, -, -, -, -, hwf, -⟩ := h
  unfold segItems
  have hspec := segEntriesFrom_spec s [] es (by simpa [serializeAll_nil] using hdata)
    hsz (fun e he => hwf e he)
  simp only [serializeAll_nil, List.length_nil] at hspec
  rw [hspec]

/-- Reading at a member offset of the layout returns that record. -/
theorem read_of_mem_withOffsets (s : Segment) (pre post : List Entry)
    (hdata : s.data = serializeAll (pre ++ post))
    (hsz : s.size = s.data.length)
    (hwf : ∀ e ∈ post, e.WellFormed) (off : Nat) (e : Entry)
    (hmem : (off, e) ∈ withOffsets (serializeAll pre).length post) :
    s.read off = .ok e := by
  induction post generalizing pre with
  | nil => cases hmem
  | cons e' post' ih =>
    simp only [withOffsets] at hmem
    rcases List.mem_cons.mp hmem with hmem | hmem
    · injection hmem with h1 h2
      subst h1
      subst h2
      refine Segment.read_at s _ e (serializeAll post') ?_ hsz ?_
        (hwf e (List.mem_cons_self _ _))
      · rw [hdata, serializeAll_append, List.drop_left, serializeAll_cons]
      · rw [hdata, serializeAll_append]
        simp
    · have hnext : (serializeAll pre).length + e'.size
          = (serializeAll (pre ++ [e'])).length := by
        rw [serializeAll_append, List.length_append, serializeAll_cons,
          serializeAll_nil, List.append_nil, serialize_length]
      rw [hnext] at hmem
      exact ih (pre ++ [e'])
        (by rw [hdata]; congr 1; simp)
        (fun x hx => hwf x (List.mem_cons_of_mem _ hx)) hmem

/-- Reading a record of a well-shaped segment at its recorded offset. -/
theorem read_segItems {i : Nat} {s : Segment} {es : List Entry}
    (h : SegInv i s es) {off : Nat} {e : Entry}
    (hmem : (off, e) ∈ segItems s) : s.read off = .ok e := by
  rw [segItems_eq h] at hmem
  exact read_of_mem_withOffsets s [] es
    (by simpa [serializeAll_nil] using h.2.1) h.2.2.1
    (fun x hx => h.2.2.2.2.2.2.2.1 x hx) off e
    (by simpa [serializeAll_nil] using hmem)

theorem fillsFrom_snoc (es : List Entry) (e : Entry) (sz cnt : Nat)
    (h : fillsFrom sz cnt es)
    (hsz : sz + sizeSum es < defaultMaxSegmentSize)
    (hcnt : cnt + es.length < defaultMaxEntriesPerSegment) :
    fillsFrom sz cnt (es ++ [e]) := by
  induction es generalizing sz cnt with
  | nil =>
    refine ⟨⟨?_, ?_⟩, trivial⟩ <;> simp [sizeSum_nil] at hsz hcnt <;> omega
  | cons x t ih =>
    obtain ⟨hx, ht⟩ := h
    rw [sizeSum_cons] at hsz
    simp only [List.length_cons] at hcnt
    refine ⟨hx, ih _ _ ht (by omega) (by omega)⟩

theorem fillsFrom_single (e : Entry) : fillsFrom 0 0 [e] := by
  refine ⟨⟨?_, ?_⟩, trivial⟩ <;> simp [defaultMaxSegmentSize, defaultMaxEntriesPerSegment]

theorem range'_one_concat (n : Nat) :
    List.range' 1 (n + 1) = List.range' 1 n ++ [n + 1] := by
  rw [List.range'_concat]
  simp [Nat.add_comm]

theorem sorted_range' (s n : Nat) : (List.range' s n).Sorted (· ≤ ·) :=
  (List.pairwise_lt_range' s n 1).imp (fun hl => le_of_lt hl)

theorem smGetSegmentIDs_of_keys (sm : SegmentManager) (n : Nat)
    (h : alKeys sm.segments = List.range' 1 n) :
    smGetSegmentIDs sm = List.range' 1 n := by
  unfold smGetSegmentIDs
  rw [h, sortNat_eq_self _ (sorted_range' 1 n)]

theorem flatMap_congr {α β : Type} (l : List α) (f g : α → List β)
    (h : ∀ x ∈ l, f x = g x) : l.flatMap f = l.flatMap g := by
  induction l with
  | nil => rfl
  | cons x t ih =>
    simp only [List.flatMap_cons, h x (List.mem_cons_self _ _),
      ih (fun y hy => h y (List.mem_cons_of_mem _ hy))]

/-- allItems under an extension of the last (active) block. -/
theorem allItems_extend (sm sm' : SegmentManager) (n off : Nat) (nE : Entry)
    (hn : 1 ≤ n)
    (hk : alKeys sm.segments = List.range' 1 n)
    (hk' : alKeys sm'.segments = List.range' 1 n)
    (hsame : ∀ i, i ≠ n → alGet sm'.segments i = alGet sm.segments i)
    (hlast : ∃ s s', alGet sm.segments n = some s ∧ alGet sm'.segments n = some s' ∧
      segItems s' = segItems s ++ [(off, nE)]) :
    allItems sm' = allItems sm ++ [(n, off, nE)] := by
  obtain ⟨s, s', hs, hs', hitems⟩ := hlast
  unfold allItems
  rw [smGetSegmentIDs_of_keys sm n hk, smGetSegmentIDs_of_keys sm' n hk']
  obtain ⟨m, rfl⟩ : ∃ m, n = m + 1 := ⟨n - 1, by omega⟩
  rw [range'_one_concat m]
  rw [List.flatMap_append, List.flatMap_append]
  have hcong : (List.range' 1 m).flatMap (fun i =>
        match alGet sm'.segments i with
        | some seg => (segItems seg).map (fun it => (i, it.1, it.2))
        | none => [])
      = (List.range' 1 m).flatMap (fun i =>
        match alGet sm.segments i with
        | some seg => (segItems seg).map (fun it => (i, it.1, it.2))
        | none => []) := by
    refine flatMap_congr _ _ _ (fun i hi => ?_)
    have hint := List.mem_range'_1.mp hi
    rw [hsame i (by omega)]
  rw [hcong, List.append_assoc]
  congr 1
  simp only [List.flatMap_cons, List.flatMap_nil, List.append_nil, hs, hs', hitems]
  simp

/-- allItems under creation of a fresh block at id n+1 with a single record,
while existing blocks keep their items. -/
theorem allItems_newblock (sm sm' : SegmentManager) (n : Nat) (nE : Entry)
    (hk : alKeys sm.segments = List.range' 1 n)
    (hk' : alKeys sm'.segments = List.range' 1 (n + 1))
    (hsame : ∀ i, i ≠ n + 1 →
      ((alGet sm.segments i = none ∧ alGet sm'.segments i = none) ∨
       (∃ s s', alGet sm.segments i = some s ∧ alGet sm'.segments i = some s' ∧
         segItems s' = segItems s)))
    (hnew : ∃ s', alGet sm'.segments (n + 1) = some s' ∧ segItems s' = [(0, nE)]) :
    allItems sm' = allItems sm ++ [(n + 1, 0, nE)] := by
  obtain ⟨s', hs', hitems⟩ := hnew
  unfold allItems
  rw [smGetSegmentIDs_of_keys sm n hk, smGetSegmentIDs_of_keys sm' (n + 1) hk']
  rw [range'_one_concat n, List.flatMap_append]
  have hcong : (List.range' 1 n).flatMap (fun i =>
        match alGet sm'.segments i with
        | some seg => (segItems seg).map (fun it => (i, it.1, it.2))
        | none => [])
      = (List.range' 1 n).flatMap (fun i =>
        match alGet sm.segments i with
        | some seg => (segItems seg).map (fun it => (i, it.1, it.2))
        | none => []) := by
    refine flatMap_congr _ _ _ (fun i hi => ?_)
    have hint := List.mem_range'_1.mp hi
    rcases hsame i (by omega) with ⟨h1, h2⟩ | ⟨a, b, h1, h2, h3⟩
    · rw [h1, h2]
    · rw [h1, h2]
      simp only [h3]
  rw [hcong]
  congr 1
  simp only [List.flatMap_cons, List.flatMap_nil, List.append_nil, hs', hitems]
  simp

/-- Online fill state of a run of appends: bins created so far, current bin
byte size and entry count; the rotation rule mirrors the capacity check of
Segment.Append together with the rotation of SegmentManager.Append. -/
structure PackSt where
  bins : Nat
  sz : Nat
  cnt : Nat
deriving DecidableEq, Repr

def packStep (st : PackSt) (r : Nat) : PackSt :=
  if defaultMaxSegmentSize ≤ st.sz ∨ defaultMaxEntriesPerSegment ≤ st.cnt then
    ⟨st.bins + 1, r, 1⟩
  else ⟨st.bins, st.sz + r, st.cnt + 1⟩

def packRun (st : PackSt) (rs : List Nat) : PackSt := rs.foldl packStep st

/-- Bin-count order: fewer bins, or equal bins and a no-larger current bin. -/
def PackLe (a b : PackSt) : Prop :=
  a.bins < b.bins ∨ (a.bins = b.bins ∧ a.sz ≤ b.sz ∧ a.cnt ≤ b.cnt)

theorem packLe_refl (a : PackSt) : PackLe a a := by
  unfold PackLe
  omega

theorem packLe_trans {a b c : PackSt} (h1 : PackLe a b) (h2 : PackLe b c) :
    PackLe a c := by
  unfold PackLe at *
  omega

theorem packStep_mono (a b : PackSt) (r : Nat) (h : PackLe a b) :
    PackLe (packStep a r) (packStep b r) := by
  obtain ⟨ab, asz, ac⟩ := a
  obtain ⟨bb, bsz, bc⟩ := b
  unfold PackLe at h
  simp only at h
  unfold packStep
  by_cases h1 : defaultMaxSegmentSize ≤ asz ∨ defaultMaxEntriesPerSegment ≤ ac
  · by_cases h2 : defaultMaxSegmentSize ≤ bsz ∨ defaultMaxEntriesPerSegment ≤ bc
    · rw [if_pos h1, if_pos h2]
      show ab + 1 < bb + 1 ∨ (ab + 1 = bb + 1 ∧ r ≤ r ∧ 1 ≤ 1)
      omega
    · rw [if_pos h1, if_neg h2]
      show ab + 1 < bb ∨ (ab + 1 = bb ∧ r ≤ bsz + r ∧ 1 ≤ bc + 1)
      omega
  · by_cases h2 : defaultMaxSegmentSize ≤ bsz ∨ defaultMaxEntriesPerSegment ≤ bc
    · rw [if_neg h1, if_pos h2]
      show ab < bb + 1 ∨ (ab = bb + 1 ∧ asz + r ≤ r ∧ ac + 1 ≤ 1)
      omega
    · rw [if_neg h1, if_neg h2]
      show ab < bb ∨ (ab = bb ∧ asz + r ≤ bsz + r ∧ ac + 1 ≤ bc + 1)
      omega

theorem packLe_skip (a : PackSt) (r : Nat) : PackLe a (packStep a r) := by
  obtain ⟨ab, asz, ac⟩ := a
  unfold packStep
  by_cases h1 : defaultMaxSegmentSize ≤ asz ∨ defaultMaxEntriesPerSegment ≤ ac
  · rw [if_pos h1]
    show ab < ab + 1 ∨ (ab = ab + 1 ∧ asz ≤ r ∧ ac ≤ 1)
    omega
  · rw [if_neg h1]
    show ab < ab ∨ (ab = ab ∧ asz ≤ asz + r ∧ ac ≤ ac + 1)
    omega

theorem packRun_mono (rs : List Nat) (a b : PackSt) (h : PackLe a b) :
    PackLe (packRun a rs) (packRun b rs) := by
  induction rs generalizing a b with
  | nil => exact h
  | cons r t ih => exact ih _ _ (packStep_mono a b r h)

theorem packRun_sublist {rs' rs : List Nat} (h : rs'.Sublist rs) :
    ∀ a, PackLe (packRun a rs') (packRun a rs) := by
  induction h with
  | slnil => exact fun a => packLe_refl _
  | cons x h ih =>
    intro a
    exact packLe_trans (ih a) (packRun_mono _ _ _ (packLe_skip a x))
  | cons₂ x h ih =>
    intro a
    exact ih (packStep a x)

theorem packLe_bins {a b : PackSt} (h : PackLe a b) : a.bins ≤ b.bins := by
  unfold PackLe at h
  omega

theorem packRun_append (st : PackSt) (xs ys : List Nat) :
    packRun st (xs ++ ys) = packRun (packRun st xs) ys := by
  simp [packRun, List.foldl_append]

/-- Appending a record list that respected the capacity checks never rotates. -/
theorem packRun_fills (es : List Entry) (sz cnt : Nat) (h : fillsFrom sz cnt es)
    (b : Nat) :
    packRun ⟨b, sz, cnt⟩ (es.map Entry.size)
      = ⟨b, sz + sizeSum es, cnt + es.length⟩ := by
  induction es generalizing sz cnt with
  | nil => simp [packRun, sizeSum_nil]
  | cons e t ih =>
    obtain ⟨⟨h1, h2⟩, ht⟩ := h
    simp only [packRun, List.map_cons, List.foldl_cons]
    rw [show packStep ⟨b, sz, cnt⟩ e.size = ⟨b, sz + e.size, cnt + 1⟩ from by
      unfold packStep
      rw [if_neg (by simp only []; omega)]]
    have hrec := ih (sz + e.size) (cnt + 1) ht
    simp only [packRun] at hrec
    rw [hrec, sizeSum_cons, List.length_cons]
    congr 1 <;> omega

/-- A sealed fill state rotates once and then fills the next bin. -/
theorem packRun_block_sealed (es : List Entry) (hf : fillsFrom 0 0 es)
    (hne : es ≠ []) (b sz cnt : Nat)
    (hfull : defaultMaxSegmentSize ≤ sz ∨ defaultMaxEntriesPerSegment ≤ cnt) :
    packRun ⟨b, sz, cnt⟩ (es.map Entry.size) = ⟨b + 1, sizeSum es, es.length⟩ := by
  cases es with
  | nil => exact absurd rfl hne
  | cons e t =>
    obtain ⟨-, ht⟩ := hf
    simp only [Nat.zero_add] at ht
    simp only [packRun, List.map_cons, List.foldl_cons]
    rw [show packStep ⟨b, sz, cnt⟩ e.size = ⟨b + 1, e.size, 1⟩ from by
      unfold packStep
      rw [if_pos hfull]]
    have hrec := packRun_fills t e.size 1 ht (b + 1)
    simp only [packRun] at hrec
    rw [hrec, sizeSum_cons, List.length_cons]
    congr 1
    omega

/-- Chaining sealed blocks from a sealed state: one new bin per block, ending
sealed again. -/
theorem packRun_chain_sealed (bs : List (List Entry))
    (hf : ∀ es ∈ bs, fillsFrom 0 0 es)
    (hsealed : ∀ es ∈ bs, segSealed es)
    (hne : ∀ es ∈ bs, es ≠ []) :
    ∀ b sz cnt,
      (defaultMaxSegmentSize ≤ sz ∨ defaultMaxEntriesPerSegment ≤ cnt) →
      ∃ szf cntf,
        packRun ⟨b, sz, cnt⟩ (bs.flatten.map Entry.size)
          = ⟨b + bs.length, szf, cntf⟩ ∧
        (defaultMaxSegmentSize ≤ szf ∨ defaultMaxEntriesPerSegment ≤ cntf) := by
  induction bs with
  | nil =>
    intro b sz cnt hfull
    exact ⟨sz, cnt, by simp [packRun], hfull⟩
  | cons es rest ih =>
    intro b sz cnt hfull
    rw [List.flatten_cons, List.map_append, packRun_append]
    rw [packRun_block_sealed es (hf es (List.mem_cons_self _ _))
      (hne es (List.mem_cons_self _ _)) b sz cnt hfull]
    obtain ⟨szf, cntf, heq, hsf⟩ := ih
      (fun x hx => hf x (List.mem_cons_of_mem _ hx))
      (fun x hx => hsealed x (List.mem_cons_of_mem _ hx))
      (fun x hx => hne x (List.mem_cons_of_mem _ hx))
      (b + 1) (sizeSum es) es.length (hsealed es (List.mem_cons_self _ _))
    refine ⟨szf, cntf, ?_, hsf⟩
    rw [heq, List.length_cons]
    congr 1
    omega

/-- Packing the records of a run of sealed source segments from a fresh
state uses exactly one bin per segment. -/
theorem packRun_prefix (bs : List (List Entry))
    (hf : ∀ es ∈ bs, fillsFrom 0 0 es)
    (hsealed : ∀ es ∈ bs, segSealed es)
    (hne0 : bs ≠ []) :
    ∃ szf cntf,
      packRun ⟨1, 0, 0⟩ (bs.flatten.map Entry.size) = ⟨bs.length, szf, cntf⟩ := by
  have hne : ∀ es ∈ bs, es ≠ [] := by
    intro es hes heq
    have := hsealed es hes
    rw [heq] at this
    unfold segSealed at this
    simp [sizeSum_nil, defaultMaxSegmentSize, defaultMaxEntriesPerSegment] at this
  cases bs with
  | nil => exact absurd rfl hne0
  | cons es rest =>
    rw [List.flatten_cons, List.map_append, packRun_append]
    rw [show packRun ⟨1, 0, 0⟩ (es.map Entry.size) = ⟨1, sizeSum es, es.length⟩ from by
      have := packRun_fills es 0 0 (hf es (List.mem_cons_self _ _)) 1
      simpa using this]
    obtain ⟨szf, cntf, heq, -⟩ := packRun_chain_sealed rest
      (fun x hx => hf x (List.mem_cons_of_mem _ hx))
      (fun x hx => hsealed x (List.mem_cons_of_mem _ hx))
      (fun x hx => hne x (List.mem_cons_of_mem _ hx))
      1 (sizeSum es) es.length (hsealed es (List.mem_cons_self _ _))
    refine ⟨szf, cntf, ?_⟩
    rw [heq, List.length_cons]
    congr 1
    omega

/-- Characterization of SegmentManager.Append on a well-shaped manager: the
append succeeds into the active segment, or into a freshly created one when
the active segment reports full; the returned offset is the byte size of the
records already in the receiving segment, the manager stays well shaped, the
replay item list grows by exactly the new record, the items of all existing
segments are preserved, and the fill state evolves by one packing step. -/
theorem smAppend_view (sm : SegmentManager) (n : Nat) (seg : Segment)
    (es : List Entry) (hv : SMView sm n seg es) (e nE : Entry)
    (hser : nE.serialize = e.serialize)
    (hwf : nE.WellFormed) :
    ∃ sm' segID seg2 esPre,
      smAppend sm e = (sm', .ok (segID, sizeSum esPre)) ∧
      SMView sm' segID seg2 (esPre ++ [nE]) ∧
      allItems sm' = allItems sm ++ [(segID, sizeSum esPre, nE)] ∧
      (∀ i s0, alGet sm.segments i = some s0 →
        ∃ s1, alGet sm'.segments i = some s1 ∧ s1.id = s0.id ∧
          (∀ it ∈ segItems s0, it ∈ segItems s1)) ∧
      (⟨segID, sizeSum (esPre ++ [nE]), (esPre ++ [nE]).length⟩ : PackSt)
        = packStep ⟨n, sizeSum es, es.length⟩ nE.size ∧
      n ≤ segID ∧ segID ≤ n + 1 := by
  obtain ⟨hn1, hkeys, hact, hnext, hget, hseginv, hactive, hrest⟩ := hv
  obtain ⟨hid, hdata, hsz, hcnt, hmaxS, hmaxE, hclosed, hwfall, hfills⟩ := hseginv
  have hsize_es : seg.size = sizeSum es := by
    rw [hsz, hdata, serializeAll_length]
  have hlen_ser : e.serialize.length = nE.size := by
    rw [← hser, serialize_length]
  by_cases hfull : defaultMaxSegmentSize ≤ seg.size
      ∨ defaultMaxEntriesPerSegment ≤ seg.entryCount
  · -- the active segment reports full: seal it, rotate, retry into a fresh one
    have happ : seg.append e = ({ seg with isActive := false }, .error .segmentFull) := by
      unfold Segment.append
      rw [hclosed, hactive]
      rw [if_neg (by simp)]
      rw [if_neg (by simp)]
      rw [if_pos (by rw [hmaxS, hmaxE]; exact hfull)]
    set segB : Segment := { seg with isActive := false } with hsegB
    have hfreshapp : (newSegment (n + 1)).append e =
        (⟨n + 1, e.serialize, e.serialize.length, 1, defaultMaxSegmentSize,
          defaultMaxEntriesPerSegment, true, false⟩, .ok 0) := by
      simp [Segment.append, newSegment, defaultMaxSegmentSize,
        defaultMaxEntriesPerSegment]
    set seg2 : Segment := ⟨n + 1, e.serialize, e.serialize.length, 1,
      defaultMaxSegmentSize, defaultMaxEntriesPerSegment, true, false⟩ with hseg2
    set smB : SegmentManager :=
      ⟨alPut (alPut (alPut sm.segments n segB) (n + 1) (newSegment (n + 1)))
        (n + 1) seg2, n + 1, n + 2⟩ with hsmB
    have hsmapp : smAppend sm e = (smB, .ok (n + 1, 0)) := by
      unfold smAppend smCreateActive
      simp only [hact, hget, happ, hnext, alGet_put_self, hfreshapp]
      rw [if_neg (show ¬ n = 0 from by omega)]
    have hgetnone : alGet sm.segments (n + 1) = none := by
      rw [alGet_none_iff_not_mem, hkeys]
      intro hmem
      have := List.mem_range'_1.mp hmem
      omega
    have hkeysB : alKeys smB.segments = List.range' 1 (n + 1) := by
      show alKeys (alPut (alPut (alPut sm.segments n segB) (n + 1)
        (newSegment (n + 1))) (n + 1) seg2) = List.range' 1 (n + 1)
      rw [alKeys_put_present _ _ _ (by simp [alGet_put_self]),
        alKeys_put_absent _ _ _ (by rw [alGet_put_ne _ _ _ _ (by omega)]; exact hgetnone),
        alKeys_put_present _ _ _ (by simp [hget]), hkeys, range'_one_concat]
    have hgetB_n : alGet smB.segments n = some segB := by
      show alGet (alPut (alPut (alPut sm.segments n segB) (n + 1)
        (newSegment (n + 1))) (n + 1) seg2) n = some segB
      rw [alGet_put_ne _ _ _ _ (by omega), alGet_put_ne _ _ _ _ (by omega),
        alGet_put_self]
    have hgetB_new : alGet smB.segments (n + 1) = some seg2 := by
      show alGet (alPut (alPut (alPut sm.segments n segB) (n + 1)
        (newSegment (n + 1))) (n + 1) seg2) (n + 1) = some seg2
      rw [alGet_put_self]
    have hgetB_other : ∀ i, i ≠ n → i ≠ n + 1 →
        alGet smB.segments i = alGet sm.segments i := by
      intro i h1 h2
      show alGet (alPut (alPut (alPut sm.segments n segB) (n + 1)
        (newSegment (n + 1))) (n + 1) seg2) i = alGet sm.segments i
      rw [alGet_put_ne _ _ _ _ h2, alGet_put_ne _ _ _ _ h2, alGet_put_ne _ _ _ _ h1]
    have hseginv_old : SegInv n seg es :=
      ⟨hid, hdata, hsz, hcnt, hmaxS, hmaxE, hclosed, hwfall, hfills⟩
    have hseginvB : SegInv n segB es :=
      ⟨hid, hdata, hsz, hcnt, hmaxS, hmaxE, hclosed, hwfall, hfills⟩
    have hsealedB : segSealed es := by
      unfold segSealed
      rw [hsize_es, hcnt] at hfull
      exact hfull
    have hseginv2 : SegInv (n + 1) seg2 [nE] := by
      refine ⟨rfl, ?_, ?_, rfl, rfl, rfl, rfl, ?_, ?_⟩
      · show e.serialize = serializeAll [nE]
        rw [serializeAll_cons, serializeAll_nil, List.append_nil, hser]
      · rfl
      · intro x hx
        rw [List.mem_singleton.mp hx]
        exact hwf
      · exact fillsFrom_single nE
    have hitemsB : segItems segB = segItems seg := by
      rw [segItems_eq hseginvB, segItems_eq hseginv_old]
    have hitems2 : segItems seg2 = [(0, nE)] := by
      rw [segItems_eq hseginv2]
      rfl
    refine ⟨smB, n + 1, seg2, [], hsmapp, ?_, ?_, ?_, ?_, by omega, by omega⟩
    · refine ⟨by omega, hkeysB, rfl, rfl, ?_, ?_, rfl, ?_⟩
      · show alGet smB.segments (n + 1) = some seg2
        exact hgetB_new
      · show SegInv (n + 1) seg2 ([] ++ [nE])
        exact hseginv2
      · intro i h1 h2
        by_cases hi : i = n
        · subst hi
          exact ⟨segB, es, hgetB_n, hseginvB, rfl, hsealedB⟩
        · obtain ⟨seg', es', hg', hsi', ha', hs'⟩ := hrest i h1 (by omega)
          exact ⟨seg', es', by rw [hgetB_other i hi (by omega)]; exact hg',
            hsi', ha', hs'⟩
    · have := allItems_newblock sm smB n nE hkeys hkeysB ?_ ?_
      · simpa using this
      · intro i hi
        by_cases h1 : i = n
        · subst h1
          exact Or.inr ⟨seg, segB, hget, hgetB_n, hitemsB⟩
        · rw [hgetB_other i h1 hi]
          cases hg : alGet sm.segments i with
          | none => exact Or.inl ⟨rfl, rfl⟩
          | some s => exact Or.inr ⟨s, s, rfl, rfl, rfl⟩
      · exact ⟨seg2, hgetB_new, hitems2⟩
    · intro i s0 hs0
      by_cases h1 : i = n
      · subst h1
        rw [hget] at hs0
        injection hs0 with hs0
        subst hs0
        refine ⟨segB, hgetB_n, rfl, ?_⟩
        intro it hit
        rw [hitemsB]
        exact hit
      · by_cases h2 : i = n + 1
        · subst h2
          rw [hgetnone] at hs0
          cases hs0
        · exact ⟨s0, by rw [hgetB_other i h1 h2]; exact hs0, rfl,
            fun it hit => hit⟩
    · unfold packStep
      rw [if_pos (by rw [hsize_es, hcnt] at hfull; exact hfull)]
      rw [List.nil_append, sizeSum_cons, sizeSum_nil, List.length_cons]
      simp
  · -- the active segment accepts the record
    have happ : seg.append e =
        ({ seg with
            data := seg.data ++ e.serialize
            size := seg.size + e.serialize.length
            entryCount := seg.entryCount + 1 }, .ok seg.size) := by
      unfold Segment.append
      rw [hclosed, hactive]
      rw [if_neg (by simp)]
      rw [if_neg (by simp)]
      rw [if_neg (by rw [hmaxS, hmaxE]; exact hfull)]
    set segA : Segment :=
      { seg with
          data := seg.data ++ e.serialize
          size := seg.size + e.serialize.length
          entryCount := seg.entryCount + 1 } with hsegA
    set smA : SegmentManager :=
      ⟨alPut sm.segments n segA, n, sm.nextID⟩ with hsmA
    have hsmapp : smAppend sm e = (smA, .ok (n, sizeSum es)) := by
      unfold smAppend
      simp only [hact, hget, happ]
      rw [if_neg (show ¬ n = 0 from by omega)]
      rw [show segA.id = n from hid, hsize_es]
    have hseginvA : SegInv n segA (es ++ [nE]) := by
      refine ⟨hid, ?_, ?_, ?_, hmaxS, hmaxE, hclosed, ?_, ?_⟩
      · show seg.data ++ e.serialize = serializeAll (es ++ [nE])
        rw [hdata, serializeAll_append, serializeAll_cons, serializeAll_nil,
          List.append_nil, hser]
      · show seg.size + e.serialize.length = (seg.data ++ e.serialize).length
        rw [List.length_append, hsz]
      · show seg.entryCount + 1 = (es ++ [nE]).length
        rw [hcnt]
        simp
      · intro x hx
        rcases List.mem_append.mp hx with hx | hx
        · exact hwfall x hx
        · rw [List.mem_singleton.mp hx]
          exact hwf
      · refine fillsFrom_snoc es nE 0 0 hfills ?_ ?_
        · rw [hcnt] at hfull
          rw [hsize_es] at hfull
          omega
        · rw [hcnt, hsize_es] at hfull
          omega
    have hitemsA : segItems segA = segItems seg ++ [(sizeSum es, nE)] := by
      rw [segItems_eq hseginvA,
        segItems_eq (show SegInv n seg es from
          ⟨hid, hdata, hsz, hcnt, hmaxS, hmaxE, hclosed, hwfall, hfills⟩),
        withOffsets_append]
      simp [withOffsets]
    refine ⟨smA, n, segA, es, hsmapp, ?_, ?_, ?_, ?_, by omega, by omega⟩
    · refine ⟨hn1, ?_, rfl, hnext, ?_, hseginvA, hactive, ?_⟩
      · show alKeys (alPut sm.segments n segA) = List.range' 1 n
        rw [alKeys_put_present _ _ _ (by simp [hget]), hkeys]
      · show alGet (alPut sm.segments n segA) n = some segA
        exact alGet_put_self _ _ _
      · intro i h1 h2
        obtain ⟨seg', es', hg', hsi', ha', hs'⟩ := hrest i h1 h2
        refine ⟨seg', es', ?_, hsi', ha', hs'⟩
        show alGet (alPut sm.segments n segA) i = some seg'
        rw [alGet_put_ne _ _ _ _ (by omega), hg']
    · refine allItems_extend sm smA n (sizeSum es) nE hn1 hkeys ?_ ?_ ?_
      · show alKeys (alPut sm.segments n segA) = List.range' 1 n
        rw [alKeys_put_present _ _ _ (by simp [hget]), hkeys]
      · intro i hi
        show alGet (alPut sm.segments n segA) i = alGet sm.segments i
        rw [alGet_put_ne _ _ _ _ hi]
      · exact ⟨seg, segA, hget, alGet_put_self _ _ _, hitemsA⟩
    · intro i s0 hs0
      by_cases hi : i = n
      · subst hi
        rw [hget] at hs0
        injection hs0 with hs0
        subst hs0
        refine ⟨segA, alGet_put_self _ _ _, rfl, ?_⟩
        intro it hit
        rw [hitemsA]
        exact List.mem_append_left _ hit
      · exact ⟨s0, by rw [show smA.segments = alPut sm.segments n segA from rfl,
          alGet_put_ne _ _ _ _ hi, hs0], rfl, fun it hit => hit⟩
    · unfold packStep
      rw [if_neg (by rw [hcnt, hsize_es] at hfull; simpa using hfull)]
      rw [sizeSum_append, sizeSum_cons, sizeSum_nil, List.length_append]
      simp

/-- The record a written entry decodes back to: a zero value size reads back
as an absent value. -/
def normEntry (e : Entry) : Entry :=
  if e.valueSize = 0 then { e with value := none } else e

theorem normEntry_serialize (e : Entry) : (normEntry e).serialize = e.serialize := by
  unfold normEntry
  by_cases h : e.valueSize = 0
  · rw [if_pos h]
    unfold Entry.serialize Entry.size
    simp [h]
  · rw [if_neg h]

theorem normEntry_key (e : Entry) : (normEntry e).key = e.key := by
  unfold normEntry
  by_cases h : e.valueSize = 0 <;> simp [h]

theorem normEntry_timestamp (e : Entry) : (normEntry e).timestamp = e.timestamp := by
  unfold normEntry
  by_cases h : e.valueSize = 0 <;> simp [h]

theorem normEntry_valueSize (e : Entry) : (normEntry e).valueSize = e.valueSize := by
  unfold normEntry
  by_cases h : e.valueSize = 0 <;> simp [h]

theorem normEntry_size (e : Entry) : (normEntry e).size = e.size := by
  unfold normEntry Entry.size
  by_cases h : e.valueSize = 0 <;> simp [h]

/-- The entry Store.Set builds, normalized to the record it reads back as. -/
theorem setEntry_norm_wf (k v : List Nat) (ts : Nat) (hk : ByteStr k)
    (hv : ByteStr v) :
    (normEntry ⟨ts % 2 ^ 32, k.length % 2 ^ 32, v.length % 2 ^ 32, k,
      some v⟩).WellFormed := by
  obtain ⟨hkb, hk32⟩ := hk
  obtain ⟨hvb, hv32⟩ := hv
  have hkmod : k.length % 2 ^ 32 = k.length := Nat.mod_eq_of_lt hk32
  have hvmod : v.length % 2 ^ 32 = v.length := Nat.mod_eq_of_lt hv32
  have hpow : 0 < 2 ^ 32 := by omega
  unfold normEntry
  by_cases h : v.length = 0
  · have h' : v.length % 2 ^ 32 = 0 := by omega
    rw [if_pos (show (⟨ts % 2 ^ 32, k.length % 2 ^ 32, v.length % 2 ^ 32, k,
      some v⟩ : Entry).valueSize = 0 from h')]
    exact ⟨Nat.mod_lt _ hpow, hkmod, hk32, hkb, ⟨fun _ => h', fun _ => rfl⟩,
      h', Nat.mod_lt _ hpow, by intro b hb; cases hb⟩
  · have h' : ¬ (v.length % 2 ^ 32 = 0) := by omega
    rw [if_neg (show ¬ (⟨ts % 2 ^ 32, k.length % 2 ^ 32, v.length % 2 ^ 32, k,
      some v⟩ : Entry).valueSize = 0 from h')]
    exact ⟨Nat.mod_lt _ hpow, hkmod, hk32, hkb,
      ⟨fun hc => absurd hc (Option.some_ne_none _), fun hc => absurd hc h'⟩,
      hvmod, Nat.mod_lt _ hpow, hvb⟩

theorem setEntry_norm_getD (k v : List Nat) (ts : Nat) (hv : ByteStr v) :
    ((normEntry ⟨ts % 2 ^ 32, k.length % 2 ^ 32, v.length % 2 ^ 32, k,
      some v⟩).value.getD []) = v := by
  have hvmod : v.length % 2 ^ 32 = v.length := Nat.mod_eq_of_lt hv.2
  unfold normEntry
  by_cases h : v.length = 0
  · have hvnil : v = [] := List.length_eq_zero.mp h
    have h' : v.length % 2 ^ 32 = 0 := by omega
    rw [if_pos (show (⟨ts % 2 ^ 32, k.length % 2 ^ 32, v.length % 2 ^ 32, k,
      some v⟩ : Entry).valueSize = 0 from h')]
    simp [hvnil]
  · have h' : ¬ (v.length % 2 ^ 32 = 0) := by omega
    rw [if_neg (show ¬ (⟨ts % 2 ^ 32, k.length % 2 ^ 32, v.length % 2 ^ 32, k,
      some v⟩ : Entry).valueSize = 0 from h')]
    rfl

/-- The tombstone entry Store.Delete builds is well formed as written. -/
theorem tombEntry_wf (k : List Nat) (ts : Nat) (hk : ByteStr k) :
    (⟨ts % 2 ^ 32, k.length % 2 ^ 32, 0, k, none⟩ : Entry).WellFormed := by
  obtain ⟨hkb, hk32⟩ := hk
  have hpow : 0 < 2 ^ 32 := by omega
  exact ⟨Nat.mod_lt _ hpow, Nat.mod_eq_of_lt hk32, hk32, hkb,
    ⟨fun _ => rfl, fun _ => rfl⟩, rfl, hpow, by intro b hb; cases hb⟩

theorem alKeys_erase {κ : Type} [DecidableEq κ] {α : Type}
    (l : List (κ × α)) (k : κ) :
    alKeys (alErase l k) = (alKeys l).filter (fun x => x ≠ k) := by
  induction l with
  | nil => rfl
  | cons p t ih =>
    rw [alErase_cons, alKeys_cons, List.filter_cons]
    by_cases h : p.1 = k
    · rw [if_pos h, ih]
      simp [h]
    · rw [if_neg h, alKeys_cons, ih]
      simp [h]

theorem rebuild_snoc (items : List (Nat × Nat × Entry)) (it : Nat × Nat × Entry) :
    rebuild (items ++ [it]) = rebuildStep (rebuild items) it := by
  unfold rebuild
  rw [List.foldl_append]
  rfl

/-- Reading through the segment manager at a recorded item offset. -/
theorem smView_read {sm : SegmentManager} {n : Nat} {seg : Segment}
    {es : List Entry} (hv : SMView sm n seg es) {i off : Nat} {s : Segment}
    {e : Entry} (hseg : alGet sm.segments i = some s)
    (hmem : (off, e) ∈ segItems s) :
    smRead sm i off = .ok e := by
  obtain ⟨hn1, hkeys, hact, hnext, hget, hseginv, hactive, hrest⟩ := hv
  have hi : 1 ≤ i ∧ i ≤ n := by
    have hmem2 : i ∈ alKeys sm.segments := by
      rw [← alGet_isSome_iff_mem, hseg]
      rfl
    rw [hkeys] at hmem2
    have := List.mem_range'_1.mp hmem2
    omega
  have hsi : ∃ es0, SegInv i s es0 := by
    by_cases hcase : i = n
    · subst hcase
      rw [hget] at hseg
      injection hseg with hseg
      subst hseg
      exact ⟨es, hseginv⟩
    · obtain ⟨seg', es', hg', hsi', -, -⟩ := hrest i hi.1 (by omega)
      rw [hg'] at hseg
      injection hseg with hseg
      subst hseg
      exact ⟨es', hsi'⟩
  obtain ⟨es0, hsi⟩ := hsi
  unfold smRead
  rw [hseg]
  exact read_segItems hsi hmem

/-- Characterization of Get on a live key under the invariant. -/
theorem storeGet_of_kd {st : Store} (hInv : Inv st) {k : Key}
    {he : HashTableEntry} (hhe : alGet st.hashTable k = some he) :
    ∃ e, smRead st.sm he.fileID he.valuePos = .ok e ∧
      storeGet st k = .ok (e.value.getD []) ∧ e.key = k ∧ e.WellFormed ∧
      e.valueSize = he.valueSize ∧ e.timestamp = he.timestamp := by
  obtain ⟨⟨n, seg, es, hview⟩, hkd, -, -⟩ := hInv
  obtain ⟨s, e, hs, hmem, hkey, hwf, hvs, hts, -⟩ := hkd k he hhe
  have hread := smView_read hview hs hmem
  refine ⟨e, hread, ?_, hkey, hwf, hvs, hts⟩
  unfold storeGet
  rw [hhe]
  show (match smRead st.sm he.fileID he.valuePos with
    | Except.error err => Except.error err
    | Except.ok logEntry => Except.ok (logEntry.value.getD []))
    = Except.ok (e.value.getD [])
  rw [hread]

theorem segItems_last {segID : Nat} {s : Segment} {es : List Entry} {nE : Entry}
    (hsi : SegInv segID s (es ++ [nE])) : (sizeSum es, nE) ∈ segItems s := by
  rw [segItems_eq hsi, withOffsets_append]
  simp [withOffsets]

/-- Store.Set on an invariant state: the append succeeds, the invariant is
preserved, and the observable effect is exactly an update of key k to v. -/
theorem storeSet_ok (st : Store) (k v : List Nat) (ts : Nat)
    (hInv : Inv st) (hk : ByteStr k) (hv : ByteStr v) :
    ∃ st', storeSet st k v ts = (st', .ok ()) ∧ Inv st' ∧
      (∃ segID off,
        alGet st'.hashTable k
          = some ⟨segID, v.length % 2 ^ 32, off, ts % 2 ^ 32, st.nextIdent⟩) ∧
      (∀ k', k' ≠ k → alGet st'.hashTable k' = alGet st.hashTable k') ∧
      st'.nextIdent = st.nextIdent + 1 ∧
      storeGet st' k = .ok v ∧
      (∀ k', k' ≠ k → storeGet st' k' = storeGet st k') ∧
      storeList st' = (if k ∈ storeList st then storeList st
        else storeList st ++ [k]) ∧
      st'.isMerging = st.isMerging := by
  obtain ⟨⟨n, seg, es, hview⟩, hkd, hri, hmg⟩ := hInv
  set E : Entry := ⟨ts % 2 ^ 32, k.length % 2 ^ 32, v.length % 2 ^ 32, k, some v⟩
    with hE
  have hwfE : (normEntry E).WellFormed := setEntry_norm_wf k v ts hk hv
  obtain ⟨sm', segID, seg2, esPre, happ, hview', hall, hpres, hpack, hb1, hb2⟩ :=
    smAppend_view st.sm n seg es hview E (normEntry E) (normEntry_serialize E) hwfE
  set nhe : HashTableEntry :=
    ⟨segID, v.length % 2 ^ 32, sizeSum esPre, ts % 2 ^ 32, st.nextIdent⟩ with hnhe
  set st' : Store := { st with
      sm := sm'
      hashTable := alPut st.hashTable k nhe
      nextIdent := st.nextIdent + 1 } with hst'
  have hrun : storeSet st k v ts = (st', .ok ()) := by
    unfold storeSet
    simp only [← hE, happ]
    rfl
  have hmemnew : (sizeSum esPre, normEntry E) ∈ segItems seg2 :=
    segItems_last hview'.2.2.2.2.2.1
  have hget2 : alGet sm'.segments segID = some seg2 := hview'.2.2.2.2.1
  have hInv' : Inv st' := by
    refine ⟨⟨segID, seg2, esPre ++ [normEntry E], hview'⟩, ?_, ?_, hmg⟩
    · intro k0 he0 hhe0
      by_cases hk0 : k0 = k
      · subst hk0
        rw [show st'.hashTable = alPut st.hashTable k0 nhe from rfl,
          alGet_put_self] at hhe0
        injection hhe0 with hhe0
        subst hhe0
        refine ⟨seg2, normEntry E, hget2, hmemnew, normEntry_key E, hwfE,
          normEntry_valueSize E, normEntry_timestamp E, ?_⟩
        show st.nextIdent < st.nextIdent + 1
        omega
      · rw [show st'.hashTable = alPut st.hashTable k nhe from rfl,
          alGet_put_ne _ _ _ _ hk0] at hhe0
        obtain ⟨s, e, hs, hmem, hkey, hwf, hvs, hts, hident⟩ := hkd k0 he0 hhe0
        obtain ⟨s1, hs1, -, hsup⟩ := hpres he0.fileID s hs
        refine ⟨s1, e, hs1, hsup _ hmem, hkey, hwf, hvs, hts, ?_⟩
        show he0.ident < st.nextIdent + 1
        omega
    · intro k0
      rw [show st'.sm = sm' from rfl, hall, rebuild_snoc]
      unfold rebuildStep
      by_cases htomb : (normEntry E).isTombstone
      · rw [if_pos htomb]
        have hvnil : v.length % 2 ^ 32 = 0 := by
          have := htomb
          unfold Entry.isTombstone at this
          rw [normEntry_valueSize E] at this
          simpa using this
        by_cases hk0 : k0 = k
        · subst hk0
          rw [show (normEntry E).key = k0 from normEntry_key E, alGet_erase_self,
            show st'.hashTable = alPut st.hashTable k0 nhe from rfl,
            alGet_put_self]
          simp only [liveLoc]
          rw [if_pos (show nhe.valueSize = 0 from hvnil)]
        · rw [show (normEntry E).key = k from normEntry_key E,
            alGet_erase_ne _ _ _ hk0,
            show st'.hashTable = alPut st.hashTable k nhe from rfl,
            alGet_put_ne _ _ _ _ hk0]
          exact hri k0
      · rw [if_neg htomb]
        have hvnz : ¬ (v.length % 2 ^ 32 = 0) := by
          intro hc
          apply htomb
          unfold Entry.isTombstone
          rw [normEntry_valueSize E]
          simpa using hc
        by_cases hk0 : k0 = k
        · subst hk0
          rw [show (normEntry E).key = k0 from normEntry_key E, alGet_put_self,
            show st'.hashTable = alPut st.hashTable k0 nhe from rfl,
            alGet_put_self]
          simp only [liveLoc]
          rw [if_neg (show ¬ nhe.valueSize = 0 from hvnz)]
          rw [show (normEntry E).valueSize = v.length % 2 ^ 32 from
            normEntry_valueSize E,
            show (normEntry E).timestamp = ts % 2 ^ 32 from normEntry_timestamp E]
        · rw [show (normEntry E).key = k from normEntry_key E,
            alGet_put_ne _ _ _ _ hk0,
            show st'.hashTable = alPut st.hashTable k nhe from rfl,
            alGet_put_ne _ _ _ _ hk0]
          exact hri k0
  have hgetk : storeGet st' k = .ok v := by
    unfold storeGet
    rw [show st'.hashTable = alPut st.hashTable k nhe from rfl, alGet_put_self]
    have hread : smRead st'.sm nhe.fileID nhe.valuePos = .ok (normEntry E) :=
      smView_read hview' hget2 hmemnew
    show (match smRead st'.sm nhe.fileID nhe.valuePos with
      | Except.error err => Except.error err
      | Except.ok logEntry => Except.ok (logEntry.value.getD []))
      = Except.ok v
    rw [hread]
    show Except.ok ((normEntry E).value.getD []) = Except.ok v
    rw [show (normEntry E).value.getD [] = v from setEntry_norm_getD k v ts hv]
  refine ⟨st', hrun, hInv', ⟨segID, sizeSum esPre, by
      rw [show st'.hashTable = alPut st.hashTable k nhe from rfl, alGet_put_self]⟩,
    ?_, rfl, hgetk, ?_, ?_, rfl⟩
  · intro k' hk'
    rw [show st'.hashTable = alPut st.hashTable k nhe from rfl,
      alGet_put_ne _ _ _ _ hk']
  · intro k' hk'
    have hsame : alGet st'.hashTable k' = alGet st.hashTable k' := by
      rw [show st'.hashTable = alPut st.hashTable k nhe from rfl,
        alGet_put_ne _ _ _ _ hk']
    cases hhe : alGet st.hashTable k' with
    | none =>
      unfold storeGet
      rw [hsame, hhe]
    | some he =>
      obtain ⟨s, e, hs, hmem, -, -, -, -, -⟩ :=
        hkd k' he hhe
      obtain ⟨s1, hs1, -, hsup⟩ := hpres he.fileID s hs
      have hreadold : smRead st.sm he.fileID he.valuePos = .ok e :=
        smView_read hview hs hmem
      have hreadnew : smRead st'.sm he.fileID he.valuePos = .ok e :=
        smView_read hview' hs1 (hsup _ hmem)
      unfold storeGet
      rw [hsame, hhe]
      show (match smRead st'.sm he.fileID he.valuePos with
        | Except.error err => Except.error err
        | Except.ok logEntry => Except.ok (logEntry.value.getD []))
        = (match smRead st.sm he.fileID he.valuePos with
        | Except.error err => Except.error err
        | Except.ok logEntry => Except.ok (logEntry.value.getD []))
      rw [hreadold, hreadnew]
  · unfold storeList
    by_cases hmem : k ∈ alKeys st.hashTable
    · rw [if_pos hmem]
      rw [show st'.hashTable = alPut st.hashTable k nhe from rfl,
        alKeys_put_present _ _ _ ((alGet_isSome_iff_mem _ _).mpr hmem)]
    · rw [if_neg hmem]
      rw [show st'.hashTable = alPut st.hashTable k nhe from rfl,
        alKeys_put_absent _ _ _ ((alGet_none_iff_not_mem _ _).mpr hmem)]

/-- Store.Delete of an absent key: KeyNotFound and no state change. -/
theorem storeDelete_absent (st : Store) (k : Key) (ts : Nat)
    (h : alGet st.hashTable k = none) :
    storeDelete st k ts = (st, .error .keyNotFound) := by
  unfold storeDelete
  rw [h]

/-- Store.Delete of a live key on an invariant state: a tombstone is
appended, the key is removed, and nothing else changes observably. -/
theorem storeDelete_ok (st : Store) (k : Key) (ts : Nat) (hInv : Inv st)
    (hk : ByteStr k) {he0 : HashTableEntry}
    (hlive : alGet st.hashTable k = some he0) :
    ∃ st', storeDelete st k ts = (st', .ok ()) ∧ Inv st' ∧
      alGet st'.hashTable k = none ∧
      (∀ k', k' ≠ k → alGet st'.hashTable k' = alGet st.hashTable k') ∧
      st'.nextIdent = st.nextIdent ∧
      storeGet st' k = .error .keyNotFound ∧
      (∀ k', k' ≠ k → storeGet st' k' = storeGet st k') ∧
      storeList st' = (storeList st).filter (fun x => x ≠ k) ∧
      st'.isMerging = st.isMerging := by
  obtain ⟨⟨n, seg, es, hview⟩, hkd, hri, hmg⟩ := hInv
  set T : Entry := ⟨ts % 2 ^ 32, k.length % 2 ^ 32, 0, k, none⟩ with hT
  have hwfT : T.WellFormed := tombEntry_wf k ts hk
  obtain ⟨sm', segID, seg2, esPre, happ, hview', hall, hpres, hpack, hb1, hb2⟩ :=
    smAppend_view st.sm n seg es hview T T rfl hwfT
  set st' : Store := { st with
      sm := sm'
      hashTable := alErase st.hashTable k } with hst'
  have hrun : storeDelete st k ts = (st', .ok ()) := by
    unfold storeDelete
    rw [hlive]
    simp only [← hT, happ]
  have hInv' : Inv st' := by
    refine ⟨⟨segID, seg2, esPre ++ [T], hview'⟩, ?_, ?_, hmg⟩
    · intro k0 he hhe
      by_cases hk0 : k0 = k
      · subst hk0
        rw [show st'.hashTable = alErase st.hashTable k0 from rfl,
          alGet_erase_self] at hhe
        cases hhe
      · rw [show st'.hashTable = alErase st.hashTable k from rfl,
          alGet_erase_ne _ _ _ hk0] at hhe
        obtain ⟨s, e, hs, hmem, hkey, hwf, hvs, hts, hident⟩ := hkd k0 he hhe
        obtain ⟨s1, hs1, -, hsup⟩ := hpres he.fileID s hs
        exact ⟨s1, e, hs1, hsup _ hmem, hkey, hwf, hvs, hts, hident⟩
    · intro k0
      rw [show st'.sm = sm' from rfl, hall, rebuild_snoc]
      unfold rebuildStep
      rw [if_pos (show T.isTombstone = true from rfl)]
      by_cases hk0 : k0 = k
      · subst hk0
        rw [show T.key = k0 from rfl, alGet_erase_self,
          show st'.hashTable = alErase st.hashTable k0 from rfl,
          alGet_erase_self]
        rfl
      · rw [show T.key = k from rfl, alGet_erase_ne _ _ _ hk0,
          show st'.hashTable = alErase st.hashTable k from rfl,
          alGet_erase_ne _ _ _ hk0]
        exact hri k0
  refine ⟨st', hrun, hInv', ?_, ?_, rfl, ?_, ?_, ?_, rfl⟩
  · rw [show st'.hashTable = alErase st.hashTable k from rfl, alGet_erase_self]
  · intro k' hk'
    rw [show st'.hashTable = alErase st.hashTable k from rfl,
      alGet_erase_ne _ _ _ hk']
  · unfold storeGet
    rw [show st'.hashTable = alErase st.hashTable k from rfl, alGet_erase_self]
  · intro k' hk'
    have hsame : alGet st'.hashTable k' = alGet st.hashTable k' := by
      rw [show st'.hashTable = alErase st.hashTable k from rfl,
        alGet_erase_ne _ _ _ hk']
    cases hhe : alGet st.hashTable k' with
    | none =>
      unfold storeGet
      rw [hsame, hhe]
    | some he =>
      obtain ⟨s, e, hs, hmem, -, -, -, -, -⟩ := hkd k' he hhe
      obtain ⟨s1, hs1, -, hsup⟩ := hpres he.fileID s hs
      have hreadold : smRead st.sm he.fileID he.valuePos = .ok e :=
        smView_read hview hs hmem
      have hreadnew : smRead st'.sm he.fileID he.valuePos = .ok e :=
        smView_read hview' hs1 (hsup _ hmem)
      unfold storeGet
      rw [hsame, hhe]
      show (match smRead st'.sm he.fileID he.valuePos with
        | Except.error err => Except.error err
        | Except.ok logEntry => Except.ok (logEntry.value.getD []))
        = (match smRead st.sm he.fileID he.valuePos with
        | Except.error err => Except.error err
        | Except.ok logEntry => Except.ok (logEntry.value.getD []))
      rw [hreadold, hreadnew]
  · unfold storeList
    rw [show st'.hashTable = alErase st.hashTable k from rfl, alKeys_erase]

/-- The fresh store satisfies the master invariant. -/
theorem storeNew_inv : Inv storeNew := by
  have hsi : SegInv 1 (newSegment 1) [] :=
    ⟨rfl, rfl, rfl, rfl, rfl, rfl, rfl, fun e he => absurd he (List.not_mem_nil e),
      trivial⟩
  refine ⟨⟨1, newSegment 1, [], ?_⟩, ?_, ?_, rfl⟩
  · refine ⟨le_refl 1, rfl, rfl, rfl, rfl, hsi, rfl, ?_⟩
    intro i h1 h2
    omega
  · intro k he h
    cases h
  · intro k
    have hitems : segItems (newSegment 1) = [] := by
      rw [segItems_eq hsi]
      rfl
    have hall : allItems storeNew.sm = [] := by
      unfold allItems
      rw [show smGetSegmentIDs storeNew.sm = [1] from rfl]
      simp only [List.flatMap_cons, List.flatMap_nil,
        show alGet storeNew.sm.segments 1 = some (newSegment 1) from rfl, hitems]
      rfl
    rw [hall]
    rfl

/-- Every foreground-reachable state satisfies the master invariant. -/
theorem Reach_inv {st : Store} (h : Reach st) : Inv st := by
  induction h with
  | init => exact storeNew_inv
  | set hr hk hv ih =>
    obtain ⟨st', hrun, hInv', -⟩ := storeSet_ok _ _ _ _ ih hk hv
    rw [hrun]
    exact hInv'
  | del hr hk ih =>
    rename_i st0 k ts
    cases hlive : alGet st0.hashTable k with
    | none =>
      rw [storeDelete_absent st0 k ts hlive]
      exact ih
    | some he =>
      obtain ⟨st', hrun, hInv', -⟩ := storeDelete_ok st0 k ts ih hk hlive
      rw [hrun]
      exact hInv'

/-- Writing back the binding a key already has leaves the map unchanged. -/
theorem alPut_self {κ : Type} [DecidableEq κ] {α : Type} (l : List (κ × α))
    (k : κ) (v : α) (h : alGet l k = some v) : alPut l k v = l := by
  induction l with
  | nil => cases h
  | cons p t ih =>
    obtain ⟨a, b⟩ := p
    rw [alGet_cons] at h
    rw [alPut_cons]
    by_cases hk : (a, b).1 = k
    · rw [if_pos hk] at h ⊢
      injection h with h
      simp only at hk h
      rw [← hk, ← h]
    · rw [if_neg hk] at h ⊢
      rw [ih h]

/-- In a map with distinct keys, every binding is the one its key resolves
to. -/
theorem alGet_of_mem_nodup {κ : Type} [DecidableEq κ] {α : Type}
    {l : List (κ × α)} (hnd : (alKeys l).Nodup) {p : κ × α} (hp : p ∈ l) :
    alGet l p.1 = some p.2 := by
  induction l with
  | nil => cases hp
  | cons q t ih =>
    rw [alKeys_cons, List.nodup_cons] at hnd
    rcases List.mem_cons.mp hp with hp | hp
    · subst hp
      rw [alGet_cons, if_pos rfl]
    · rw [alGet_cons]
      have hne : ¬ q.1 = p.1 := by
        intro hq
        exact hnd.1 (hq ▸ List.mem_map_of_mem Prod.fst hp)
      rw [if_neg hne]
      exact ih hnd.2 hp

theorem length_le_one_of_nodup_const (l : List Nat) (n : Nat)
    (hnd : l.Nodup) (hall : ∀ x ∈ l, x = n) : l.length ≤ 1 := by
  cases l with
  | nil => simp
  | cons a t =>
    cases t with
    | nil => simp
    | cons b u =>
      exfalso
      rw [List.nodup_cons] at hnd
      have ha : a = n := hall a (List.mem_cons_self _ _)
      have hb : b = n := hall b (List.mem_cons_of_mem _ (List.mem_cons_self _ _))
      exact hnd.1 (by rw [ha, ← hb]; exact List.mem_cons_self _ _)

/-- Rotation behavior of SegmentManager.Append: with a resolvable active
segment that reports full, a fresh segment is installed under nextID and the
retried write lands at offset zero of that segment. -/
theorem smAppend_rotate (sm : SegmentManager) (seg : Segment) (e : Entry)
    (h0 : ¬ sm.activeID = 0)
    (hget : alGet sm.segments sm.activeID = some seg)
    (hcl : seg.isClosed = false) (hac : seg.isActive = true)
    (hfull : seg.maxSize ≤ seg.size ∨ seg.maxEntries ≤ seg.entryCount) :
    smAppend sm e =
      (⟨alPut (alPut (alPut sm.segments sm.activeID { seg with isActive := false })
          sm.nextID (newSegment sm.nextID)) sm.nextID
          ⟨sm.nextID, e.serialize, e.serialize.length, 1, defaultMaxSegmentSize,
            defaultMaxEntriesPerSegment, true, false⟩,
        sm.nextID, sm.nextID + 1⟩, .ok (sm.nextID, 0)) := by
  have happ : seg.append e = ({ seg with isActive := false }, .error .segmentFull) := by
    unfold Segment.append
    rw [hcl, hac]
    rw [if_neg (by simp)]
    rw [if_neg (by simp)]
    rw [if_pos hfull]
  have hfreshapp : (newSegment sm.nextID).append e =
      (⟨sm.nextID, e.serialize, e.serialize.length, 1, defaultMaxSegmentSize,
        defaultMaxEntriesPerSegment, true, false⟩, .ok 0) := by
    simp [Segment.append, newSegment, defaultMaxSegmentSize,
      defaultMaxEntriesPerSegment]
  unfold smAppend smCreateActive
  rw [if_neg h0]
  simp only [hget, happ, alGet_put_self, hfreshapp]

/-- An append that the segment accepts, spelled as an equation. -/
theorem segment_append_ok (s : Segment) (e : Entry)
    (hcl : s.isClosed = false) (hac : s.isActive = true)
    (hsz : s.size < s.maxSize) (hcnt : s.entryCount < s.maxEntries) :
    s.append e = ({ s with
        data := s.data ++ e.serialize
        size := s.size + e.serialize.length
        entryCount := s.entryCount + 1 }, .ok s.size) := by
  unfold Segment.append
  rw [hcl, hac]
  rw [if_neg (by simp)]
  rw [if_neg (by simp)]
  rw [if_neg (by omega)]

/-- When SegmentManager.Append reports an error, the segment manager is
observably unchanged. -/
theorem smAppend_error_frame (sm : SegmentManager) (e : Entry) (err : Err)
    (h : (smAppend sm e).2 = .error err) : smAppend sm e = (sm, .error err) := by
  by_cases h0 : sm.activeID = 0
  · have heq : smAppend sm e = (sm, .error .noActiveSegment) := by
      unfold smAppend
      rw [if_pos h0]
    rw [heq] at h ⊢
    have herr : (Except.error Err.noActiveSegment : Except Err (Nat × Nat))
        = Except.error err := h
    injection herr with herr
    rw [← herr]
  · cases halg : alGet sm.segments sm.activeID with
    | none =>
      have heq : smAppend sm e = (sm, .error .segmentNotFound) := by
        unfold smAppend
        rw [if_neg h0, halg]
      rw [heq] at h ⊢
      have herr : (Except.error Err.segmentNotFound : Except Err (Nat × Nat))
          = Except.error err := h
      injection herr with herr
      rw [← herr]
    | some seg =>
      by_cases hcl : seg.isClosed = true
      · have happ : seg.append e = (seg, .error .segmentClosed) := by
          unfold Segment.append
          rw [if_pos hcl]
        have heq : smAppend sm e = (sm, .error .segmentClosed) := by
          unfold smAppend
          rw [if_neg h0]
          simp only [halg, happ]
          rw [alPut_self _ _ _ halg]
        rw [heq] at h ⊢
        have herr : (Except.error Err.segmentClosed : Except Err (Nat × Nat))
            = Except.error err := h
        injection herr with herr
        rw [← herr]
      · have hcl' : seg.isClosed = false := by
          cases hx : seg.isClosed
          · rfl
          · exact absurd hx hcl
        by_cases hac : seg.isActive = true
        · by_cases hfull : seg.maxSize ≤ seg.size ∨ seg.maxEntries ≤ seg.entryCount
          · rw [smAppend_rotate sm seg e h0 halg hcl' hac hfull] at h
            exact absurd h (by simp)
          · have hsz : seg.size < seg.maxSize := by omega
            have hcnt : seg.entryCount < seg.maxEntries := by omega
            have happ := segment_append_ok seg e hcl' hac hsz hcnt
            have heq : (smAppend sm e).2 = .ok (({ seg with
                data := seg.data ++ e.serialize
                size := seg.size + e.serialize.length
                entryCount := seg.entryCount + 1 } : Segment).id, seg.size) := by
              unfold smAppend
              rw [if_neg h0]
              simp only [halg, happ]
            rw [heq] at h
            exact absurd h (by simp)
        · have hac' : seg.isActive = false := by
            cases hx : seg.isActive
            · rfl
            · exact absurd hx hac
          have happ : seg.append e = (seg, .error .segmentClosed) := by
            unfold Segment.append
            rw [hcl', hac']
            rw [if_neg (by simp)]
            rw [if_pos (by simp)]
          have heq : smAppend sm e = (sm, .error .segmentClosed) := by
            unfold smAppend
            rw [if_neg h0]
            simp only [halg, happ]
            rw [alPut_self _ _ _ halg]
          rw [heq] at h ⊢
          have herr : (Except.error Err.segmentClosed : Except Err (Nat × Nat))
              = Except.error err := h
          injection herr with herr
          rw [← herr]

/-- The record Store.Set builds for a key, value and observed timestamp. -/
def setRecord (key value : List Nat) (ts : Nat) : Entry :=
  { timestamp := ts % 2 ^ 32
    keySize := key.length % 2 ^ 32
    valueSize := value.length % 2 ^ 32
    key := key
    value := some value }

/-- The tombstone record Store.Delete builds for a key and timestamp. -/
def tombRecord (key : List Nat) (ts : Nat) : Entry :=
  { timestamp := ts % 2 ^ 32
    keySize := key.length % 2 ^ 32
    valueSize := 0
    key := key
    value := none }

/-- Store.Set, factored through the append result on the Set record. -/
theorem storeSet_error (st : Store) (k v : List Nat) (ts : Nat)
    (sm' : SegmentManager) (err : Err)
    (h : smAppend st.sm (setRecord k v ts) = (sm', .error err)) :
    storeSet st k v ts = ({ st with sm := sm' }, .error err) := by
  unfold storeSet
  dsimp only
  rw [show smAppend st.sm
      { timestamp := ts % 2 ^ 32, keySize := k.length % 2 ^ 32,
        valueSize := v.length % 2 ^ 32, key := k, value := some v }
    = smAppend st.sm (setRecord k v ts) from rfl, h]

/-- Store.Delete on a live key, factored through the append result on the
tombstone record. -/
theorem storeDelete_error (st : Store) (k : List Nat) (ts : Nat)
    (he0 : HashTableEntry) (hlive : alGet st.hashTable k = some he0)
    (sm' : SegmentManager) (err : Err)
    (h : smAppend st.sm (tombRecord k ts) = (sm', .error err)) :
    storeDelete st k ts = ({ st with sm := sm' }, .error err) := by
  unfold storeDelete
  rw [hlive]
  dsimp only
  rw [show smAppend st.sm
      { timestamp := ts % 2 ^ 32, keySize := k.length % 2 ^ 32,
        valueSize := 0, key := k, value := none }
    = smAppend st.sm (tombRecord k ts) from rfl, h]

/-- The replay location content of a keydir entry: everything but the
identity stamp. -/
def locOf (he : HashTableEntry) : Loc :=
  ⟨he.fileID, he.valueSize, he.valuePos, he.timestamp⟩

theorem alGet_openMap (l : List (Nat × Segment)) (k : Nat) :
    alGet (l.map (fun p => (p.1, openSegment p.1 p.2.data))) k
      = Option.map (fun s => openSegment k s.data) (alGet l k) := by
  induction l with
  | nil => rfl
  | cons p t ih =>
    rw [List.map_cons, alGet_cons, alGet_cons]
    by_cases h : p.1 = k
    · rw [if_pos (show ((p.1, openSegment p.1 p.2.data)).1 = k from h), if_pos h,
        ← h]
      rfl
    · rw [if_neg (show ¬ ((p.1, openSegment p.1 p.2.data)).1 = k from h),
        if_neg h, ih]

theorem alGet_append_left {κ : Type} [DecidableEq κ] {α : Type}
    (a b : List (κ × α)) (k : κ) (v : α) (h : alGet a k = some v) :
    alGet (a ++ b) k = some v := by
  induction a with
  | nil => cases h
  | cons p t ih =>
    rw [alGet_cons] at h
    rw [List.cons_append, alGet_cons]
    by_cases hk : p.1 = k
    · rw [if_pos hk] at h ⊢
      exact h
    · rw [if_neg hk] at h ⊢
      exact ih h

theorem alGet_append_right {κ : Type} [DecidableEq κ] {α : Type}
    (a b : List (κ × α)) (k : κ) (h : alGet a k = none) :
    alGet (a ++ b) k = alGet b k := by
  induction a with
  | nil => rfl
  | cons p t ih =>
    rw [alGet_cons] at h
    rw [List.cons_append, alGet_cons]
    by_cases hk : p.1 = k
    · rw [if_pos hk] at h
      cases h
    · rw [if_neg hk] at h ⊢
      exact ih h

theorem alPut_append_absent {κ : Type} [DecidableEq κ] {α : Type}
    (l : List (κ × α)) (k : κ) (v : α) (h : alGet l k = none) :
    alPut l k v = l ++ [(k, v)] := by
  induction l with
  | nil => rfl
  | cons p t ih =>
    rw [alGet_cons] at h
    rw [alPut_cons]
    by_cases hk : p.1 = k
    · rw [if_pos hk] at h
      cases h
    · rw [if_neg hk] at h
      rw [if_neg hk, ih h, List.cons_append]

theorem filesOnDisk_eq (sm : SegmentManager)
    (hid : ∀ p ∈ sm.segments, p.2.id = p.1) :
    filesOnDisk sm = sm.segments.map (fun p => (p.1, p.2.data)) := by
  unfold filesOnDisk
  exact List.map_congr_left (fun p hp => by rw [hid p hp])

theorem foldl_nextid_keys (files : List (Nat × List Nat)) :
    files.foldl (fun acc f => if acc ≤ f.1 then f.1 + 1 else acc) 1
      = (files.map Prod.fst).foldl (fun acc i => if acc ≤ i then i + 1 else acc) 1 := by
  rw [List.foldl_map]

theorem nextid_fold (n : Nat) :
    List.foldl (fun acc i => if acc ≤ i then i + 1 else acc) 1 (List.range' 1 n)
      = n + 1 := by
  induction n with
  | zero => rfl
  | succ m ih =>
    rw [range'_one_concat, List.foldl_append, ih, List.foldl_cons, List.foldl_nil]
    show (if m + 1 ≤ m + 1 then m + 1 + 1 else m + 1) = m + 1 + 1
    rw [if_pos (le_refl _)]

theorem find?_active_none (segs : List (Nat × Segment)) (l : List Nat)
    (h : ∀ i s, alGet segs i = some s → s.isActive = false) :
    l.find? (segActivePred segs) = none := by
  rw [List.find?_eq_none]
  intro x hx
  unfold segActivePred
  cases hs : alGet segs x with
  | none => simp
  | some s => simp [h x s hs]

/-- Every binding of a viewed manager carries its key as segment id. -/
theorem smView_ids (sm : SegmentManager) (n : Nat) (seg : Segment)
    (es : List Entry) (hv : SMView sm n seg es) :
    ∀ p ∈ sm.segments, p.2.id = p.1 := by
  obtain ⟨hn1, hkeys, hact, hnext, hget, hsi, hactive, hrest⟩ := hv
  have hnd : (alKeys sm.segments).Nodup := by
    rw [hkeys]
    exact List.nodup_range' _ _
  intro p hp
  have hg := alGet_of_mem_nodup hnd hp
  have hkmem : p.1 ∈ alKeys sm.segments := List.mem_map_of_mem Prod.fst hp
  rw [hkeys] at hkmem
  have hb := List.mem_range'_1.mp hkmem
  by_cases hpn : p.1 = n
  · rw [hpn] at hg
    rw [hget] at hg
    injection hg with hg
    rw [← hg, hpn]
    exact hsi.1
  · have hlt : p.1 < n := by omega
    obtain ⟨seg', es', hg', hsi', -, -⟩ := hrest p.1 (by omega) hlt
    rw [hg] at hg'
    injection hg' with hg'
    rw [hg']
    exact hsi'.1

/-- Restart over the files of a viewed manager: every segment is reopened
inactive, no active segment is detected, and a fresh active segment is
appended under id n + 1. -/
theorem smOpenFrom_eq (sm : SegmentManager) (n : Nat) (seg : Segment)
    (es : List Entry) (hv : SMView sm n seg es) :
    smOpenFrom (filesOnDisk sm) =
      ⟨sm.segments.map (fun p => (p.1, openSegment p.1 p.2.data))
          ++ [(n + 1, newSegment (n + 1))], n + 1, n + 2⟩ := by
  have hid := smView_ids sm n seg es hv
  obtain ⟨hn1, hkeys, hact, hnext, hget, hsi, hactive, hrest⟩ := hv
  have hfe := filesOnDisk_eq sm hid
  have h1 : openSegs (filesOnDisk sm)
      = sm.segments.map (fun p => (p.1, openSegment p.1 p.2.data)) := by
    unfold openSegs
    rw [hfe, List.map_map]
    rfl
  have hfst : (filesOnDisk sm).map Prod.fst = alKeys sm.segments := by
    rw [hfe, List.map_map]
    rfl
  have h2 : nextIDFrom (filesOnDisk sm) = n + 1 := by
    unfold nextIDFrom
    rw [foldl_nextid_keys, hfst, hkeys, nextid_fold]
  have h3 : activeFrom (filesOnDisk sm) = 0 := by
    unfold activeFrom
    rw [hfst, hkeys, sortNat_eq_self _ (sorted_range' 1 n)]
    rw [find?_active_none]
    · rfl
    · intro i s hs
      rw [h1, alGet_openMap] at hs
      cases hg : alGet sm.segments i with
      | none =>
        rw [hg] at hs
        cases hs
      | some s0 =>
        rw [hg] at hs
        injection hs with hs
        rw [← hs]
        rfl
  have hnn : alGet sm.segments (n + 1) = none := by
    rw [alGet_none_iff_not_mem, hkeys]
    intro hmem
    have := List.mem_range'_1.mp hmem
    omega
  have hnone : alGet (sm.segments.map
      (fun p => (p.1, openSegment p.1 p.2.data))) (n + 1) = none := by
    rw [alGet_openMap, hnn]
    rfl
  unfold smOpenFrom
  dsimp only
  rw [h3]
  rw [if_pos rfl]
  unfold smCreateActive
  dsimp only
  rw [h1, h2]
  rw [alPut_append_absent _ _ _ hnone]

/-- One replay step of the startup keydir fold mirrors one rebuild step,
up to the identity stamps the keydir additionally tracks. -/
theorem kd_corr_step (fid : Nat) (kd : HashTable) (ident : Nat)
    (l : List (Key × Loc)) (item : Nat × Entry)
    (h : ∀ k, Option.map locOf (alGet kd k) = alGet l k) :
    ∀ k, Option.map locOf (alGet (kdStep fid (kd, ident) item).1 k)
      = alGet (rebuildStep l (fid, item.1, item.2)) k := by
  intro k
  unfold kdStep rebuildStep
  by_cases ht : item.2.isTombstone
  · rw [if_pos ht, if_pos (show ((fid, item.1, item.2)).2.2.isTombstone = true from ht)]
    dsimp only
    by_cases hk : k = item.2.key
    · subst hk
      rw [alGet_erase_self, alGet_erase_self]
      rfl
    · rw [alGet_erase_ne _ _ _ hk, alGet_erase_ne _ _ _ hk]
      exact h k
  · rw [if_neg ht, if_neg (show ¬ ((fid, item.1, item.2)).2.2.isTombstone = true from ht)]
    dsimp only
    unfold htPut
    by_cases hk : k = item.2.key
    · subst hk
      rw [alGet_put_self, alGet_put_self]
      rfl
    · rw [alGet_put_ne _ _ _ _ hk, alGet_put_ne _ _ _ _ hk]
      exact h k

theorem kd_corr_fold (fid : Nat) (items : List (Nat × Entry)) :
    ∀ (kd : HashTable) (ident : Nat) (l : List (Key × Loc)),
    (∀ k, Option.map locOf (alGet kd k) = alGet l k) →
    (∀ k, Option.map locOf (alGet (items.foldl (kdStep fid) (kd, ident)).1 k)
      = alGet (List.foldl rebuildStep l
          (items.map (fun it => (fid, it.1, it.2)))) k) := by
  induction items with
  | nil =>
    intro kd ident l h k
    exact h k
  | cons it rest ih =>
    intro kd ident l h k
    rw [List.foldl_cons, List.map_cons, List.foldl_cons]
    exact ih (kdStep fid (kd, ident) it).1 (kdStep fid (kd, ident) it).2 _
      (kd_corr_step fid kd ident l it h) k

/-- The records segment i contributes to replay, in scan order. -/
def segBlock (sm : SegmentManager) (i : Nat) : List (Nat × Nat × Entry) :=
  match alGet sm.segments i with
  | some seg => (segItems seg).map (fun it => (i, it.1, it.2))
  | none => []

theorem allItems_eq_blocks (sm : SegmentManager) :
    allItems sm = (smGetSegmentIDs sm).flatMap (segBlock sm) := rfl

theorem load_fold_ok (sm R : SegmentManager) (ids : List Nat)
    (hsc : ∀ i ∈ ids, ∃ s items, alGet R.segments i = some s ∧ s.id = i ∧
      segEntriesFrom s 0 = .ok items ∧
      segBlock sm i = items.map (fun it => (i, it.1, it.2))) :
    ∀ (kd : HashTable) (ident : Nat) (l : List (Key × Loc)),
    (∀ k, Option.map locOf (alGet kd k) = alGet l k) →
    ∃ kdF identF, ids.foldlM (loadStep R) (kd, ident) = .ok (kdF, identF) ∧
      (∀ k, Option.map locOf (alGet kdF k)
        = alGet (List.foldl rebuildStep l (ids.flatMap (segBlock sm))) k) := by
  induction ids with
  | nil =>
    intro kd ident l h
    exact ⟨kd, ident, rfl, fun k => h k⟩
  | cons i rest ih =>
    intro kd ident l h
    obtain ⟨s, items, hgs, hsid, hscan, hblock⟩ := hsc i (List.mem_cons_self _ _)
    have hstep : loadStep R (kd, ident) i
        = .ok (items.foldl (kdStep i) (kd, ident)) := by
      unfold loadStep
      rw [hgs]
      unfold loadSegmentIntoKeyDir
      dsimp only
      rw [hscan]
      dsimp only
      rw [hsid]
    obtain ⟨kdF, identF, hfold, hcorr⟩ :=
      ih (fun j hj => hsc j (List.mem_cons_of_mem _ hj))
        (items.foldl (kdStep i) (kd, ident)).1
        (items.foldl (kdStep i) (kd, ident)).2
        (List.foldl rebuildStep l (items.map (fun it => (i, it.1, it.2))))
        (kd_corr_fold i items kd ident l h)
    refine ⟨kdF, identF, ?_, ?_⟩
    · rw [List.foldlM_cons, hstep]
      exact hfold
    · intro k
      rw [List.flatMap_cons, List.foldl_append, hblock]
      exact hcorr k

/-- Startup replay over the reopened files reconstructs exactly the rebuild
of the pre-shutdown record sequence. -/
theorem loadFromSegments_replay (sm : SegmentManager) (n : Nat) (seg : Segment)
    (es : List Entry) (hv : SMView sm n seg es) :
    ∃ kdF identF,
      loadFromSegments (smOpenFrom (filesOnDisk sm)) = .ok (kdF, identF) ∧
      ∀ k, Option.map locOf (alGet kdF k) = alGet (rebuild (allItems sm)) k := by
  have hR := smOpenFrom_eq sm n seg es hv
  obtain ⟨hn1, hkeys, hact, hnext, hget, hsi, hactive, hrest⟩ := hv
  have hnn : alGet sm.segments (n + 1) = none := by
    rw [alGet_none_iff_not_mem, hkeys]
    intro hmem
    have := List.mem_range'_1.mp hmem
    omega
  have hmapkeys : alKeys (sm.segments.map
      (fun p => (p.1, openSegment p.1 p.2.data))) = alKeys sm.segments := by
    unfold alKeys
    rw [List.map_map]
    rfl
  have hkeysR : alKeys (smOpenFrom (filesOnDisk sm)).segments
      = List.range' 1 (n + 1) := by
    rw [hR]
    show alKeys (sm.segments.map (fun p => (p.1, openSegment p.1 p.2.data))
      ++ [(n + 1, newSegment (n + 1))]) = _
    unfold alKeys
    rw [List.map_append]
    rw [show List.map Prod.fst (sm.segments.map
        (fun p => (p.1, openSegment p.1 p.2.data)))
      = alKeys sm.segments from hmapkeys]
    rw [hkeys]
    show List.range' 1 n ++ [n + 1] = List.range' 1 (n + 1)
    rw [← range'_one_concat]
  have hids : smGetSegmentIDs (smOpenFrom (filesOnDisk sm))
      = List.range' 1 (n + 1) :=
    smGetSegmentIDs_of_keys _ _ hkeysR
  have hsc : ∀ i ∈ List.range' 1 (n + 1),
      ∃ s items, alGet (smOpenFrom (filesOnDisk sm)).segments i = some s ∧
        s.id = i ∧ segEntriesFrom s 0 = .ok items ∧
        segBlock sm i = items.map (fun it => (i, it.1, it.2)) := by
    intro i hi
    have hb := List.mem_range'_1.mp hi
    by_cases hin : i = n + 1
    · subst hin
      refine ⟨newSegment (n + 1), [], ?_, rfl, ?_, ?_⟩
      · rw [hR]
        show alGet (sm.segments.map (fun p => (p.1, openSegment p.1 p.2.data))
          ++ [(n + 1, newSegment (n + 1))]) (n + 1) = some (newSegment (n + 1))
        rw [alGet_append_right _ _ _ (by rw [alGet_openMap, hnn]; rfl)]
        rw [alGet_cons, if_pos rfl]
      · have := segEntriesFrom_spec (newSegment (n + 1)) [] [] (by rfl) rfl
          (fun e he => absurd he (List.not_mem_nil e))
        simpa using this
      · unfold segBlock
        rw [hnn]
        rfl
    · have hle : i < n + 1 := by omega
      have hex : ∃ s0 es0, alGet sm.segments i = some s0 ∧ SegInv i s0 es0 := by
        by_cases hineq : i = n
        · subst hineq
          exact ⟨seg, es, hget, hsi⟩
        · have hlt : i < n := by omega
          obtain ⟨seg', es', hg', hsi', -, -⟩ := hrest i (by omega) hlt
          exact ⟨seg', es', hg', hsi'⟩
      obtain ⟨s0, es0, hg0, hsi0⟩ := hex
      refine ⟨openSegment i s0.data, withOffsets 0 es0, ?_, rfl, ?_, ?_⟩
      · rw [hR]
        show alGet (sm.segments.map (fun p => (p.1, openSegment p.1 p.2.data))
          ++ [(n + 1, newSegment (n + 1))]) i = some (openSegment i s0.data)
        exact alGet_append_left _ _ _ _ (by rw [alGet_openMap, hg0]; rfl)
      · have := segEntriesFrom_spec (openSegment i s0.data) [] es0
          (by simpa using hsi0.2.1) rfl
          (fun e he => hsi0.2.2.2.2.2.2.2.1 e he)
        simpa using this
      · unfold segBlock
        rw [hg0]
        dsimp only
        rw [segItems_eq hsi0]
  obtain ⟨kdF, identF, hfold, hcorr⟩ :=
    load_fold_ok sm (smOpenFrom (filesOnDisk sm)) (List.range' 1 (n + 1)) hsc
      [] 0 [] (fun k => rfl)
  refine ⟨kdF, identF, ?_, ?_⟩
  · unfold loadFromSegments
    rw [hids]
    exact hfold
  · intro k
    have hb : segBlock sm (n + 1) = [] := by
      unfold segBlock
      rw [hnn]
    have hflat : (List.range' 1 (n + 1)).flatMap (segBlock sm)
        = (List.range' 1 n).flatMap (segBlock sm) := by
      rw [range'_one_concat, List.flatMap_append]
      simp [hb]
    have h2 := hcorr k
    rw [hflat] at h2
    rw [allItems_eq_blocks sm, smGetSegmentIDs_of_keys sm n hkeys]
    unfold rebuild
    exact h2

/-- Close and reopen on the same directory, in full: startup succeeds, and
Get afterwards agrees with Get before shutdown on every key except a live
key recorded with value size zero, which replays as deleted. -/
theorem reopen_replay_general (st : Store) (hInv : Inv st) :
    ∃ st2, storeOpen (filesOnDisk st.sm) = .ok st2 ∧
      ∀ k, storeGet st2 k =
        match alGet st.hashTable k with
        | some he => if he.valueSize = 0 then Except.error Err.keyNotFound
            else storeGet st k
        | none => Except.error Err.keyNotFound := by
  obtain ⟨⟨n, seg, es, hv⟩, hkd, hri, -⟩ := hInv
  have hR := smOpenFrom_eq st.sm n seg es hv
  obtain ⟨kdF, identF, hload, hcorr⟩ := loadFromSegments_replay st.sm n seg es hv
  refine ⟨⟨smOpenFrom (filesOnDisk st.sm), kdF, identF, false⟩, ?_, ?_⟩
  · unfold storeOpen
    dsimp only
    rw [hload]
  · intro k
    have hck := hcorr k
    rw [hri k] at hck
    obtain ⟨hn1, hkeys, hact, hnext, hget, hsi, hactive, hrest⟩ := hv
    cases hhe : alGet st.hashTable k with
    | none =>
      rw [hhe] at hck
      have hnone : alGet kdF k = none := by
        cases hg : alGet kdF k with
        | none => rfl
        | some x =>
          rw [hg] at hck
          simp [liveLoc] at hck
      show storeGet ⟨smOpenFrom (filesOnDisk st.sm), kdF, identF, false⟩ k
        = Except.error Err.keyNotFound
      unfold storeGet
      dsimp only
      rw [hnone]
    | some he =>
      rw [hhe] at hck
      by_cases hvs : he.valueSize = 0
      · show storeGet ⟨smOpenFrom (filesOnDisk st.sm), kdF, identF, false⟩ k
          = if he.valueSize = 0 then Except.error Err.keyNotFound
            else storeGet st k
        rw [if_pos hvs]
        have hnone : alGet kdF k = none := by
          cases hg : alGet kdF k with
          | none => rfl
          | some x =>
            rw [hg] at hck
            simp [liveLoc, hvs] at hck
        unfold storeGet
        dsimp only
        rw [hnone]
      · show storeGet ⟨smOpenFrom (filesOnDisk st.sm), kdF, identF, false⟩ k
          = if he.valueSize = 0 then Except.error Err.keyNotFound
            else storeGet st k
        rw [if_neg hvs]
        have hck' : Option.map locOf (alGet kdF k)
            = some ⟨he.fileID, he.valueSize, he.valuePos, he.timestamp⟩ := by
          rw [hck]
          simp [liveLoc, hvs]
        obtain ⟨he2, hhe2, hloc⟩ : ∃ he2, alGet kdF k = some he2 ∧
            locOf he2 = ⟨he.fileID, he.valueSize, he.valuePos, he.timestamp⟩ := by
          cases hg : alGet kdF k with
          | none =>
            rw [hg] at hck'
            cases hck'
          | some a =>
            rw [hg] at hck'
            refine ⟨a, rfl, ?_⟩
            injection hck'
        obtain ⟨f2, s2, p2, t2, i2⟩ := he2
        have hf2 : f2 = he.fileID := congrArg Loc.fileID hloc
        have hs2 : s2 = he.valueSize := congrArg Loc.valueSize hloc
        have hp2 : p2 = he.valuePos := congrArg Loc.valuePos hloc
        have ht2 : t2 = he.timestamp := congrArg Loc.timestamp hloc
        subst hf2
        subst hs2
        subst hp2
        subst ht2
        obtain ⟨s0, e, hs0, hmem, hkey, hwf, hvs0, hts0, -⟩ := hkd k he hhe
        have hkmem : he.fileID ∈ alKeys st.sm.segments :=
          (alGet_isSome_iff_mem _ _).mp (by rw [hs0]; rfl)
        rw [hkeys] at hkmem
        have hbnd := List.mem_range'_1.mp hkmem
        have hex : ∃ es0, SegInv he.fileID s0 es0 := by
          by_cases hfn : he.fileID = n
          · rw [hfn] at hs0
            rw [hget] at hs0
            injection hs0 with hs0
            rw [hfn]
            exact ⟨es, hs0 ▸ hsi⟩
          · have hlt : he.fileID < n := by omega
            obtain ⟨seg', es', hg', hsi', -, -⟩ := hrest he.fileID (by omega) hlt
            rw [hs0] at hg'
            injection hg' with hg'
            exact ⟨es', hg' ▸ hsi'⟩
        obtain ⟨es0, hsi0⟩ := hex
        have hgetR : alGet (smOpenFrom (filesOnDisk st.sm)).segments he.fileID
            = some (openSegment he.fileID s0.data) := by
          rw [hR]
          exact alGet_append_left _ _ _ _ (by rw [alGet_openMap, hs0]; rfl)
        have hmem' : (he.valuePos, e) ∈ withOffsets 0 es0 := by
          rw [← segItems_eq hsi0]
          exact hmem
        have hread : (openSegment he.fileID s0.data).read he.valuePos = .ok e := by
          apply read_of_mem_withOffsets _ [] es0 ?_ ?_ ?_ _ _ (by simpa using hmem')
          · show s0.data = serializeAll ([] ++ es0)
            simpa using hsi0.2.1
          · rfl
          · exact fun x hx => hsi0.2.2.2.2.2.2.2.1 x hx
        have hsmR : smRead (smOpenFrom (filesOnDisk st.sm)) he.fileID he.valuePos
            = .ok e := by
          unfold smRead
          rw [hgetR]
          exact hread
        have hsmO : smRead st.sm he.fileID he.valuePos = .ok e := by
          unfold smRead
          rw [hs0]
          exact read_segItems hsi0 hmem
        unfold storeGet
        dsimp only
        rw [hhe2, hhe]
        show (match smRead (smOpenFrom (filesOnDisk st.sm)) he.fileID he.valuePos with
          | Except.error err => Except.error err
          | Except.ok logEntry => Except.ok (logEntry.value.getD []))
          = (match smRead st.sm he.fileID he.valuePos with
          | Except.error err => Except.error err
          | Except.ok logEntry => Except.ok (logEntry.value.getD []))
        rw [hsmR, hsmO]

theorem withOffsets_map_snd (start : Nat) (es : List Entry) :
    (withOffsets start es).map Prod.snd = es := by
  induction es generalizing start with
  | nil => rfl
  | cons e t ih =>
    rw [withOffsets, List.map_cons, ih]

theorem withOffsets_mem_entry {start : Nat} {es : List Entry} {off : Nat}
    {e : Entry} (h : (off, e) ∈ withOffsets start es) : e ∈ es := by
  induction es generalizing start with
  | nil => cases h
  | cons x t ih =>
    rcases List.mem_cons.mp h with h | h
    · injection h with h1 h2
      rw [h2]
      exact List.mem_cons_self _ _
    · exact List.mem_cons_of_mem _ (ih h)

theorem alKeys_put_nodup {κ : Type} [DecidableEq κ] {α : Type}
    (l : List (κ × α)) (k : κ) (v : α) (h : (alKeys l).Nodup) :
    (alKeys (alPut l k v)).Nodup := by
  cases hg : alGet l k with
  | some w =>
    rw [alKeys_put_present _ _ _ (by rw [hg]; rfl)]
    exact h
  | none =>
    rw [alPut_append_absent _ _ _ hg]
    unfold alKeys
    rw [List.map_append]
    refine List.Nodup.append h (by simp) ?_
    intro a ha hb
    rw [List.mem_map] at hb
    obtain ⟨p, hp, hpa⟩ := hb
    rw [List.mem_singleton] at hp
    rw [hp] at hpa
    rw [← hpa] at ha
    exact (alGet_none_iff_not_mem _ _).mp hg ha

theorem foldl_delete_get (ids : List Nat) (sm : SegmentManager) (j : Nat) :
    alGet ((ids.foldl smDeleteSegment sm).segments) j
      = if j ∈ ids then none else alGet sm.segments j := by
  induction ids generalizing sm with
  | nil => simp
  | cons i rest ih =>
    rw [List.foldl_cons, ih]
    by_cases hr : j ∈ rest
    · rw [if_pos hr, if_pos (List.mem_cons_of_mem _ hr)]
    · rw [if_neg hr]
      by_cases hi : j = i
      · rw [if_pos (by rw [hi]; exact List.mem_cons_self _ _)]
        show alGet (alErase sm.segments i) j = none
        rw [hi, alGet_erase_self]
      · rw [if_neg (by
          intro hmem
          rcases List.mem_cons.mp hmem with h | h
          · exact hi h
          · exact hr h)]
        show alGet (alErase sm.segments i) j = alGet sm.segments j
        exact alGet_erase_ne _ _ _ hi

theorem foldl_put_get_not_mem {α : Type} (src : List (Nat × α))
    (acc : List (Nat × α)) (j : Nat) (h : j ∉ alKeys src) :
    alGet (src.foldl (fun a p => alPut a p.1 p.2) acc) j = alGet acc j := by
  induction src generalizing acc with
  | nil => rfl
  | cons p t ih =>
    rw [alKeys_cons] at h
    rw [List.foldl_cons, ih _ (fun hm => h (List.mem_cons_of_mem _ hm))]
    exact alGet_put_ne _ _ _ _ (fun hj => h (hj ▸ List.mem_cons_self _ _))

theorem foldl_put_get_mem {α : Type} (src : List (Nat × α))
    (acc : List (Nat × α)) (j : Nat) (v : α) (hnd : (alKeys src).Nodup)
    (h : alGet src j = some v) :
    alGet (src.foldl (fun a p => alPut a p.1 p.2) acc) j = some v := by
  induction src generalizing acc with
  | nil => cases h
  | cons p t ih =>
    rw [alKeys_cons, List.nodup_cons] at hnd
    rw [alGet_cons] at h
    rw [List.foldl_cons]
    by_cases hj : p.1 = j
    · rw [if_pos hj] at h
      injection h with h
      rw [foldl_put_get_not_mem _ _ _ (by rw [← hj]; exact hnd.1)]
      rw [← hj, alGet_put_self, h]
    · rw [if_neg hj] at h
      exact ih _ hnd.2 h

theorem filter_keys_pointwise (l : List (Nat × Segment))
    (f : Nat × Segment → Bool) (g : Nat → Bool)
    (h : ∀ p ∈ l, f p = g p.1) :
    alKeys (l.filter f) = (alKeys l).filter g := by
  induction l with
  | nil => rfl
  | cons p t ih =>
    rw [List.filter_cons, alKeys_cons, List.filter_cons,
      h p (List.mem_cons_self _ _)]
    have ihr := ih (fun q hq => h q (List.mem_cons_of_mem _ hq))
    by_cases hg : g p.1 = true
    · rw [if_pos hg, if_pos hg, alKeys_cons, ihr]
    · rw [if_neg hg, if_neg hg, ihr]

/-- The inactive segment ids of a viewed manager are exactly 1..n-1. -/
theorem inactive_ids_eq (sm : SegmentManager) (n : Nat) (seg : Segment)
    (es : List Entry) (hv : SMView sm n seg es) :
    smGetInactiveSegmentIDs sm = List.range' 1 (n - 1) := by
  have hids := smView_ids sm n seg es hv
  obtain ⟨hn1, hkeys, hact, hnext, hget, hsi, hactive, hrest⟩ := hv
  have hnd : (alKeys sm.segments).Nodup := by
    rw [hkeys]
    exact List.nodup_range' _ _
  have hpt : ∀ p ∈ sm.segments, (!p.2.isActive) = !(p.1 == n) := by
    intro p hp
    have hg := alGet_of_mem_nodup hnd hp
    have hkmem : p.1 ∈ alKeys sm.segments := List.mem_map_of_mem Prod.fst hp
    rw [hkeys] at hkmem
    have hb := List.mem_range'_1.mp hkmem
    by_cases hpn : p.1 = n
    · rw [hpn] at hg
      rw [hget] at hg
      injection hg with hg
      rw [← hg, hactive, hpn]
      simp
    · have hlt : p.1 < n := by omega
      obtain ⟨seg', es', hg', hsi', ha', -⟩ := hrest p.1 (by omega) hlt
      rw [hg] at hg'
      injection hg' with hg'
      rw [hg', ha']
      simp [hpn]
  unfold smGetInactiveSegmentIDs
  rw [filter_keys_pointwise _ _ (fun i => !(i == n)) hpt, hkeys]
  have hsplit : List.range' 1 n = List.range' 1 (n - 1) ++ [n] := by
    have := range'_one_concat (n - 1)
    rw [show n - 1 + 1 = n from by omega] at this
    exact this
  rw [hsplit, List.filter_append]
  have h1 : (List.range' 1 (n - 1)).filter (fun i => !(i == n))
      = List.range' 1 (n - 1) := by
    rw [List.filter_eq_self]
    intro a ha
    have hb := List.mem_range'_1.mp ha
    have hne : a ≠ n := by omega
    simp [hne]
  have h2 : ([n].filter (fun i => !(i == n))) = [] := by simp
  rw [h1, h2, List.append_nil]
  exact sortNat_eq_self _ (sorted_range' 1 (n - 1))

/-- Invariant of the compaction copy phase: the merge workspace manager is
well shaped with a fill state that packs exactly the copied records, the
merge keydir has distinct keys, and every merge keydir entry points inside
the workspace at a copy of the record its key's snapshot location holds. -/
def MergeInv (sm0 : SegmentManager) (snap : HashTable)
    (acc : SegmentManager × HashTable × Nat) (copied : List Entry) : Prop :=
  (∃ m segM esM, SMView acc.1 m segM esM ∧
    (⟨m, sizeSum esM, esM.length⟩ : PackSt)
      = packRun ⟨1, 0, 0⟩ (copied.map Entry.size)) ∧
  (alKeys acc.2.1).Nodup ∧
  (∀ k he', alGet acc.2.1 k = some he' →
    ∃ he e, alGet snap k = some he ∧
      smRead sm0 he.fileID he.valuePos = .ok e ∧
      ∃ s1, alGet acc.1.segments he'.fileID = some s1 ∧
        (he'.valuePos, e) ∈ segItems s1)

theorem mergeCopyEntry_tomb (snap : HashTable) (i : Nat)
    (acc : SegmentManager × HashTable × Nat) (item : Nat × Entry)
    (h : item.2.isTombstone = true) :
    mergeCopyEntry snap i acc item = .ok acc := by
  unfold mergeCopyEntry
  dsimp only
  rw [if_pos h]

theorem mergeCopyEntry_nosnap (snap : HashTable) (i : Nat)
    (acc : SegmentManager × HashTable × Nat) (item : Nat × Entry)
    (h1 : item.2.isTombstone = false) (h2 : alGet snap item.2.key = none) :
    mergeCopyEntry snap i acc item = .ok acc := by
  unfold mergeCopyEntry
  dsimp only
  rw [if_neg (by simp [h1]), h2]

theorem mergeCopyEntry_skip (snap : HashTable) (i : Nat)
    (acc : SegmentManager × HashTable × Nat) (item : Nat × Entry)
    (h1 : item.2.isTombstone = false) (he : HashTableEntry)
    (h2 : alGet snap item.2.key = some he)
    (h3 : he.fileID ≠ i ∨ he.valuePos ≠ item.1) :
    mergeCopyEntry snap i acc item = .ok acc := by
  unfold mergeCopyEntry
  dsimp only
  rw [if_neg (by simp [h1]), h2]
  dsimp only
  rw [if_pos h3]

theorem mergeCopyEntry_copy (snap : HashTable) (i : Nat)
    (acc : SegmentManager × HashTable × Nat) (item : Nat × Entry)
    (h1 : item.2.isTombstone = false) (he : HashTableEntry)
    (h2 : alGet snap item.2.key = some he)
    (h3 : ¬(he.fileID ≠ i ∨ he.valuePos ≠ item.1))
    (sm' : SegmentManager) (nid noff : Nat)
    (h4 : smAppend acc.1 item.2 = (sm', .ok (nid, noff))) :
    mergeCopyEntry snap i acc item
      = .ok (sm', htPut acc.2.1 item.2.key nid noff (item.2.size % 2 ^ 32)
          item.2.timestamp acc.2.2, acc.2.2 + 1) := by
  unfold mergeCopyEntry
  dsimp only
  rw [if_neg (by simp [h1]), h2]
  dsimp only
  rw [if_neg h3, h4]

/-- Copy phase over the scanned items of one source segment: the fold
succeeds, the invariant is preserved, the copied records are a sublist of
the scanned records, merge keydir keys only grow, and every scanned live
record whose key's snapshot location is exactly this record gets its key
into the merge keydir. -/
theorem merge_copy_items (sm0 : SegmentManager) (snap : HashTable) (i : Nat)
    (L : List (Nat × Entry))
    (hwfL : ∀ it ∈ L, it.2.WellFormed)
    (hread : ∀ it ∈ L, smRead sm0 i it.1 = .ok it.2) :
    ∀ acc copied, MergeInv sm0 snap acc copied →
    ∃ accF newly,
      L.foldlM (mergeCopyEntry snap i) acc = .ok accF ∧
      MergeInv sm0 snap accF (copied ++ newly) ∧
      newly.Sublist (L.map Prod.snd) ∧
      (∀ k, (alGet acc.2.1 k).isSome = true → (alGet accF.2.1 k).isSome = true) ∧
      (∀ it ∈ L, it.2.isTombstone = false →
        ∀ he, alGet snap it.2.key = some he → he.fileID = i →
          he.valuePos = it.1 → (alGet accF.2.1 it.2.key).isSome = true) := by
  induction L with
  | nil =>
    intro acc copied hInv
    exact ⟨acc, [], rfl, by simpa using hInv, List.nil_sublist _, fun k h => h,
      fun it hit => absurd hit (List.not_mem_nil it)⟩
  | cons it rest ih =>
    intro acc copied hInv
    by_cases htomb : it.2.isTombstone = true
    · obtain ⟨accF, newly, hfold, hInvF, hsub, hmono, hcompl⟩ :=
        ih (fun x hx => hwfL x (List.mem_cons_of_mem _ hx))
          (fun x hx => hread x (List.mem_cons_of_mem _ hx)) acc copied hInv
      refine ⟨accF, newly, ?_, hInvF, ?_, hmono, ?_⟩
      · rw [List.foldlM_cons, mergeCopyEntry_tomb snap i acc it htomb]
        exact hfold
      · rw [List.map_cons]
        exact List.Sublist.cons _ hsub
      · intro x hx hxt he hsnap hfid hpos
        rcases List.mem_cons.mp hx with hx | hx
        · rw [hx] at hxt
          rw [hxt] at htomb
          cases htomb
        · exact hcompl x hx hxt he hsnap hfid hpos
    · have htf : it.2.isTombstone = false := by
        cases hx : it.2.isTombstone
        · rfl
        · exact absurd hx htomb
      cases hsnap : alGet snap it.2.key with
      | none =>
        obtain ⟨accF, newly, hfold, hInvF, hsub, hmono, hcompl⟩ :=
          ih (fun x hx => hwfL x (List.mem_cons_of_mem _ hx))
            (fun x hx => hread x (List.mem_cons_of_mem _ hx)) acc copied hInv
        refine ⟨accF, newly, ?_, hInvF, ?_, hmono, ?_⟩
        · rw [List.foldlM_cons, mergeCopyEntry_nosnap snap i acc it htf hsnap]
          exact hfold
        · rw [List.map_cons]
          exact List.Sublist.cons _ hsub
        · intro x hx hxt he hsnap2 hfid hpos
          rcases List.mem_cons.mp hx with hx | hx
          · rw [hx] at hsnap2
            rw [hsnap] at hsnap2
            cases hsnap2
          · exact hcompl x hx hxt he hsnap2 hfid hpos
      | some he =>
        by_cases hguard : he.fileID ≠ i ∨ he.valuePos ≠ it.1
        · obtain ⟨accF, newly, hfold, hInvF, hsub, hmono, hcompl⟩ :=
            ih (fun x hx => hwfL x (List.mem_cons_of_mem _ hx))
              (fun x hx => hread x (List.mem_cons_of_mem _ hx)) acc copied hInv
          refine ⟨accF, newly, ?_, hInvF, ?_, hmono, ?_⟩
          · rw [List.foldlM_cons,
              mergeCopyEntry_skip snap i acc it htf he hsnap hguard]
            exact hfold
          · rw [List.map_cons]
            exact List.Sublist.cons _ hsub
          · intro x hx hxt he3 hsnap3 hfid3 hpos3
            rcases List.mem_cons.mp hx with hx | hx
            · rw [hx] at hsnap3 hpos3
              rw [hsnap] at hsnap3
              injection hsnap3 with hsnap3
              rw [hsnap3] at hguard
              rcases hguard with hg | hg
              · exact absurd hfid3 hg
              · exact absurd hpos3 hg
            · exact hcompl x hx hxt he3 hsnap3 hfid3 hpos3
        · obtain ⟨⟨m, segM, esM, hview, hpackEq⟩, hnd, hsound⟩ := hInv
          have hwfe : it.2.WellFormed := hwfL it (List.mem_cons_self _ _)
          obtain ⟨sm', segID, seg2, esPre, happ, hview', hall, hpres, hpack,
            hb1, hb2⟩ := smAppend_view acc.1 m segM esM hview it.2 it.2 rfl hwfe
          set acc1 : SegmentManager × HashTable × Nat :=
            (sm', htPut acc.2.1 it.2.key segID (sizeSum esPre)
              (it.2.size % 2 ^ 32) it.2.timestamp acc.2.2, acc.2.2 + 1)
            with hacc1
          have hstep : mergeCopyEntry snap i acc it = .ok acc1 :=
            mergeCopyEntry_copy snap i acc it htf he hsnap hguard sm' segID
              (sizeSum esPre) happ
          push_neg at hguard
          obtain ⟨hfid, hpos⟩ := hguard
          have hInv1 : MergeInv sm0 snap acc1 (copied ++ [it.2]) := by
            refine ⟨⟨segID, seg2, esPre ++ [it.2], hview', ?_⟩, ?_, ?_⟩
            · rw [List.map_append, packRun_append]
              show (⟨segID, sizeSum (esPre ++ [it.2]),
                  (esPre ++ [it.2]).length⟩ : PackSt)
                = packStep (packRun ⟨1, 0, 0⟩ (copied.map Entry.size)) it.2.size
              rw [← hpackEq]
              exact hpack
            · show (alKeys (htPut acc.2.1 it.2.key segID (sizeSum esPre)
                (it.2.size % 2 ^ 32) it.2.timestamp acc.2.2)).Nodup
              exact alKeys_put_nodup _ _ _ hnd
            · intro k he2 hhe2
              by_cases hk : k = it.2.key
              · subst hk
                rw [show acc1.2.1 = htPut acc.2.1 it.2.key segID (sizeSum esPre)
                    (it.2.size % 2 ^ 32) it.2.timestamp acc.2.2 from rfl] at hhe2
                unfold htPut at hhe2
                rw [alGet_put_self] at hhe2
                injection hhe2 with hhe2
                subst hhe2
                refine ⟨he, it.2, hsnap, ?_, ⟨seg2, ?_, ?_⟩⟩
                · rw [hfid, hpos]
                  exact hread it (List.mem_cons_self _ _)
                · show alGet sm'.segments segID = some seg2
                  exact hview'.2.2.2.2.1
                · show ((sizeSum esPre : Nat), it.2) ∈ segItems seg2
                  exact segItems_last hview'.2.2.2.2.2.1
              · rw [show acc1.2.1 = htPut acc.2.1 it.2.key segID (sizeSum esPre)
                    (it.2.size % 2 ^ 32) it.2.timestamp acc.2.2 from rfl] at hhe2
                unfold htPut at hhe2
                rw [alGet_put_ne _ _ _ _ hk] at hhe2
                obtain ⟨he0, e0, hsnap0, hread0, s1, hs1, hmem1⟩ :=
                  hsound k he2 hhe2
                obtain ⟨s2, hs2, -, hsup⟩ := hpres he2.fileID s1 hs1
                exact ⟨he0, e0, hsnap0, hread0, s2, hs2, hsup _ hmem1⟩
          obtain ⟨accF, newly, hfold, hInvF, hsub, hmono, hcompl⟩ :=
            ih (fun x hx => hwfL x (List.mem_cons_of_mem _ hx))
              (fun x hx => hread x (List.mem_cons_of_mem _ hx)) acc1
              (copied ++ [it.2]) hInv1
          have hput1 : (alGet acc1.2.1 it.2.key).isSome = true := by
            rw [show acc1.2.1 = htPut acc.2.1 it.2.key segID (sizeSum esPre)
                (it.2.size % 2 ^ 32) it.2.timestamp acc.2.2 from rfl]
            unfold htPut
            rw [alGet_put_self]
            rfl
          refine ⟨accF, it.2 :: newly, ?_, ?_, ?_, ?_, ?_⟩
          · rw [List.foldlM_cons, hstep]
            exact hfold
          · rw [show copied ++ it.2 :: newly = (copied ++ [it.2]) ++ newly
              from by simp]
            exact hInvF
          · rw [List.map_cons]
            exact List.Sublist.cons₂ _ hsub
          · intro k hk
            apply hmono
            by_cases hkk : k = it.2.key
            · rw [hkk]
              exact hput1
            · rw [show acc1.2.1 = htPut acc.2.1 it.2.key segID (sizeSum esPre)
                  (it.2.size % 2 ^ 32) it.2.timestamp acc.2.2 from rfl]
              unfold htPut
              rw [alGet_put_ne _ _ _ _ hkk]
              exact hk
          · intro x hx hxt he3 hsnap3 hfid3 hpos3
            rcases List.mem_cons.mp hx with hx | hx
            · rw [hx]
              exact hmono _ hput1
            · exact hcompl x hx hxt he3 hsnap3 hfid3 hpos3

/-- Copy phase over a run of sealed source segments. -/
theorem merge_copy_blocks (sm0 : SegmentManager) (snap : HashTable) :
    ∀ (ids : List Nat),
    (∀ i ∈ ids, ∃ s es, alGet sm0.segments i = some s ∧ SegInv i s es ∧
      segSealed es) →
    ∀ acc copied, MergeInv sm0 snap acc copied →
    ∃ accF, ∃ extra : List Entry, ∃ bs : List (List Entry),
      ids.foldlM (fun acc i => mergeCopySegment snap sm0 i acc) acc
        = .ok accF ∧
      MergeInv sm0 snap accF (copied ++ extra) ∧
      bs.length = ids.length ∧
      (∀ es ∈ bs, fillsFrom 0 0 es ∧ segSealed es) ∧
      extra.Sublist bs.flatten ∧
      (∀ k, (alGet acc.2.1 k).isSome = true → (alGet accF.2.1 k).isSome = true) ∧
      (∀ k he e s, alGet snap k = some he → he.fileID ∈ ids →
        alGet sm0.segments he.fileID = some s →
        (he.valuePos, e) ∈ segItems s → e.key = k → e.isTombstone = false →
        (alGet accF.2.1 k).isSome = true) := by
  intro ids
  induction ids with
  | nil =>
    intro hblocks acc copied hInv
    exact ⟨acc, [], [], rfl, by simpa using hInv, rfl,
      fun es hes => absurd hes (List.not_mem_nil es), List.nil_sublist _,
      fun k h => h, fun k he e s hsnap hfid => absurd hfid (List.not_mem_nil _)⟩
  | cons i rest ih =>
    intro hblocks acc copied hInv
    obtain ⟨s, es, hgs, hsi, hsealed⟩ := hblocks i (List.mem_cons_self _ _)
    have hscan : segEntriesFrom s 0 = .ok (withOffsets 0 es) := by
      have := segEntriesFrom_spec s [] es (by simpa using hsi.2.1) hsi.2.2.1
        (fun e he => hsi.2.2.2.2.2.2.2.1 e he)
      simpa using this
    have hitems : segItems s = withOffsets 0 es := segItems_eq hsi
    have hwfL : ∀ it ∈ withOffsets 0 es, it.2.WellFormed := by
      intro it hit
      exact hsi.2.2.2.2.2.2.2.1 it.2 (withOffsets_mem_entry hit)
    have hreadL : ∀ it ∈ withOffsets 0 es, smRead sm0 i it.1 = .ok it.2 := by
      intro it hit
      unfold smRead
      rw [hgs]
      exact read_segItems hsi (by rw [hitems]; exact hit)
    obtain ⟨acc1, newly, hfold1, hInv1, hsub1, hmono1, hcompl1⟩ :=
      merge_copy_items sm0 snap i (withOffsets 0 es) hwfL hreadL acc copied hInv
    obtain ⟨accF, extra, bs, hfoldR, hInvF, hlen, hbs, hsubR, hmonoR, hcomplR⟩ :=
      ih (fun j hj => hblocks j (List.mem_cons_of_mem _ hj)) acc1
        (copied ++ newly) hInv1
    refine ⟨accF, newly ++ extra, es :: bs, ?_, ?_, ?_, ?_, ?_, ?_, ?_⟩
    · rw [List.foldlM_cons]
      have hstep : mergeCopySegment snap sm0 i acc = .ok acc1 := by
        unfold mergeCopySegment
        rw [hgs]
        dsimp only
        rw [hscan]
        dsimp only
        exact hfold1
      rw [hstep]
      exact hfoldR
    · rw [show copied ++ (newly ++ extra) = (copied ++ newly) ++ extra
        from by simp]
      exact hInvF
    · rw [List.length_cons, List.length_cons, hlen]
    · intro x hx
      rcases List.mem_cons.mp hx with hx | hx
      · rw [hx]
        exact ⟨hsi.2.2.2.2.2.2.2.2, hsealed⟩
      · exact hbs x hx
    · rw [List.flatten_cons]
      have hsubes : newly.Sublist es := by
        rw [← withOffsets_map_snd 0 es]
        exact hsub1
      exact List.Sublist.append hsubes hsubR
    · intro k hk
      exact hmonoR k (hmono1 k hk)
    · intro k he e s2 hsnap hfid hs2 hmem hkey htomb
      rcases List.mem_cons.mp hfid with hfid | hfid
      · rw [hfid] at hs2
        rw [hgs] at hs2
        injection hs2 with hs2
        rw [← hs2] at hmem
        rw [hitems] at hmem
        have hthis := hcompl1 (he.valuePos, e) hmem htomb he
          (by show alGet snap e.key = some he; rw [hkey]; exact hsnap) hfid rfl
        have hsome1 : (alGet acc1.2.1 k).isSome = true := by
          rw [← hkey]
          exact hthis
        exact hmonoR k hsome1
      · exact hcomplR k he e s2 hsnap hfid hs2 hmem hkey htomb

/-- Merge on an invariant state whose live keydir entries all have nonzero
value size: the merge succeeds and is observationally a no-op — Get and
List are unchanged, and the active segment's binding is untouched. -/
theorem merge_noop_general (st : Store) (hInv : Inv st)
    (hclean : ∀ k he, alGet st.hashTable k = some he → he.valueSize ≠ 0) :
    ∃ st', storeMerge st = (st', .ok ()) ∧
      (∀ k, storeGet st' k = storeGet st k) ∧
      storeList st' = storeList st ∧
      alGet st'.sm.segments st.sm.activeID
        = alGet st.sm.segments st.sm.activeID := by
  obtain ⟨⟨n, seg, es, hv⟩, hkd, hri, hmg⟩ := hInv
  have hids : smGetInactiveSegmentIDs st.sm = List.range' 1 (n - 1) :=
    inactive_ids_eq st.sm n seg es hv
  obtain ⟨hn1, hkeys, hact, hnext, hget, hsi, hactive, hrest⟩ := hv
  by_cases hn : n = 1
  · have hids0 : smGetInactiveSegmentIDs st.sm = [] := by
      rw [hids, hn]
      rfl
    have hrun : storeMerge st = (st, .ok ()) := by
      unfold storeMerge
      rw [if_neg (by simp [hmg])]
      dsimp only
      rw [hids0]
      rw [if_pos rfl]
    exact ⟨st, hrun, fun k => rfl, rfl, rfl⟩
  · have hn2 : 2 ≤ n := by omega
    have hidsne : List.range' 1 (n - 1) ≠ [] := by
      intro h
      have hh := congrArg List.length h
      rw [List.length_range'] at hh
      simp at hh
      omega
    have hblocks : ∀ i ∈ List.range' 1 (n - 1), ∃ s es0,
        alGet st.sm.segments i = some s ∧ SegInv i s es0 ∧ segSealed es0 := by
      intro i hi
      have hb := List.mem_range'_1.mp hi
      obtain ⟨seg', es', hg', hsi', -, hsl'⟩ := hrest i (by omega) (by omega)
      exact ⟨seg', es', hg', hsi', hsl'⟩
    have hview0 : SMView newSegmentManager 1 (newSegment 1) [] := by
      refine ⟨le_refl 1, rfl, rfl, rfl, rfl, ?_, rfl, ?_⟩
      · exact ⟨rfl, rfl, rfl, rfl, rfl, rfl, rfl,
          fun e he => absurd he (List.not_mem_nil e), trivial⟩
      · intro i h1 h2
        omega
    have hInv0 : MergeInv st.sm (htClone st.hashTable)
        (newSegmentManager, ([] : HashTable), st.nextIdent) [] := by
      refine ⟨⟨1, newSegment 1, [], hview0, rfl⟩, List.nodup_nil, ?_⟩
      intro k he' h
      cases h
    obtain ⟨⟨mergeSM, mergeHT, identF⟩, extra, bs, hfold, hInvF, hlen, hbs,
      hsub, hmono, hcompl⟩ :=
      merge_copy_blocks st.sm (htClone st.hashTable) (List.range' 1 (n - 1))
        hblocks (newSegmentManager, [], st.nextIdent) [] hInv0
    obtain ⟨⟨m, segM, esM, hviewF, hpackEq⟩, hndF, hsoundF⟩ := hInvF
    rw [List.nil_append] at hpackEq
    have hmle : m ≤ n - 1 := by
      have hball : ∀ es0 ∈ bs, fillsFrom 0 0 es0 := fun es0 h => (hbs es0 h).1
      have hsall : ∀ es0 ∈ bs, segSealed es0 := fun es0 h => (hbs es0 h).2
      have hbsne : bs ≠ [] := by
        intro h
        rw [h] at hlen
        rw [List.length_range'] at hlen
        simp at hlen
        omega
      obtain ⟨szf, cntf, hpk⟩ := packRun_prefix bs hball hsall hbsne
      have hPle := packRun_sublist (List.Sublist.map Entry.size hsub)
        (⟨1, 0, 0⟩ : PackSt)
      rw [hpk] at hPle
      rw [← hpackEq] at hPle
      have hbins : m ≤ bs.length := packLe_bins hPle
      rw [hlen, List.length_range'] at hbins
      exact hbins
    have hkeysM : alKeys mergeSM.segments = List.range' 1 m := hviewF.2.1
    have hndM : (alKeys mergeSM.segments).Nodup := by
      rw [hkeysM]
      exact List.nodup_range' _ _
    have hnnotM : n ∉ alKeys mergeSM.segments := by
      rw [hkeysM]
      intro h
      have := List.mem_range'_1.mp h
      omega
    have hnnotids : n ∉ List.range' 1 (n - 1) := by
      intro h
      have := List.mem_range'_1.mp h
      omega
    set sm2 : SegmentManager :=
      smMerge (List.foldl smDeleteSegment st.sm (List.range' 1 (n - 1)))
        mergeSM with hsm2
    set kd2 : HashTable := htMerge st.hashTable mergeHT (htClone st.hashTable)
      with hkd2
    set st' : Store := { st with
        sm := sm2
        hashTable := kd2
        nextIdent := identF } with hst'
    have hrun : storeMerge st = (st', .ok ()) := by
      unfold storeMerge
      rw [if_neg (by simp [hmg])]
      dsimp only
      rw [hids]
      rw [if_neg hidsne]
      rw [hfold]
    have hsm2n : alGet sm2.segments n = some seg := by
      rw [hsm2]
      unfold smMerge
      dsimp only
      rw [foldl_put_get_not_mem _ _ _ hnnotM]
      rw [foldl_delete_get]
      rw [if_neg hnnotids]
      exact hget
    refine ⟨st', hrun, ?_, ?_, ?_⟩
    · intro k
      cases hhe : alGet st.hashTable k with
      | none =>
        have hfin : alGet kd2 k = none := by
          rw [hkd2, htMerge_get _ _ _ _ hndF]
          cases hs : alGet mergeHT k with
          | none => exact hhe
          | some v =>
            rw [hhe]
        show storeGet st' k = storeGet st k
        unfold storeGet
        rw [show st'.hashTable = kd2 from rfl, hfin, hhe]
      | some he =>
        by_cases hks : (alGet mergeHT k).isSome = true
        · obtain ⟨he', hhe'⟩ : ∃ he', alGet mergeHT k = some he' := by
            cases hx : alGet mergeHT k with
            | none =>
              rw [hx] at hks
              cases hks
            | some a => exact ⟨a, rfl⟩
          obtain ⟨he0, e, hsnap0, hread0, s1, hs1, hmem1⟩ := hsoundF k he' hhe'
          have hsnap0' : alGet st.hashTable k = some he0 := hsnap0
          have heq0 : he = he0 := by
            rw [hhe] at hsnap0'
            injection hsnap0'
          have hfin : alGet kd2 k = some he' := by
            rw [hkd2, htMerge_get _ _ _ _ hndF, hhe', hhe]
            rw [show alGet (htClone st.hashTable) k = some he from hhe]
            show (if he = he then some he' else some he) = some he'
            rw [if_pos rfl]
          have hreadM : smRead mergeSM he'.fileID he'.valuePos = .ok e :=
            smView_read hviewF hs1 hmem1
          have hgets1 : alGet sm2.segments he'.fileID = some s1 := by
            rw [hsm2]
            unfold smMerge
            dsimp only
            exact foldl_put_get_mem _ _ _ _ hndM hs1
          have hread2 : smRead sm2 he'.fileID he'.valuePos = .ok e := by
            unfold smRead at hreadM ⊢
            rw [hgets1]
            rw [hs1] at hreadM
            exact hreadM
          have hreadO : smRead st.sm he.fileID he.valuePos = .ok e := by
            rw [heq0]
            exact hread0
          show storeGet st' k = storeGet st k
          unfold storeGet
          rw [show st'.hashTable = kd2 from rfl, hfin, hhe]
          show (match smRead st'.sm he'.fileID he'.valuePos with
            | Except.error err => Except.error err
            | Except.ok logEntry => Except.ok (logEntry.value.getD []))
            = (match smRead st.sm he.fileID he.valuePos with
            | Except.error err => Except.error err
            | Except.ok logEntry => Except.ok (logEntry.value.getD []))
          rw [show st'.sm = sm2 from rfl, hread2, hreadO]
        · have hnotmem : k ∉ alKeys mergeHT := by
            intro hmem
            exact hks ((alGet_isSome_iff_mem _ _).mpr hmem)
          have hfin : alGet kd2 k = some he := by
            rw [hkd2, htMerge_get_not_mem _ _ _ _ hnotmem]
            exact hhe
          obtain ⟨s0, e0, hs0, hmem0, hkey0, hwf0, hvs0, hts0, -⟩ := hkd k he hhe
          have hfidn : he.fileID = n := by
            by_contra hne
            have hkmem : he.fileID ∈ alKeys st.sm.segments :=
              (alGet_isSome_iff_mem _ _).mp (by rw [hs0]; rfl)
            rw [hkeys] at hkmem
            have hb := List.mem_range'_1.mp hkmem
            have hmemids : he.fileID ∈ List.range' 1 (n - 1) :=
              List.mem_range'_1.mpr ⟨by omega, by omega⟩
            have htomb0 : e0.isTombstone = false := by
              unfold Entry.isTombstone
              have hne0 : e0.valueSize ≠ 0 := by
                rw [hvs0]
                exact hclean k he hhe
              simp [hne0]
            have hcp := hcompl k he e0 s0
              (show alGet (htClone st.hashTable) k = some he from hhe)
              hmemids hs0 hmem0 hkey0 htomb0
            exact hks hcp
          have hreadeq : smRead sm2 he.fileID he.valuePos
              = smRead st.sm he.fileID he.valuePos := by
            unfold smRead
            rw [hfidn, hsm2n, hget]
          show storeGet st' k = storeGet st k
          unfold storeGet
          rw [show st'.hashTable = kd2 from rfl, hfin, hhe]
          show (match smRead st'.sm he.fileID he.valuePos with
            | Except.error err => Except.error err
            | Except.ok logEntry => Except.ok (logEntry.value.getD []))
            = (match smRead st.sm he.fileID he.valuePos with
            | Except.error err => Except.error err
            | Except.ok logEntry => Except.ok (logEntry.value.getD []))
          rw [show st'.sm = sm2 from rfl, hreadeq]
    · show storeList st' = storeList st
      unfold storeList
      rw [show st'.hashTable = kd2 from rfl, hkd2]
      exact htMerge_keys _ _ _
    · rw [show st'.sm = sm2 from rfl, hact, hsm2n, hget]

/-- SegmentManager.Append on a resolvable active segment with room: the
record lands at the end of that segment. -/
theorem smAppend_ok_explicit (sm : SegmentManager) (s : Segment) (e : Entry)
    (hact : ¬ sm.activeID = 0)
    (hget : alGet sm.segments sm.activeID = some s)
    (hcl : s.isClosed = false) (hac : s.isActive = true)
    (hsz : s.size < s.maxSize) (hcnt : s.entryCount < s.maxEntries) :
    smAppend sm e =
      ({ sm with
          segments := alPut sm.segments sm.activeID
            { s with
                data := s.data ++ e.serialize
                size := s.size + e.serialize.length
                entryCount := s.entryCount + 1 } }, .ok (s.id, s.size)) := by
  have happ := segment_append_ok s e hcl hac hsz hcnt
  unfold smAppend
  rw [if_neg hact, hget]
  simp only [happ]

/-- Store.Set, spelled out, when the active segment accepts the record. -/
theorem storeSet_explicit (sm : SegmentManager) (s : Segment) (ht : HashTable)
    (ni : Nat) (mg : Bool) (k v : List Nat) (ts : Nat)
    (hact : ¬ sm.activeID = 0)
    (hget : alGet sm.segments sm.activeID = some s)
    (hcl : s.isClosed = false) (hac : s.isActive = true)
    (hsz : s.size < s.maxSize) (hcnt : s.entryCount < s.maxEntries) :
    storeSet ⟨sm, ht, ni, mg⟩ k v ts =
      (⟨{ sm with
            segments := alPut sm.segments sm.activeID
              { s with
                  data := s.data ++ (setRecord k v ts).serialize
                  size := s.size + (setRecord k v ts).serialize.length
                  entryCount := s.entryCount + 1 } },
          htPut ht k s.id s.size (v.length % 2 ^ 32) (ts % 2 ^ 32) ni,
          ni + 1, mg⟩, .ok ()) := by
  unfold storeSet
  dsimp only
  rw [show smAppend (⟨sm, ht, ni, mg⟩ : Store).sm
      { timestamp := ts % 2 ^ 32, keySize := k.length % 2 ^ 32,
        valueSize := v.length % 2 ^ 32, key := k, value := some v }
    = smAppend sm (setRecord k v ts) from rfl]
  rw [smAppend_ok_explicit sm s (setRecord k v ts) hact hget hcl hac hsz hcnt]

/-- Store.Set, spelled out, when the active segment reports full and the
record lands at offset 0 of a fresh segment under nextID. -/
theorem storeSet_explicit_rotate (sm : SegmentManager) (s : Segment)
    (ht : HashTable) (ni : Nat) (mg : Bool) (k v : List Nat) (ts : Nat)
    (hact : ¬ sm.activeID = 0)
    (hget : alGet sm.segments sm.activeID = some s)
    (hcl : s.isClosed = false) (hac : s.isActive = true)
    (hfull : s.maxSize ≤ s.size ∨ s.maxEntries ≤ s.entryCount) :
    storeSet ⟨sm, ht, ni, mg⟩ k v ts =
      (⟨⟨alPut (alPut (alPut sm.segments sm.activeID { s with isActive := false })
            sm.nextID (newSegment sm.nextID)) sm.nextID
            ⟨sm.nextID, (setRecord k v ts).serialize,
              (setRecord k v ts).serialize.length, 1, defaultMaxSegmentSize,
              defaultMaxEntriesPerSegment, true, false⟩,
          sm.nextID, sm.nextID + 1⟩,
          htPut ht k sm.nextID 0 (v.length % 2 ^ 32) (ts % 2 ^ 32) ni,
          ni + 1, mg⟩, .ok ()) := by
  unfold storeSet
  dsimp only
  rw [show smAppend (⟨sm, ht, ni, mg⟩ : Store).sm
      { timestamp := ts % 2 ^ 32, keySize := k.length % 2 ^ 32,
        valueSize := v.length % 2 ^ 32, key := k, value := some v }
    = smAppend sm (setRecord k v ts) from rfl]
  rw [smAppend_rotate sm s (setRecord k v ts) hact hget hcl hac hfull]

theorem sizeSum_replicate (t : Nat) (e : Entry) :
    sizeSum (List.replicate t e) = t * e.size := by
  induction t with
  | zero => simp [sizeSum]
  | succ u ih =>
    rw [List.replicate_succ, sizeSum_cons, ih]
    ring

section TraceFixtures

/-- Key "a". -/
def aKey : List Nat := [97]

/-- Key "b". -/
def bKey : List Nat := [98]

/-- Value "B". -/
def bVal : List Nat := [66]

/-- The record Set("b", "B") at timestamp 1 appends. -/
def EbRec : Entry := setRecord bKey bVal 1

/-- Ten thousand Set("b", "B") operations: enough to seal segment 1. -/
def manyBSets : List Act := List.replicate 10000 (Act.set bKey bVal 1)

/-- Set("a", "") then ten thousand Set("b", "B"). -/
def emptyThenMany : List Act := Act.set aKey [] 0 :: manyBSets

/-- Set("a", "A") then ten thousand Set("b", "B"). -/
def valThenMany : List Act := Act.set aKey [65] 0 :: manyBSets

/-- The store midway through the trace: segment 1 active holding the "a"
record and J "b" records. -/
def midStore (x : List Nat) (J : Nat) : Store :=
  ⟨⟨[(1, ⟨1, serializeAll (normEntry (setRecord aKey x 0) :: List.replicate J EbRec),
      (setRecord aKey x 0).size + 14 * J, J + 1,
      defaultMaxSegmentSize, defaultMaxEntriesPerSegment, true, false⟩)], 1, 2⟩,
   [(aKey, ⟨1, x.length % 2 ^ 32, 0, 0, 0⟩),
    (bKey, ⟨1, 1, (setRecord aKey x 0).size + 14 * (J - 1), 1, J⟩)],
   J + 1, false⟩

/-- Segment 1 once sealed by the 10000th "b" Set. -/
def sealedSegT (x : List Nat) : Segment :=
  ⟨1, serializeAll (normEntry (setRecord aKey x 0) :: List.replicate 9999 EbRec),
    (setRecord aKey x 0).size + 14 * 9999, 10000,
    defaultMaxSegmentSize, defaultMaxEntriesPerSegment, false, false⟩

/-- The fresh segment 2 holding the 10000th "b" record. -/
def segBT : Segment :=
  ⟨2, EbRec.serialize, EbRec.serialize.length, 1, defaultMaxSegmentSize,
    defaultMaxEntriesPerSegment, true, false⟩

/-- The store after the full trace: segment 1 sealed, segment 2 active. -/
def stFullT (x : List Nat) : Store :=
  ⟨⟨[(1, sealedSegT x), (2, segBT)], 2, 3⟩,
   [(aKey, ⟨1, x.length % 2 ^ 32, 0, 0, 0⟩), (bKey, ⟨2, 1, 0, 1, 10000⟩)],
   10001, false⟩

end TraceFixtures

theorem EbRec_serialize_length : EbRec.serialize.length = 14 := by
  rw [serialize_length]
  rfl

/-- One more Set("b", "B") while segment 1 still has room. -/
theorem trace_step (x : List Nat) (J : Nat)
    (hxs : (setRecord aKey x 0).size ≤ 14) (h1 : 1 ≤ J) (h2 : J ≤ 9998) :
    runAct (midStore x J) (Act.set bKey bVal 1) = midStore x (J + 1) := by
  have hsz : (setRecord aKey x 0).size + 14 * J < defaultMaxSegmentSize := by
    unfold defaultMaxSegmentSize
    omega
  have hcnt : J + 1 < defaultMaxEntriesPerSegment := by
    unfold defaultMaxEntriesPerSegment
    omega
  have hstep := storeSet_explicit
    (⟨[(1, ⟨1, serializeAll (normEntry (setRecord aKey x 0) :: List.replicate J EbRec),
      (setRecord aKey x 0).size + 14 * J, J + 1,
      defaultMaxSegmentSize, defaultMaxEntriesPerSegment, true, false⟩)], 1, 2⟩)
    (⟨1, serializeAll (normEntry (setRecord aKey x 0) :: List.replicate J EbRec),
      (setRecord aKey x 0).size + 14 * J, J + 1,
      defaultMaxSegmentSize, defaultMaxEntriesPerSegment, true, false⟩)
    ([(aKey, ⟨1, x.length % 2 ^ 32, 0, 0, 0⟩),
      (bKey, ⟨1, 1, (setRecord aKey x 0).size + 14 * (J - 1), 1, J⟩)])
    (J + 1) false bKey bVal 1 (by simp) rfl rfl rfl hsz hcnt
  show (storeSet (midStore x J) bKey bVal 1).1 = midStore x (J + 1)
  rw [show midStore x J =
    (⟨⟨[(1, ⟨1, serializeAll (normEntry (setRecord aKey x 0) :: List.replicate J EbRec),
      (setRecord aKey x 0).size + 14 * J, J + 1,
      defaultMaxSegmentSize, defaultMaxEntriesPerSegment, true, false⟩)], 1, 2⟩,
    [(aKey, ⟨1, x.length % 2 ^ 32, 0, 0, 0⟩),
      (bKey, ⟨1, 1, (setRecord aKey x 0).size + 14 * (J - 1), 1, J⟩)],
    J + 1, false⟩ : Store) from rfl, hstep]
  have hdata : serializeAll (normEntry (setRecord aKey x 0) :: List.replicate J EbRec)
      ++ (setRecord bKey bVal 1).serialize
      = serializeAll (normEntry (setRecord aKey x 0)
          :: List.replicate (J + 1) EbRec) := by
    rw [show (setRecord bKey bVal 1) = EbRec from rfl, List.replicate_succ',
      serializeAll_cons, serializeAll_cons, serializeAll_append,
      serializeAll_cons, serializeAll_nil, List.append_nil, List.append_assoc]
  have hsz' : (setRecord aKey x 0).size + 14 * J
      + (setRecord bKey bVal 1).serialize.length
      = (setRecord aKey x 0).size + 14 * (J + 1) := by
    rw [show (setRecord bKey bVal 1) = EbRec from rfl, EbRec_serialize_length]
    omega
  show (⟨⟨[(1, ⟨1, serializeAll (normEntry (setRecord aKey x 0) :: List.replicate J EbRec)
        ++ (setRecord bKey bVal 1).serialize,
      (setRecord aKey x 0).size + 14 * J + (setRecord bKey bVal 1).serialize.length,
      J + 1 + 1, defaultMaxSegmentSize, defaultMaxEntriesPerSegment, true, false⟩)], 1, 2⟩,
    [(aKey, ⟨1, x.length % 2 ^ 32, 0, 0, 0⟩),
      (bKey, ⟨1, bVal.length % 2 ^ 32, (setRecord aKey x 0).size + 14 * J,
        1 % 2 ^ 32, J + 1⟩)],
    J + 1 + 1, false⟩ : Store) = midStore x (J + 1)
  rw [hdata, hsz']
  unfold midStore
  rw [show (J + 1) - 1 = J from by omega]
  rfl

/-- Set("a", x) on the fresh store, then the first Set("b", "B"). -/
theorem trace_base (x : List Nat) (hxs : (setRecord aKey x 0).size ≤ 14) :
    runAct (runAct storeNew (Act.set aKey x 0)) (Act.set bKey bVal 1)
      = midStore x 1 := by
  have hlen : (setRecord aKey x 0).serialize.length = (setRecord aKey x 0).size :=
    serialize_length _
  have h1 : runAct storeNew (Act.set aKey x 0) =
      ⟨⟨[(1, ⟨1, [] ++ (setRecord aKey x 0).serialize,
          0 + (setRecord aKey x 0).serialize.length, 1, defaultMaxSegmentSize,
          defaultMaxEntriesPerSegment, true, false⟩)], 1, 2⟩,
        [(aKey, ⟨1, x.length % 2 ^ 32, 0, 0, 0⟩)], 1, false⟩ := by
    show (storeSet ⟨⟨[(1, newSegment 1)], 1, 2⟩, [], 0, false⟩ aKey x 0).1 = _
    rw [storeSet_explicit ⟨[(1, newSegment 1)], 1, 2⟩ (newSegment 1) [] 0 false
      aKey x 0 (by simp) rfl rfl rfl (by decide) (by decide)]
    rfl
  rw [h1]
  show (storeSet ⟨⟨[(1, ⟨1, [] ++ (setRecord aKey x 0).serialize,
      0 + (setRecord aKey x 0).serialize.length, 1, defaultMaxSegmentSize,
      defaultMaxEntriesPerSegment, true, false⟩)], 1, 2⟩,
    [(aKey, ⟨1, x.length % 2 ^ 32, 0, 0, 0⟩)], 1, false⟩ bKey bVal 1).1
    = midStore x 1
  rw [storeSet_explicit ⟨[(1, ⟨1, [] ++ (setRecord aKey x 0).serialize,
      0 + (setRecord aKey x 0).serialize.length, 1, defaultMaxSegmentSize,
      defaultMaxEntriesPerSegment, true, false⟩)], 1, 2⟩
    (⟨1, [] ++ (setRecord aKey x 0).serialize,
      0 + (setRecord aKey x 0).serialize.length, 1, defaultMaxSegmentSize,
      defaultMaxEntriesPerSegment, true, false⟩)
    [(aKey, ⟨1, x.length % 2 ^ 32, 0, 0, 0⟩)] 1 false bKey bVal 1
    (by simp) rfl rfl rfl
    (by
      show 0 + (setRecord aKey x 0).serialize.length < defaultMaxSegmentSize
      rw [hlen]
      unfold defaultMaxSegmentSize
      omega)
    (by
      show (1 : Nat) < defaultMaxEntriesPerSegment
      decide)]
  show (⟨⟨[(1, ⟨1, ([] ++ (setRecord aKey x 0).serialize)
        ++ (setRecord bKey bVal 1).serialize,
      0 + (setRecord aKey x 0).serialize.length
        + (setRecord bKey bVal 1).serialize.length,
      1 + 1, defaultMaxSegmentSize, defaultMaxEntriesPerSegment, true, false⟩)],
      1, 2⟩,
    [(aKey, ⟨1, x.length % 2 ^ 32, 0, 0, 0⟩),
      (bKey, ⟨1, bVal.length % 2 ^ 32,
        0 + (setRecord aKey x 0).serialize.length, 1 % 2 ^ 32, 1⟩)],
    1 + 1, false⟩ : Store) = midStore x 1
  have hd : ([] ++ (setRecord aKey x 0).serialize)
      ++ (setRecord bKey bVal 1).serialize
      = serializeAll (normEntry (setRecord aKey x 0)
          :: List.replicate 1 EbRec) := by
    rw [List.nil_append, show List.replicate 1 EbRec = [EbRec] from rfl,
      serializeAll_cons, serializeAll_cons, serializeAll_nil, List.append_nil,
      normEntry_serialize]
    rfl
  have hs : 0 + (setRecord aKey x 0).serialize.length
      + (setRecord bKey bVal 1).serialize.length
      = (setRecord aKey x 0).size + 14 * 1 := by
    rw [hlen, show (setRecord bKey bVal 1) = EbRec from rfl,
      EbRec_serialize_length]
    omega
  have hp : (0 : Nat) + (setRecord aKey x 0).serialize.length
      = (setRecord aKey x 0).size + 14 * (1 - 1) := by
    rw [hlen]
    omega
  rw [hd, hs, hp]
  rfl

/-- The 10000th Set("b", "B") seals segment 1 and rotates into segment 2. -/
theorem trace_rotate (x : List Nat) :
    runAct (midStore x 9999) (Act.set bKey bVal 1) = stFullT x := by
  show (storeSet ⟨⟨[(1, ⟨1, serializeAll (normEntry (setRecord aKey x 0)
      :: List.replicate 9999 EbRec),
      (setRecord aKey x 0).size + 14 * 9999, 9999 + 1,
      defaultMaxSegmentSize, defaultMaxEntriesPerSegment, true, false⟩)], 1, 2⟩,
    [(aKey, ⟨1, x.length % 2 ^ 32, 0, 0, 0⟩),
      (bKey, ⟨1, 1, (setRecord aKey x 0).size + 14 * (9999 - 1), 1, 9999⟩)],
    9999 + 1, false⟩ bKey bVal 1).1 = stFullT x
  rw [storeSet_explicit_rotate
    ⟨[(1, ⟨1, serializeAll (normEntry (setRecord aKey x 0)
      :: List.replicate 9999 EbRec),
      (setRecord aKey x 0).size + 14 * 9999, 9999 + 1,
      defaultMaxSegmentSize, defaultMaxEntriesPerSegment, true, false⟩)], 1, 2⟩
    (⟨1, serializeAll (normEntry (setRecord aKey x 0)
      :: List.replicate 9999 EbRec),
      (setRecord aKey x 0).size + 14 * 9999, 9999 + 1,
      defaultMaxSegmentSize, defaultMaxEntriesPerSegment, true, false⟩)
    [(aKey, ⟨1, x.length % 2 ^ 32, 0, 0, 0⟩),
      (bKey, ⟨1, 1, (setRecord aKey x 0).size + 14 * (9999 - 1), 1, 9999⟩)]
    (9999 + 1) false bKey bVal 1
    (by simp) rfl rfl rfl (Or.inr (by
      show defaultMaxEntriesPerSegment ≤ 9999 + 1
      decide))]
  rfl

/-- The store midway through the trace, for every prefix length. -/
theorem trace_mid (x : List Nat) (hxs : (setRecord aKey x 0).size ≤ 14) :
    ∀ J, 1 ≤ J → J ≤ 9999 →
    List.foldl runAct (runAct storeNew (Act.set aKey x 0))
      (List.replicate J (Act.set bKey bVal 1)) = midStore x J := by
  intro J
  induction J with
  | zero =>
    intro h1 h2
    omega
  | succ Jp ih =>
    intro h1 h2
    by_cases hJ : Jp = 0
    · subst hJ
      rw [List.replicate_one, List.foldl_cons, List.foldl_nil]
      exact trace_base x hxs
    · rw [List.replicate_succ', List.foldl_append, ih (by omega) (by omega),
        List.foldl_cons, List.foldl_nil]
      exact trace_step x Jp hxs (by omega) (by omega)

/-- The full trace: Set("a", x) then 10000 Set("b", "B"). -/
theorem trace_full (x : List Nat) (hxs : (setRecord aKey x 0).size ≤ 14) :
    runActs (Act.set aKey x 0 :: manyBSets) = stFullT x := by
  unfold runActs manyBSets
  rw [List.foldl_cons]
  rw [show (10000 : Nat) = 9999 + 1 from rfl, List.replicate_succ',
    List.foldl_append, trace_mid x hxs 9999 (by omega) (by omega),
    List.foldl_cons, List.foldl_nil]
  exact trace_rotate x

/-- The sealed trace segment's recorded size equals its byte length. -/
theorem sealedSegT_size (x : List Nat) :
    (sealedSegT x).size = (sealedSegT x).data.length := by
  show (setRecord aKey x 0).size + 14 * 9999
      = (serializeAll (normEntry (setRecord aKey x 0)
          :: List.replicate 9999 EbRec)).length
  rw [serializeAll_length, sizeSum_cons, sizeSum_replicate, normEntry_size,
    show EbRec.size = 14 from rfl]

/-- Scanning the sealed trace segment returns its records with offsets. -/
theorem sealedSegT_scan (x : List Nat)
    (hwfa : (normEntry (setRecord aKey x 0)).WellFormed) :
    segEntriesFrom (sealedSegT x) 0
      = .ok (withOffsets 0
          (normEntry (setRecord aKey x 0) :: List.replicate 9999 EbRec)) := by
  have h := segEntriesFrom_spec (sealedSegT x) []
      (normEntry (setRecord aKey x 0) :: List.replicate 9999 EbRec)
      (show (sealedSegT x).data
        = serializeAll ([] ++ (normEntry (setRecord aKey x 0)
            :: List.replicate 9999 EbRec)) from rfl)
      (sealedSegT_size x)
      (by
        intro e he
        rcases List.mem_cons.mp he with h1 | h1
        · rw [h1]; exact hwfa
        · rw [List.eq_of_mem_replicate h1]; decide)
  exact h

/-- Sequencing after a successful step of the copy fold. -/
theorem exceptOk_bind {ε α β : Type} (a : α) (g : α → Except ε β) :
    (Except.ok a >>= g) = g a := rfl

/-- Scanned records of the "b" shape are all skipped by the copy phase when
the snapshot maps their key into a different segment. -/
theorem merge_skip_replicate (snap : HashTable) (i : Nat)
    (acc : SegmentManager × HashTable × Nat) (t start : Nat)
    (h : ∀ he, alGet snap bKey = some he → he.fileID ≠ i) :
    (withOffsets start (List.replicate t EbRec)).foldlM
      (mergeCopyEntry snap i) acc = .ok acc := by
  have hEb : EbRec.isTombstone = false := by decide
  induction t generalizing start with
  | zero => rfl
  | succ u ih =>
    rw [List.replicate_succ,
      show withOffsets start (EbRec :: List.replicate u EbRec)
        = (start, EbRec) :: withOffsets (start + EbRec.size)
            (List.replicate u EbRec) from rfl,
      List.foldlM_cons]
    cases hs : alGet snap bKey with
    | none =>
      rw [mergeCopyEntry_nosnap snap i acc (start, EbRec) hEb hs]
      exact ih (start + EbRec.size)
    | some he =>
      rw [mergeCopyEntry_skip snap i acc (start, EbRec) hEb he hs
        (Or.inl (h he hs))]
      exact ih (start + EbRec.size)

/-- Evaluation of the copy phase over one segment from its resolved
pieces: the segment looked up, its scan result, and the fold result. -/
theorem mergeCopySegment_eval (snap : HashTable) (sm : SegmentManager)
    (i : Nat) (acc res : SegmentManager × HashTable × Nat) (seg : Segment)
    (items : List (Nat × Entry))
    (hseg : alGet sm.segments i = some seg)
    (hscan : segEntriesFrom seg 0 = .ok items)
    (hfold : items.foldlM (mergeCopyEntry snap i) acc = .ok res) :
    mergeCopySegment snap sm i acc = .ok res := by
  unfold mergeCopySegment
  rw [hseg]
  dsimp only
  rw [hscan]
  exact hfold

/-- The copy fold for the empty-value trace store: the head record is
dropped as a tombstone and every "b" record is skipped. -/
theorem t3_fold :
    (withOffsets 0 (normEntry (setRecord aKey [] 0)
        :: List.replicate 9999 EbRec)).foldlM
      (mergeCopyEntry (htClone (stFullT []).hashTable) 1)
      (newSegmentManager, ([] : HashTable), (stFullT []).nextIdent)
    = .ok (newSegmentManager, ([] : HashTable), (stFullT []).nextIdent) := by
  rw [show withOffsets 0 (normEntry (setRecord aKey [] 0)
        :: List.replicate 9999 EbRec)
      = ((0 : Nat), normEntry (setRecord aKey [] 0))
        :: withOffsets (0 + (normEntry (setRecord aKey [] 0)).size)
          (List.replicate 9999 EbRec) from rfl,
    List.foldlM_cons,
    mergeCopyEntry_tomb (htClone (stFullT []).hashTable) 1
      (newSegmentManager, ([] : HashTable), (stFullT []).nextIdent)
      ((0 : Nat), normEntry (setRecord aKey [] 0)) (by decide),
    exceptOk_bind]
  exact merge_skip_replicate _ _ _ 9999 _
    (by
      intro he h
      rw [show alGet (htClone (stFullT []).hashTable) bKey
        = some ⟨2, 1, 0, 1, 10000⟩ from rfl] at h
      injection h with h
      rw [← h]
      decide)

/-- The copy phase over the trace store with the empty-value head record
copies nothing at all. -/
theorem t3_step :
    mergeCopySegment (htClone (stFullT []).hashTable) (stFullT []).sm 1
        (newSegmentManager, ([] : HashTable), (stFullT []).nextIdent)
      = .ok (newSegmentManager, ([] : HashTable), (stFullT []).nextIdent) :=
  mergeCopySegment_eval _ _ _ _ _ (sealedSegT []) _ rfl
    (sealedSegT_scan [] (by decide)) t3_fold

/-- The state the trace store with the empty-value head merges to: the old
segment is dropped and replaced by the still-empty merge workspace segment,
while the keydir still points at the deleted location. -/
def stM3 : Store :=
  ⟨⟨[(2, segBT), (1, newSegment 1)], 2, 3⟩,
   [(aKey, ⟨1, 0, 0, 0, 0⟩), (bKey, ⟨2, 1, 0, 1, 10000⟩)], 10001, false⟩

/-- Evaluation of a committing Merge from its resolved pieces: the inactive
target list and the result of the copy fold. -/
theorem storeMerge_eval (st : Store) (ids : List Nat) (msm : SegmentManager)
    (mht : HashTable) (mid : Nat)
    (hmg : st.isMerging = false)
    (hids : smGetInactiveSegmentIDs st.sm = ids)
    (hne : ids ≠ [])
    (hfold : ids.foldlM
        (fun acc i => mergeCopySegment (htClone st.hashTable) st.sm i acc)
        (newSegmentManager, ([] : HashTable), st.nextIdent)
      = .ok (msm, mht, mid)) :
    storeMerge st
      = ({ st with
            sm := smMerge (ids.foldl smDeleteSegment st.sm) msm
            hashTable := htMerge st.hashTable mht (htClone st.hashTable)
            nextIdent := mid }, .ok ()) := by
  unfold storeMerge
  rw [if_neg (show ¬ st.isMerging = true from by
    rw [hmg]; exact Bool.false_ne_true)]
  dsimp only
  rw [hids]
  rw [if_neg hne]
  rw [hfold]

/-- The copy fold over the inactive target list of the empty-value trace
store. -/
theorem t3_foldIds :
    ([1] : List Nat).foldlM
      (fun acc i => mergeCopySegment (htClone (stFullT []).hashTable)
        (stFullT []).sm i acc)
      (newSegmentManager, ([] : HashTable), (stFullT []).nextIdent)
    = .ok (newSegmentManager, ([] : HashTable), (stFullT []).nextIdent) := by
  rw [List.foldlM_cons, t3_step, exceptOk_bind]
  rfl

theorem t3_merge : storeMerge (stFullT []) = (stM3, .ok ()) := by
  rw [storeMerge_eval (stFullT []) [1] newSegmentManager ([] : HashTable)
    ((stFullT []).nextIdent) rfl rfl (by decide) t3_foldIds]
  rfl

/-- Before the merge, Get of the empty-value key on the trace store returns
the empty string: its record is read back from the sealed segment. -/
theorem t3_preGet : storeGet (stFullT []) aKey = .ok [] := by
  have hread : (sealedSegT []).read 0
      = .ok (normEntry (setRecord aKey [] 0)) :=
    read_of_mem_withOffsets (sealedSegT []) []
      (normEntry (setRecord aKey [] 0) :: List.replicate 9999 EbRec)
      (show (sealedSegT []).data
        = serializeAll ([] ++ (normEntry (setRecord aKey [] 0)
            :: List.replicate 9999 EbRec)) from rfl)
      (sealedSegT_size [])
      (by
        intro e he
        rcases List.mem_cons.mp he with h1 | h1
        · rw [h1]; decide
        · rw [List.eq_of_mem_replicate h1]; decide)
      0 (normEntry (setRecord aKey [] 0))
      (List.mem_cons_self _ _)
  unfold storeGet
  rw [show alGet (stFullT []).hashTable aKey = some ⟨1, 0, 0, 0, 0⟩ from rfl]
  dsimp only
  have hsm : smRead (stFullT []).sm 1 0
      = .ok (normEntry (setRecord aKey [] 0)) := by
    unfold smRead
    rw [show alGet (stFullT []).sm.segments 1 = some (sealedSegT []) from rfl]
    exact hread
  rw [hsm]
  rfl

/-- The merge workspace segment manager after copying the live "a" record. -/
def mergeSM2 : SegmentManager :=
  ⟨[(1, ⟨1, (setRecord aKey [65] 0).serialize, 14, 1, defaultMaxSegmentSize,
      defaultMaxEntriesPerSegment, true, false⟩)], 1, 2⟩

/-- The copy fold for the live-value trace store: the head record is
relocated into the workspace at offset 0 with the full record size recorded
as its value size, and every "b" record is skipped. -/
theorem t2_fold :
    (withOffsets 0 (normEntry (setRecord aKey [65] 0)
        :: List.replicate 9999 EbRec)).foldlM
      (mergeCopyEntry (htClone (stFullT [65]).hashTable) 1)
      (newSegmentManager, ([] : HashTable), (stFullT [65]).nextIdent)
    = .ok (mergeSM2, [(aKey, ⟨1, 14, 0, 0, 10001⟩)], 10002) := by
  rw [show withOffsets 0 (normEntry (setRecord aKey [65] 0)
        :: List.replicate 9999 EbRec)
      = ((0 : Nat), normEntry (setRecord aKey [65] 0))
        :: withOffsets (0 + (normEntry (setRecord aKey [65] 0)).size)
          (List.replicate 9999 EbRec) from rfl,
    List.foldlM_cons,
    mergeCopyEntry_copy (htClone (stFullT [65]).hashTable) 1
      (newSegmentManager, ([] : HashTable), (stFullT [65]).nextIdent)
      ((0 : Nat), normEntry (setRecord aKey [65] 0)) (by decide)
      ⟨1, 1, 0, 0, 0⟩ rfl (by decide) mergeSM2 1 0 rfl,
    exceptOk_bind]
  exact merge_skip_replicate _ _ _ 9999 _
    (by
      intro he h
      rw [show alGet (htClone (stFullT [65]).hashTable) bKey
        = some ⟨2, 1, 0, 1, 10000⟩ from rfl] at h
      injection h with h
      rw [← h]
      decide)

/-- The copy phase over the trace store with the live "a" head record
copies exactly that record. -/
theorem t2_step :
    mergeCopySegment (htClone (stFullT [65]).hashTable) (stFullT [65]).sm 1
        (newSegmentManager, ([] : HashTable), (stFullT [65]).nextIdent)
      = .ok (mergeSM2, [(aKey, ⟨1, 14, 0, 0, 10001⟩)], 10002) :=
  mergeCopySegment_eval _ _ _ _ _ (sealedSegT [65]) _ rfl
    (sealedSegT_scan [65] (by decide)) t2_fold

/-- The state the trace store with the live "a" head merges to: the old
segment is replaced by the workspace segment holding the relocated record,
still flagged active alongside segment 2, and the key's keydir entry now
records the full record size 14 as its value size. -/
def stM2 : Store :=
  ⟨⟨[(2, segBT), (1, ⟨1, (setRecord aKey [65] 0).serialize, 14, 1,
      defaultMaxSegmentSize, defaultMaxEntriesPerSegment, true, false⟩)], 2, 3⟩,
   [(aKey, ⟨1, 14, 0, 0, 10001⟩), (bKey, ⟨2, 1, 0, 1, 10000⟩)], 10002, false⟩

/-- The copy fold over the inactive target list of the live-value trace
store. -/
theorem t2_foldIds :
    ([1] : List Nat).foldlM
      (fun acc i => mergeCopySegment (htClone (stFullT [65]).hashTable)
        (stFullT [65]).sm i acc)
      (newSegmentManager, ([] : HashTable), (stFullT [65]).nextIdent)
    = .ok (mergeSM2, [(aKey, ⟨1, 14, 0, 0, 10001⟩)], 10002) := by
  rw [List.foldlM_cons, t2_step, exceptOk_bind]
  rfl

theorem t2_merge : storeMerge (stFullT [65]) = (stM2, .ok ()) := by
  rw [storeMerge_eval (stFullT [65]) [1] mergeSM2
    [(aKey, ⟨1, 14, 0, 0, 10001⟩)] 10002 rfl rfl (by decide) t2_foldIds]
  rfl

section ClaimFixtures

/-- A segment exactly at its size capacity. -/
def segAtCapacity : Segment := ⟨1, List.replicate 10 0, 10, 1, 10, 10000, true, false⟩

/-- A segment below capacity but without room for a 14-byte record. -/
def segBelowCapacity : Segment := ⟨1, List.replicate 10 0, 10, 1, 20, 10000, true, false⟩

/-- A 14-byte record (1-byte key, 1-byte value). -/
def smallRecord : Entry := ⟨0, 1, 1, [107], some [118]⟩

/-- A manager whose single active segment is at capacity. -/
def smAtCapacity : SegmentManager := ⟨[(1, segAtCapacity)], 1, 2⟩

/-- A store whose manager has no active segment, so appends fail. -/
def noActiveStore : Store := ⟨⟨[], 0, 1⟩, [([107], ⟨1, 1, 0, 0, 0⟩)], 1, false⟩

/-- Keydir entries for the conditional-merge witness: heA1 is shared between
the live table and the snapshot, heB1/heB2 differ by their identity stamp. -/
def heA1 : HashTableEntry := ⟨1, 1, 0, 0, 0⟩

def heA2 : HashTableEntry := ⟨3, 1, 0, 0, 5⟩

def heB1 : HashTableEntry := ⟨2, 1, 0, 0, 1⟩

def heB2 : HashTableEntry := ⟨2, 1, 0, 0, 2⟩

def htLive : HashTable := [([97], heA1), ([98], heB2)]

def htSnap : HashTable := [([97], heA1), ([98], heB1)]

def htSrc : HashTable := [([97], heA2), ([98], ⟨4, 1, 0, 0, 6⟩)]

end ClaimFixtures

/-- Claim C2 (confirmed): HashTable.Merge(src, snap) assigns self k = src k
exactly for the keys present in src, snap and self whose current entry is
identically the snapshot entry; other keys are unchanged and no key is added;
an entry differing from the snapshot entry (as every freshly allocated Put
entry does) makes Merge skip the key, so the newer write wins; Put installs
the freshly stamped entry. -/
theorem hashTable_merge_conditional (h src snap : HashTable) (k : Key)
    (hnd : (alKeys src).Nodup) :
    alGet (htMerge h src snap) k =
      (match alGet src k, alGet h k, alGet snap k with
       | some v, some cur, some sv => if cur = sv then some v else alGet h k
       | _, _, _ => alGet h k) ∧
    alKeys (htMerge h src snap) = alKeys h ∧
    (∀ cur, alGet h k = some cur → alGet snap k ≠ some cur →
      alGet (htMerge h src snap) k = alGet h k) ∧
    (∀ f p s t i, alGet (htPut h k f p s t i) k = some ⟨f, s, p, t, i⟩) := by
  refine ⟨htMerge_get h src snap k hnd, htMerge_keys h src snap, ?_, ?_⟩
  · intro cur hcur hne
    rw [htMerge_get h src snap k hnd, hcur]
    cases hs : alGet src k with
    | none => rfl
    | some v =>
      cases hsn : alGet snap k with
      | none => rfl
      | some sv =>
        show (if cur = sv then some v else some cur) = some cur
        rw [if_neg (show ¬ cur = sv from fun hc => hne (hc ▸ hsn))]
  · intro f p s t i
    unfold htPut
    exact alGet_put_self _ _ _

theorem hashTable_merge_conditional_witness :
    alGet (htMerge htLive htSrc htSnap) [97] = some heA2 ∧
    alGet (htMerge htLive htSrc htSnap) [98] = some heB2 := by
  constructor
  · rw [(hashTable_merge_conditional htLive htSrc htSnap [97] (by decide)).1]
    decide
  · rw [(hashTable_merge_conditional htLive htSrc htSnap [98] (by decide)).1]
    decide

/-- Claim C5 (corrected): Segment.Append checks the CURRENT size and entry
count against the limits before writing: at or over a limit it seals and
returns SegmentFull without writing, and below both limits it writes even
when the new record pushes size past max_size. -/
theorem segment_append_seal_check (s : Segment) (e : Entry)
    (hcl : s.isClosed = false) (hac : s.isActive = true) :
    (s.maxSize ≤ s.size ∨ s.maxEntries ≤ s.entryCount →
      s.append e = ({ s with isActive := false }, .error .segmentFull)) ∧
    (s.size < s.maxSize → s.entryCount < s.maxEntries →
      s.append e = ({ s with
          data := s.data ++ e.serialize
          size := s.size + e.serialize.length
          entryCount := s.entryCount + 1 }, .ok s.size)) := by
  constructor
  · intro hfull
    unfold Segment.append
    rw [hcl, hac]
    rw [if_neg (by simp), if_neg (by simp), if_pos hfull]
  · intro h1 h2
    exact segment_append_ok s e hcl hac h1 h2

theorem segment_append_seal_check_witness :
    segAtCapacity.append smallRecord
      = ({ segAtCapacity with isActive := false }, .error .segmentFull) :=
  (segment_append_seal_check segAtCapacity smallRecord rfl rfl).1 (by decide)

/-- Counterexample to claim C5 as stated: a record whose write makes the
size exceed max_size (10 + 14 > 20) is appended successfully, bytes and
all, rather than rejected with SegmentFull. -/
theorem segment_append_oversize_counterexample :
    segBelowCapacity.maxSize
        < segBelowCapacity.size + smallRecord.serialize.length ∧
    (segBelowCapacity.append smallRecord).2 = .ok 10 ∧
    (segBelowCapacity.append smallRecord).1.size = 24 ∧
    (segBelowCapacity.append smallRecord).1.data.length = 24 := by
  refine ⟨by decide, rfl, by decide, by decide⟩

/-- Claim C7 (confirmed): when the active segment's Append returns
SegmentFull, the manager installs a fresh active segment under next_id,
increments next_id, retries once, and the retried write returns the new id
with offset 0; in this model the fresh segment is below both limits, so the
retry never reports a second SegmentFull, and the surfacing branch is
vacuously satisfied. -/
theorem segment_manager_rotation (sm : SegmentManager) (seg : Segment) (e : Entry)
    (h0 : sm.activeID ≠ 0)
    (hget : alGet sm.segments sm.activeID = some seg)
    (hcl : seg.isClosed = false) (hac : seg.isActive = true)
    (hfull : seg.append e = ({ seg with isActive := false }, .error .segmentFull)) :
    ∃ sm', smAppend sm e = (sm', .ok (sm.nextID, 0)) ∧
      sm'.activeID = sm.nextID ∧ sm'.nextID = sm.nextID + 1 ∧
      alGet sm'.segments sm.nextID
        = some ⟨sm.nextID, e.serialize, e.serialize.length, 1,
            defaultMaxSegmentSize, defaultMaxEntriesPerSegment, true, false⟩ := by
  by_cases hcap : seg.maxSize ≤ seg.size ∨ seg.maxEntries ≤ seg.entryCount
  · rw [smAppend_rotate sm seg e h0 hget hcl hac hcap]
    exact ⟨_, rfl, rfl, rfl, alGet_put_self _ _ _⟩
  · exfalso
    have h1 : seg.size < seg.maxSize := by omega
    have h2 : seg.entryCount < seg.maxEntries := by omega
    rw [segment_append_ok seg e hcl hac h1 h2] at hfull
    have := congrArg Prod.snd hfull
    simp at this

theorem segment_manager_rotation_witness :
    ∃ sm', smAppend smAtCapacity smallRecord = (sm', .ok (2, 0)) ∧
      sm'.activeID = 2 ∧ sm'.nextID = 3 ∧
      alGet sm'.segments 2
        = some ⟨2, smallRecord.serialize, smallRecord.serialize.length, 1,
            defaultMaxSegmentSize, defaultMaxEntriesPerSegment, true, false⟩ :=
  segment_manager_rotation smAtCapacity segAtCapacity smallRecord
    (by decide) rfl rfl rfl rfl

/-- Claim C8 (confirmed): the record codec round-trips on every well-formed
record, tombstones (decoded value explicitly absent) included. -/
theorem record_codec_roundtrip (e : Entry) (h : e.WellFormed) :
    deserializeEntry e.serialize = some e :=
  deserializeEntry_serialize e h

theorem record_codec_roundtrip_witness :
    deserializeEntry (Entry.serialize ⟨7, 1, 0, [107], none⟩)
      = some ⟨7, 1, 0, [107], none⟩ :=
  record_codec_roundtrip ⟨7, 1, 0, [107], none⟩ (by decide)

/-- Claim C9 (confirmed): when the segment-manager append inside Set or
Delete fails, the operation returns that error with the store unchanged: the
keydir, Get, List and Stats are all as before the call. -/
theorem append_failure_atomicity (st : Store) (k v : List Nat) (ts : Nat)
    (err : Err) :
    ((smAppend st.sm (setRecord k v ts)).2 = .error err →
      storeSet st k v ts = (st, .error err) ∧
      (storeSet st k v ts).1.hashTable = st.hashTable ∧
      (∀ q, storeGet (storeSet st k v ts).1 q = storeGet st q) ∧
      storeList (storeSet st k v ts).1 = storeList st ∧
      storeStats (storeSet st k v ts).1 = storeStats st) ∧
    (∀ he0, alGet st.hashTable k = some he0 →
      (smAppend st.sm (tombRecord k ts)).2 = .error err →
      storeDelete st k ts = (st, .error err) ∧
      (storeDelete st k ts).1.hashTable = st.hashTable ∧
      (∀ q, storeGet (storeDelete st k ts).1 q = storeGet st q) ∧
      storeList (storeDelete st k ts).1 = storeList st ∧
      storeStats (storeDelete st k ts).1 = storeStats st) := by
  constructor
  · intro h
    have hfr := smAppend_error_frame st.sm (setRecord k v ts) err h
    have heq : storeSet st k v ts = (st, .error err) :=
      storeSet_error st k v ts st.sm err hfr
    exact ⟨heq, by rw [heq], fun q => by rw [heq], by rw [heq], by rw [heq]⟩
  · intro he0 hlive h
    have hfr := smAppend_error_frame st.sm (tombRecord k ts) err h
    have heq : storeDelete st k ts = (st, .error err) :=
      storeDelete_error st k ts he0 hlive st.sm err hfr
    exact ⟨heq, by rw [heq], fun q => by rw [heq], by rw [heq], by rw [heq]⟩

theorem append_failure_atomicity_witness :
    storeSet noActiveStore [107] [118] 3 = (noActiveStore, .error .noActiveSegment) ∧
    storeDelete noActiveStore [107] 3 = (noActiveStore, .error .noActiveSegment) :=
  ⟨((append_failure_atomicity noActiveStore [107] [118] 3 .noActiveSegment).1 rfl).1,
   ((append_failure_atomicity noActiveStore [107] [118] 3
      .noActiveSegment).2 ⟨1, 1, 0, 0, 0⟩ rfl rfl).1⟩

/-- Claim C10 (confirmed): in a running store, Set of an empty value
succeeds, the record it appends is tombstone-shaped (value size 0), yet the
key stays live: Get returns the empty string and the key is listed; a Delete
right after moves Get to KeyNotFound, so the two differ observably. -/
theorem empty_value_set_is_live (st : Store) (k : List Nat) (ts ts2 : Nat)
    (hr : Reach st) (hk : ByteStr k) :
    ∃ st', storeSet st k [] ts = (st', .ok ()) ∧
      (setRecord k [] ts).valueSize = 0 ∧
      (setRecord k [] ts).isTombstone = true ∧
      storeGet st' k = .ok [] ∧
      k ∈ storeList st' ∧
      storeGet (storeDelete st' k ts2).1 k = .error .keyNotFound := by
  have hInv := Reach_inv hr
  have hv : ByteStr ([] : List Nat) :=
    ⟨fun b hb => absurd hb (List.not_mem_nil b), by decide⟩
  obtain ⟨st', hrun, hInv', ⟨segID, off, hkd⟩, -, -, hget, -, hlist, -⟩ :=
    storeSet_ok st k [] ts hInv hk hv
  refine ⟨st', hrun, rfl, rfl, hget, ?_, ?_⟩
  · rw [hlist]
    by_cases hm : k ∈ storeList st
    · rw [if_pos hm]
      exact hm
    · rw [if_neg hm]
      exact List.mem_append_right _ (List.mem_cons_self _ _)
  · obtain ⟨st2, hrun2, -, -, -, -, hget2, -, -, -⟩ :=
      storeDelete_ok st' k ts2 hInv' hk hkd
    rw [hrun2]
    exact hget2

theorem empty_value_set_is_live_witness :
    ∃ st', storeSet storeNew [107] [] 0 = (st', .ok ()) ∧
      (setRecord [107] [] 0).valueSize = 0 ∧
      (setRecord [107] [] 0).isTombstone = true ∧
      storeGet st' [107] = .ok [] ∧
      [107] ∈ storeList st' ∧
      storeGet (storeDelete st' [107] 1).1 [107] = .error .keyNotFound :=
  empty_value_set_is_live storeNew [107] 0 1 Reach.init (by decide)

/-- Claim C4 (corrected): among states reachable by Set and Delete alone, at
most one held segment has its active flag set; the property fails once a
successful Merge is allowed (see the counterexample), because the merge
workspace segment is unioned in while still active. -/
theorem at_most_one_active_segment (st : Store) (hr : Reach st) :
    (st.sm.segments.filter (fun p => p.2.isActive)).length ≤ 1 := by
  obtain ⟨⟨n, seg, es, hview⟩, -, -, -⟩ := Reach_inv hr
  obtain ⟨hn1, hkeys, hact, hnext, hget, hsi, hactive, hrest⟩ := hview
  have hnd : (alKeys st.sm.segments).Nodup := by
    rw [hkeys]
    exact List.nodup_range' _ _
  have hall : ∀ p ∈ st.sm.segments.filter (fun p => p.2.isActive), p.1 = n := by
    intro p hp
    rw [List.mem_filter] at hp
    obtain ⟨hp, hpa⟩ := hp
    have hgetp := alGet_of_mem_nodup hnd hp
    have hkmem : p.1 ∈ alKeys st.sm.segments := List.mem_map_of_mem Prod.fst hp
    rw [hkeys] at hkmem
    have hb := List.mem_range'_1.mp hkmem
    by_contra hne
    have hlt : p.1 < n := by omega
    obtain ⟨seg', es', hg', hsi', ha', -⟩ := hrest p.1 (by omega) hlt
    rw [hgetp] at hg'
    injection hg' with hg'
    rw [← hg'] at ha'
    rw [ha'] at hpa
    cases hpa
  have hsub : ((st.sm.segments.filter (fun p => p.2.isActive)).map
      Prod.fst).Sublist (alKeys st.sm.segments) :=
    List.Sublist.map Prod.fst (List.filter_sublist _)
  have hndf := List.Nodup.sublist hsub hnd
  have hlen := length_le_one_of_nodup_const
    ((st.sm.segments.filter (fun p => p.2.isActive)).map Prod.fst) n hndf
    (by
      intro x hx
      obtain ⟨p, hp, hpx⟩ := List.mem_map.mp hx
      rw [← hpx]
      exact hall p hp)
  rw [List.length_map] at hlen
  exact hlen

theorem at_most_one_active_segment_witness :
    (((storeSet storeNew [97] [65] 0).1.sm.segments.filter
      (fun p => p.2.isActive)).length) ≤ 1 :=
  at_most_one_active_segment _ (Reach.set Reach.init (by decide) (by decide))

/-- Claim C6 (corrected): for states reachable by Set and Delete alone,
Stats counts the live keys and sums the recorded value sizes, and every live
entry's value size is the byte length of the value of the record it
references; after a successful Merge the property fails (see the
counterexample), because relocation stores the full record size in the
ValueSize field. -/
theorem stats_accurate_foreground (st : Store) (hr : Reach st) :
    (storeStats st).totalKeys = (storeList st).length ∧
    (storeStats st).totalSize = (st.hashTable.map (fun p => p.2.valueSize)).sum ∧
    (∀ k he, alGet st.hashTable k = some he →
      ∃ v, storeGet st k = .ok v ∧ he.valueSize = v.length) := by
  have hInv := Reach_inv hr
  refine ⟨?_, rfl, ?_⟩
  · show st.hashTable.length = (alKeys st.hashTable).length
    unfold alKeys
    rw [List.length_map]
  · intro k he hhe
    obtain ⟨e, -, hget, -, hwf, hvs, -⟩ := storeGet_of_kd hInv hhe
    refine ⟨e.value.getD [], hget, ?_⟩
    rw [← hvs]
    exact Entry.WellFormed.hv hwf

theorem stats_accurate_foreground_witness :
    (storeStats (storeSet storeNew [97] [65] 0).1).totalKeys
        = (storeList (storeSet storeNew [97] [65] 0).1).length ∧
    (storeStats (storeSet storeNew [97] [65] 0).1).totalSize
        = ((storeSet storeNew [97] [65] 0).1.hashTable.map
            (fun p => p.2.valueSize)).sum ∧
    (∀ k he, alGet (storeSet storeNew [97] [65] 0).1.hashTable k = some he →
      ∃ v, storeGet (storeSet storeNew [97] [65] 0).1 k = .ok v ∧
        he.valueSize = v.length) :=
  stats_accurate_foreground _ (Reach.set Reach.init (by decide) (by decide))

/-- Claim C3 (corrected): after Close and re-open on the same directory,
startup replay (ascending segment ids, offset 0 to size, Put per
non-tombstone and Delete per tombstone) makes Get return what it returned
before shutdown — except that a key whose last write was Set(k, "") is
recorded with value size 0, replays as a tombstone, and reads back as
KeyNotFound instead of the empty string (see the counterexample). -/
theorem reopen_last_write (st : Store) (hr : Reach st) :
    ∃ st2, storeOpen (filesOnDisk st.sm) = .ok st2 ∧
      ∀ k, storeGet st2 k =
        match alGet st.hashTable k with
        | some he => if he.valueSize = 0 then Except.error Err.keyNotFound
            else storeGet st k
        | none => Except.error Err.keyNotFound :=
  reopen_replay_general st (Reach_inv hr)

theorem reopen_last_write_witness :
    ∃ st2, storeOpen (filesOnDisk (storeSet storeNew [97] [65] 0).1.sm)
        = .ok st2 ∧
      ∀ k, storeGet st2 k =
        match alGet (storeSet storeNew [97] [65] 0).1.hashTable k with
        | some he => if he.valueSize = 0 then Except.error Err.keyNotFound
            else storeGet (storeSet storeNew [97] [65] 0).1 k
        | none => Except.error Err.keyNotFound :=
  reopen_last_write _ (Reach.set Reach.init (by decide) (by decide))

/-- Counterexample to claim C3 as stated: the last operation on key "a" is
Set("a", "") — not a Delete — and before shutdown Get returns the empty
string, yet after close and re-open Get returns KeyNotFound. -/
theorem empty_value_lost_on_reopen :
    (storeSet storeNew [97] [] 5).2 = .ok () ∧
    storeGet (storeSet storeNew [97] [] 5).1 [97] = .ok [] ∧
    ∃ st2, storeOpen (filesOnDisk (storeSet storeNew [97] [] 5).1.sm) = .ok st2 ∧
      storeGet st2 [97] = .error .keyNotFound := by
  refine ⟨rfl, rfl, ?_⟩
  obtain ⟨st2, hopen, hget⟩ :=
    reopen_replay_general (storeSet storeNew [97] [] 5).1
      (Reach_inv (Reach.set Reach.init (by decide) (by decide)))
  refine ⟨st2, hopen, ?_⟩
  have h := hget [97]
  rw [show alGet (storeSet storeNew [97] [] 5).1.hashTable [97]
    = some ⟨1, 0, 0, 5, 0⟩ from rfl] at h
  rw [h]
  rfl

/-- Claim C1 (corrected): over store states reachable by Set and Delete in
which every live keydir entry records a nonzero value size, running Merge
with no interleaved foreground operations is observationally a no-op: it
succeeds, every Get returns exactly what it returned before, List returns
the same keys, and the active segment's binding is untouched. Without the
nonzero-value-size proviso the claim fails: a key last written by an
empty-value Set is live in the keydir but tombstone-shaped in the log, so
compaction drops its record and Get of that key breaks after the Merge. -/
theorem merge_observational_noop (st : Store) (hr : Reach st)
    (hclean : ∀ k he, alGet st.hashTable k = some he → he.valueSize ≠ 0) :
    ∃ st', storeMerge st = (st', .ok ()) ∧
      (∀ k, storeGet st' k = storeGet st k) ∧
      storeList st' = storeList st ∧
      alGet st'.sm.segments st.sm.activeID
        = alGet st.sm.segments st.sm.activeID :=
  merge_noop_general st (Reach_inv hr) hclean

theorem merge_observational_noop_witness :
    ∃ st', storeMerge (storeSet storeNew [107] [118] 0).1 = (st', .ok ()) ∧
      (∀ k, storeGet st' k
        = storeGet (storeSet storeNew [107] [118] 0).1 k) ∧
      storeList st' = storeList (storeSet storeNew [107] [118] 0).1 ∧
      alGet st'.sm.segments (storeSet storeNew [107] [118] 0).1.sm.activeID
        = alGet (storeSet storeNew [107] [118] 0).1.sm.segments
            (storeSet storeNew [107] [118] 0).1.sm.activeID :=
  merge_observational_noop _ (Reach.set Reach.init (by decide) (by decide))
    (by
      intro k he h
      rw [show (storeSet storeNew [107] [118] 0).1.hashTable
        = [([107], ⟨1, 1, 0, 0, 0⟩)] from rfl, alGet_cons] at h
      by_cases hk : (([107] : List Nat),
          (⟨1, 1, 0, 0, 0⟩ : HashTableEntry)).1 = k
      · rw [if_pos hk] at h
        injection h with h
        rw [← h]
        decide
      · rw [if_neg hk] at h
        exact Option.noConfusion h)

/-- Counterexample to claim C1 as stated: after Set("a", "") followed by
enough Sets of "b" to seal segment 1, Merge succeeds, but Get("a") returned
the empty string before the Merge and fails with ReadOutOfBounds after it —
compaction dropped the live empty-value record. -/
theorem merge_breaks_get_after_empty_set :
    (storeMerge (runActs emptyThenMany)).2 = .ok () ∧
    storeGet (runActs emptyThenMany) aKey = .ok [] ∧
    storeGet (storeMerge (runActs emptyThenMany)).1 aKey
      = .error .readOutOfBounds := by
  have htr : runActs emptyThenMany = stFullT [] := trace_full [] (by decide)
  refine ⟨?_, ?_, ?_⟩
  · rw [htr, t3_merge]
  · rw [htr]
    exact t3_preGet
  · rw [htr, t3_merge]
    rfl

/-- Counterexample to the Merge part of claim C4: after Set("a", "A") and
enough Sets of "b" to seal segment 1, Merge succeeds and leaves two
segments with the active flag set — the store's own active segment and the
unioned-in merge workspace segment. -/
theorem merge_leaves_two_active_segments :
    (storeMerge (runActs valThenMany)).2 = .ok () ∧
    ((storeMerge (runActs valThenMany)).1.sm.segments.filter
      (fun p => p.2.isActive)).length = 2 := by
  have htr : runActs valThenMany = stFullT [65] := trace_full [65] (by decide)
  constructor
  · rw [htr, t2_merge]
  · rw [htr, t2_merge]
    rfl

/-- Counterexample to the post-Merge part of claim C6: the relocated "a"
record has serialized size 14 (12-byte header, 1-byte key, 1-byte value);
after a successful Merge its keydir entry records ValueSize 14 although Get
returns the 1-byte value "A", and Stats reports 15 total value bytes while
the live values hold 2 bytes. -/
theorem merge_stats_record_size_as_value_size :
    (storeMerge (runActs valThenMany)).2 = .ok () ∧
    alGet (storeMerge (runActs valThenMany)).1.hashTable aKey
      = some ⟨1, 14, 0, 0, 10001⟩ ∧
    storeGet (storeMerge (runActs valThenMany)).1 aKey = .ok [65] ∧
    (storeStats (storeMerge (runActs valThenMany)).1).totalSize = 15 := by
  have htr : runActs valThenMany = stFullT [65] := trace_full [65] (by decide)
  refine ⟨?_, ?_, ?_, ?_⟩
  · rw [htr, t2_merge]
  · rw [htr, t2_merge]
    rfl
  · rw [htr, t2_merge]
    rfl
  · rw [htr, t2_merge]
    rfl

end LogKV
